import Mathlib

/-
Verification of the storage-engine core (LevelDB fork) against its
natural-language specification.  The C++ sources under db/, table/ and
util/ are shallowly embedded: byte strings become `List Nat` (each byte
below 256), machine integers become `Nat` with explicit `% 2 ^ w` where
overflow matters, and fallible operations return `Option` / `Except`.
-/

namespace LevelDb

/-! ## util/coding: fixed-width and varint coding

`EncodeFixed32` / `EncodeFixed64` (util/coding.cc) write a little-endian
integer byte by byte: byte i is `(value >> (8*i)) & 0xff`, i.e.
`value / 2^(8*i) % 256`. -/

/-- EncodeFixed32 (util/coding.cc): little-endian bytes of a 32-bit value. -/
def encodeFixed32 (v : Nat) : List Nat :=
  [v % 256, v / 2 ^ 8 % 256, v / 2 ^ 16 % 256, v / 2 ^ 24 % 256]

/-- EncodeFixed64 (util/coding.cc): little-endian bytes of a 64-bit value. -/
def encodeFixed64 (v : Nat) : List Nat :=
  [v % 256, v / 2 ^ 8 % 256, v / 2 ^ 16 % 256, v / 2 ^ 24 % 256,
   v / 2 ^ 32 % 256, v / 2 ^ 40 % 256, v / 2 ^ 48 % 256, v / 2 ^ 56 % 256]

/-- Modelled from the spec: `DecodeFixed32` lives in util/coding.h, which is
not among the provided sources; the spec (§2.B) fixes it as the little-endian
inverse of `EncodeFixed32`.  Reads 4 bytes, least significant first. -/
def decodeFixed32 (bs : List Nat) : Nat :=
  bs.getD 0 0 + bs.getD 1 0 * 2 ^ 8 + bs.getD 2 0 * 2 ^ 16 + bs.getD 3 0 * 2 ^ 24

/-- Modelled from the spec: `DecodeFixed64` lives in util/coding.h, which is
not among the provided sources; the spec (§2.B) fixes it as the little-endian
inverse of `EncodeFixed64`.  Reads 8 bytes, least significant first. -/
def decodeFixed64 (bs : List Nat) : Nat :=
  bs.getD 0 0 + bs.getD 1 0 * 2 ^ 8 + bs.getD 2 0 * 2 ^ 16 + bs.getD 3 0 * 2 ^ 24
    + bs.getD 4 0 * 2 ^ 32 + bs.getD 5 0 * 2 ^ 40 + bs.getD 6 0 * 2 ^ 48
    + bs.getD 7 0 * 2 ^ 56

theorem encodeFixed32_length (v : Nat) : (encodeFixed32 v).length = 4 := rfl

theorem encodeFixed64_length (v : Nat) : (encodeFixed64 v).length = 8 := rfl

theorem decodeFixed32_encodeFixed32 (v : Nat) (h : v < 2 ^ 32) :
    decodeFixed32 (encodeFixed32 v) = v := by
  simp only [encodeFixed32, decodeFixed32, List.getD_cons_zero, List.getD_cons_succ]
  omega

theorem decodeFixed64_encodeFixed64 (v : Nat) (h : v < 2 ^ 64) :
    decodeFixed64 (encodeFixed64 v) = v := by
  simp only [encodeFixed64, decodeFixed64, List.getD_cons_zero, List.getD_cons_succ]
  omega

theorem decodeFixed32_append (v : Nat) (rest : List Nat) (h : v < 2 ^ 32) :
    decodeFixed32 (encodeFixed32 v ++ rest) = v := by
  simp only [encodeFixed32, decodeFixed32, List.cons_append, List.nil_append,
    List.getD_cons_zero, List.getD_cons_succ]
  omega

theorem decodeFixed64_append (v : Nat) (rest : List Nat) (h : v < 2 ^ 64) :
    decodeFixed64 (encodeFixed64 v ++ rest) = v := by
  simp only [encodeFixed64, decodeFixed64, List.cons_append, List.nil_append,
    List.getD_cons_zero, List.getD_cons_succ]
  omega

theorem encodeFixed32_bytes_lt (v : Nat) : ∀ b ∈ encodeFixed32 v, b < 256 := by
  simp only [encodeFixed32, List.mem_cons, List.not_mem_nil, or_false]
  rintro b (h | h | h | h) <;> subst h <;> omega

theorem encodeFixed64_bytes_lt (v : Nat) : ∀ b ∈ encodeFixed64 v, b < 256 := by
  simp only [encodeFixed64, List.mem_cons, List.not_mem_nil, or_false]
  rintro b (h | h | h | h | h | h | h | h) <;> subst h <;> omega

/-! ### Bit-level helpers for byte stores

A C `unsigned char` store truncates to the low 8 bits; these lemmas reduce
the resulting `|||` / `&&&` / `% 256` combinations to arithmetic. -/

theorem lor_small_eq_add (k b a : Nat) (h : a < 2 ^ k) : a ||| 2 ^ k * b = 2 ^ k * b + a := by
  rw [Nat.lor_comm]
  exact (Nat.mul_add_lt_is_or h b).symm

theorem land_127_eq_mod (x : Nat) : x &&& 127 = x % 128 := by
  have h := Nat.and_pow_two_sub_one_eq_mod x 7
  norm_num at h
  exact h

theorem small_land_128 (a : Nat) (h : a < 128) : a &&& 128 = 0 := by
  have ht : a.testBit 7 = false := Nat.testBit_lt_two_pow (by norm_num; omega)
  have h2 := Nat.and_two_pow a 7
  rw [ht] at h2
  norm_num at h2
  exact h2

theorem or_128_of_lt (a : Nat) (h : a < 128) : a ||| 128 = a + 128 := by
  have h1 : a < 2 ^ 7 := by norm_num; omega
  have h2 := lor_small_eq_add 7 1 a h1
  norm_num at h2
  omega

theorem or_128_of_ge (a : Nat) (h128 : 128 ≤ a) (h256 : a < 256) : a ||| 128 = a := by
  have hd : a = (a - 128) ||| 128 := by
    rw [or_128_of_lt (a - 128) (by omega)]
    omega
  conv_lhs => rw [hd]
  rw [Nat.lor_assoc, Nat.or_self, ← hd]

theorem add_128_land_128 (a : Nat) (h : a < 128) : (a + 128) &&& 128 = 128 := by
  have h1 : a + 128 = a ||| 128 := (or_128_of_lt a h).symm
  rw [h1, Nat.and_distrib_right, small_land_128 a h]
  norm_num

theorem add_128_land_127 (a : Nat) (h : a < 128) : (a + 128) &&& 127 = a := by
  rw [land_127_eq_mod]
  omega

theorem lor_128_mod_256 (x : Nat) : (x ||| 128) % 256 = x % 128 + 128 := by
  have hlt : x % 256 < 2 ^ 8 := by omega
  have hx : x = 2 ^ 8 * (x / 256) + x % 256 := by omega
  have h2 : x % 256 ||| 128 = x % 128 + 128 := by
    rcases Nat.lt_or_ge (x % 256) 128 with hc | hc
    · rw [or_128_of_lt _ hc]
      omega
    · rw [or_128_of_ge _ hc (by omega)]
      omega
  have horlt : x % 256 ||| 128 < 2 ^ 8 :=
    Nat.or_lt_two_pow hlt (by norm_num)
  have h1 : x ||| 128 = 2 ^ 8 * (x / 256) + (x % 256 ||| 128) := by
    conv_lhs => rw [hx, Nat.mul_add_lt_is_or hlt (x / 256)]
    rw [Nat.lor_assoc]
    rw [← Nat.mul_add_lt_is_or horlt (x / 256)]
  rw [h1, h2]
  omega

/-! ## util/coding: varints -/

/-- EncodeVarint32 (util/coding.cc): branches on the magnitude of `v`;
each stored byte goes through an `unsigned char`, hence the `% 256`. -/
def encodeVarint32 (v : Nat) : List Nat :=
  if v < 2 ^ 7 then [v % 256]
  else if v < 2 ^ 14 then [(v ||| 128) % 256, (v >>> 7) % 256]
  else if v < 2 ^ 21 then [(v ||| 128) % 256, ((v >>> 7) ||| 128) % 256, (v >>> 14) % 256]
  else if v < 2 ^ 28 then
    [(v ||| 128) % 256, ((v >>> 7) ||| 128) % 256, ((v >>> 14) ||| 128) % 256,
     (v >>> 21) % 256]
  else
    [(v ||| 128) % 256, ((v >>> 7) ||| 128) % 256, ((v >>> 14) ||| 128) % 256,
     ((v >>> 21) ||| 128) % 256, (v >>> 28) % 256]

/-- EncodeVarint64 (util/coding.cc): emit low seven bits with the
continuation bit while `v ≥ 128`, then the final byte. -/
def encodeVarint64 (v : Nat) : List Nat :=
  if h : v ≥ 128 then ((v &&& 127) ||| 128) :: encodeVarint64 (v >>> 7)
  else [v]
  termination_by v
  decreasing_by
    rw [Nat.shiftRight_eq_div_pow]
    omega

/-- VarintLength (util/coding.cc). -/
def varintLength (v : Nat) : Nat :=
  if h : v ≥ 128 then varintLength (v >>> 7) + 1
  else 1
  termination_by v
  decreasing_by
    rw [Nat.shiftRight_eq_div_pow]
    omega

theorem varintLength_eq_encodeVarint64_length (v : Nat) :
    varintLength v = (encodeVarint64 v).length := by
  induction v using Nat.strong_induction_on with
  | _ v ih =>
    rw [varintLength, encodeVarint64]
    by_cases h : v ≥ 128
    · rw [dif_pos h, dif_pos h, List.length_cons]
      rw [ih (v >>> 7) (by rw [Nat.shiftRight_eq_div_pow]; omega)]
    · rw [dif_neg h, dif_neg h]
      rfl

/-- GetVarint32PtrFallback (util/coding.cc): decode up to five varint bytes,
accumulating into a 32-bit result (`% 2 ^ 32` models the `uint32_t`
wraparound).  `limit` is the number of bytes before the limit pointer.
Returns the decoded value and the remaining bytes, or `none` (NULL). -/
def getVarint32Loop (p : List Nat) (limit shift result : Nat) : Option (Nat × List Nat) :=
  if shift ≤ 28 ∧ 0 < limit then
    match p with
    | [] => none
    | b :: rest =>
      if b &&& 128 ≠ 0 then
        getVarint32Loop rest (limit - 1) (shift + 7)
          (result ||| (((b &&& 127) <<< shift) % 2 ^ 32))
      else some (result ||| ((b <<< shift) % 2 ^ 32), rest)
  else none

/-- GetVarint32 on a slice (util/coding.cc): the limit is the end of the
input. -/
def getVarint32 (input : List Nat) : Option (Nat × List Nat) :=
  getVarint32Loop input input.length 0 0

/-- GetLengthPrefixedSlice on a slice (util/coding.cc): decode a varint32
length, check that enough bytes remain, and split them off. -/
def getLengthPrefixedSlice (input : List Nat) : Option (List Nat × List Nat) :=
  match getVarint32 input with
  | some (len, rest) =>
    if len ≤ rest.length then some (rest.take len, rest.drop len) else none
  | none => none

theorem encodeVarint64_low (a : Nat) (h : a < 128) : encodeVarint64 a = [a] := by
  rw [encodeVarint64, dif_neg (by omega)]

theorem encodeVarint64_high (a : Nat) (h : 128 ≤ a) :
    encodeVarint64 a = ((a ||| 128) % 256) :: encodeVarint64 (a / 128) := by
  rw [encodeVarint64, dif_pos (by omega)]
  have hs : a >>> 7 = a / 128 := by rw [Nat.shiftRight_eq_div_pow]
  rw [hs]
  congr 1
  rw [land_127_eq_mod, or_128_of_lt _ (Nat.mod_lt _ (by norm_num)), lor_128_mod_256]

theorem encodeVarint64_eq_encodeVarint32 (v : Nat) (h : v < 2 ^ 32) :
    encodeVarint64 v = encodeVarint32 v := by
  have hs7 : v >>> 7 = v / 128 := by rw [Nat.shiftRight_eq_div_pow]
  have hs14 : v >>> 14 = v / 16384 := by rw [Nat.shiftRight_eq_div_pow]
  have hs21 : v >>> 21 = v / 2097152 := by rw [Nat.shiftRight_eq_div_pow]
  have hs28 : v >>> 28 = v / 268435456 := by rw [Nat.shiftRight_eq_div_pow]
  have h32 : v < 4294967296 := by norm_num at h; omega
  unfold encodeVarint32
  by_cases h1 : v < 2 ^ 7
  · norm_num at h1
    rw [if_pos (by norm_num; omega), encodeVarint64_low v h1, Nat.mod_eq_of_lt (by omega)]
  norm_num at h1
  rw [if_neg (by norm_num; omega)]
  by_cases h2 : v < 2 ^ 14
  · norm_num at h2
    rw [if_pos (by norm_num; omega)]
    rw [encodeVarint64_high v (by omega), encodeVarint64_low _ (by omega)]
    rw [hs7, Nat.mod_eq_of_lt (show v / 128 < 256 by omega)]
  norm_num at h2
  rw [if_neg (by norm_num; omega)]
  by_cases h3 : v < 2 ^ 21
  · norm_num at h3
    rw [if_pos (by norm_num; omega)]
    rw [encodeVarint64_high v (by omega), encodeVarint64_high _ (by omega),
      encodeVarint64_low _ (by omega)]
    rw [hs7, hs14, show v / 128 / 128 = v / 16384 by omega,
      Nat.mod_eq_of_lt (show v / 16384 < 256 by omega)]
  norm_num at h3
  rw [if_neg (by norm_num; omega)]
  by_cases h4 : v < 2 ^ 28
  · norm_num at h4
    rw [if_pos (by norm_num; omega)]
    rw [encodeVarint64_high v (by omega), encodeVarint64_high _ (by omega),
      encodeVarint64_high _ (by omega), encodeVarint64_low _ (by omega)]
    rw [hs7, hs14, hs21, show v / 128 / 128 = v / 16384 by omega,
      show v / 16384 / 128 = v / 2097152 by omega,
      Nat.mod_eq_of_lt (show v / 2097152 < 256 by omega)]
  norm_num at h4
  rw [if_neg (by norm_num; omega)]
  rw [encodeVarint64_high v (by omega), encodeVarint64_high _ (by omega),
    encodeVarint64_high _ (by omega), encodeVarint64_high _ (by omega),
    encodeVarint64_low _ (by omega)]
  rw [hs7, hs14, hs21, hs28, show v / 128 / 128 = v / 16384 by omega,
    show v / 16384 / 128 = v / 2097152 by omega,
    show v / 2097152 / 128 = v / 268435456 by omega,
    Nat.mod_eq_of_lt (show v / 268435456 < 256 by omega)]

theorem encodeVarint64_bytes_lt (v : Nat) : ∀ b ∈ encodeVarint64 v, b < 256 := by
  induction v using Nat.strong_induction_on with
  | _ v ih =>
    rw [encodeVarint64]
    by_cases h : v ≥ 128
    · rw [dif_pos h]
      intro b hb
      rcases List.mem_cons.mp hb with h1 | h1
      · subst h1
        rw [land_127_eq_mod, or_128_of_lt _ (Nat.mod_lt _ (by norm_num))]
        omega
      · exact ih (v >>> 7) (by rw [Nat.shiftRight_eq_div_pow]; omega) b h1
    · rw [dif_neg h]
      intro b hb
      simp only [List.mem_singleton] at hb
      omega

/-- Main varint decode round-trip, stated for the loop encoder at
continuation level `k` (shift `7 * k`). -/
theorem getVarint32Loop_encodeVarint64 (v : Nat) : ∀ k acc rest limit,
    v < 2 ^ (32 - 7 * k) → k ≤ 4 → acc < 2 ^ (7 * k) →
    (encodeVarint64 v).length ≤ limit →
    getVarint32Loop (encodeVarint64 v ++ rest) limit (7 * k) acc =
      some (acc + v * 2 ^ (7 * k), rest) := by
  induction v using Nat.strong_induction_on with
  | _ v ih =>
    intro k acc rest limit hv hk hacc hlim
    rw [encodeVarint64] at hlim ⊢
    by_cases h : v ≥ 128
    · have hk3 : k ≤ 3 := by
        by_contra hc
        have hk4 : k = 4 := by omega
        subst hk4
        norm_num at hv
        omega
      rw [dif_pos h] at hlim ⊢
      have hlim1 : 0 < limit := by
        simp only [List.length_cons] at hlim
        omega
      rw [List.cons_append, getVarint32Loop]
      rw [if_pos ⟨by omega, hlim1⟩]
      have hbyte : (v &&& 127) ||| 128 = v % 128 + 128 := by
        rw [land_127_eq_mod, or_128_of_lt _ (Nat.mod_lt _ (by norm_num))]
      have hmod : v % 128 < 128 := Nat.mod_lt _ (by norm_num)
      rw [if_pos (by rw [hbyte, add_128_land_128 _ hmod]; omega)]
      rw [hbyte, add_128_land_127 _ hmod]
      have hsh : (v % 128) <<< (7 * k) = v % 128 * 2 ^ (7 * k) := Nat.shiftLeft_eq _ _
      have hpow7 : (128 : Nat) * 2 ^ (7 * k) = 2 ^ (7 * (k + 1)) := by
        rw [show 7 * (k + 1) = 7 + 7 * k by ring, pow_add]
        norm_num
      have hshlt : v % 128 * 2 ^ (7 * k) < 2 ^ (7 * (k + 1)) := by
        calc v % 128 * 2 ^ (7 * k) < 128 * 2 ^ (7 * k) :=
              mul_lt_mul_of_pos_right hmod (by positivity)
        _ = 2 ^ (7 * (k + 1)) := hpow7
      have hlt32 : v % 128 * 2 ^ (7 * k) < 2 ^ 32 := by
        calc v % 128 * 2 ^ (7 * k) < 2 ^ (7 * (k + 1)) := hshlt
        _ ≤ 2 ^ 32 := Nat.pow_le_pow_right (by norm_num) (by omega)
      rw [hsh, Nat.mod_eq_of_lt hlt32]
      have hor : acc ||| v % 128 * 2 ^ (7 * k) = 2 ^ (7 * k) * (v % 128) + acc := by
        rw [show v % 128 * 2 ^ (7 * k) = 2 ^ (7 * k) * (v % 128) by ring]
        exact lor_small_eq_add _ _ _ hacc
      rw [hor]
      have hrec := ih (v >>> 7) (by rw [Nat.shiftRight_eq_div_pow]; omega) (k + 1)
        (2 ^ (7 * k) * (v % 128) + acc) rest (limit - 1)
      have hv7 : v >>> 7 < 2 ^ (32 - 7 * (k + 1)) := by
        rw [Nat.shiftRight_eq_div_pow]
        have h2 : (2 : Nat) ^ 7 * 2 ^ (32 - 7 * (k + 1)) = 2 ^ (32 - 7 * k) := by
          rw [← pow_add]
          congr 1
          omega
        exact Nat.div_lt_of_lt_mul (by omega)
      have haccnew : 2 ^ (7 * k) * (v % 128) + acc < 2 ^ (7 * (k + 1)) := by
        calc 2 ^ (7 * k) * (v % 128) + acc < 2 ^ (7 * k) * (v % 128) + 2 ^ (7 * k) := by omega
        _ = 2 ^ (7 * k) * (v % 128 + 1) := by ring
        _ ≤ 2 ^ (7 * k) * 128 := Nat.mul_le_mul_left _ (by omega)
        _ = 2 ^ (7 * (k + 1)) := by rw [← hpow7]; ring
      have hreceq := hrec hv7 (by omega) haccnew
        (by simp only [List.length_cons] at hlim; omega)
      rw [show 7 * k + 7 = 7 * (k + 1) by ring, hreceq]
      congr 2
      have hvd : v >>> 7 = v / 128 := by rw [Nat.shiftRight_eq_div_pow]
      have hpow : (2 : Nat) ^ (7 * (k + 1)) = 2 ^ (7 * k) * 128 := by rw [← hpow7]; ring
      rw [hvd, hpow]
      have hv128 : v = 128 * (v / 128) + v % 128 := by omega
      conv_rhs => rw [hv128]
      ring
    · rw [dif_neg h] at hlim ⊢
      have hlim1 : 0 < limit := by
        simp only [List.length_singleton] at hlim
        omega
      rw [List.cons_append, getVarint32Loop]
      rw [if_pos ⟨by omega, hlim1⟩]
      rw [if_neg (by rw [small_land_128 v (by omega)]; simp)]
      have hsh : v <<< (7 * k) = v * 2 ^ (7 * k) := Nat.shiftLeft_eq _ _
      have hlt32 : v * 2 ^ (7 * k) < 2 ^ 32 := by
        calc v * 2 ^ (7 * k) < 2 ^ (32 - 7 * k) * 2 ^ (7 * k) :=
              mul_lt_mul_of_pos_right hv (by positivity)
        _ = 2 ^ 32 := by rw [← pow_add]; congr 1; omega
      rw [hsh, Nat.mod_eq_of_lt hlt32]
      congr 2
      rw [show v * 2 ^ (7 * k) = 2 ^ (7 * k) * v by ring]
      rw [lor_small_eq_add _ _ _ hacc]
      omega

/-- Varint32 round-trip: decoding an encoded value (with arbitrary trailing
bytes) recovers the value and the trailing bytes. -/
theorem getVarint32_encodeVarint32 (v : Nat) (rest : List Nat) (h : v < 2 ^ 32) :
    getVarint32 (encodeVarint32 v ++ rest) = some (v, rest) := by
  unfold getVarint32
  rw [← encodeVarint64_eq_encodeVarint32 v h]
  have hres := getVarint32Loop_encodeVarint64 v 0 0 rest
    ((encodeVarint64 v ++ rest).length) (by norm_num; omega) (by omega) (by norm_num)
    (by rw [List.length_append]; omega)
  norm_num at hres
  rw [List.length_append]
  exact hres

/-! ## db/dbformat: internal keys -/

/-- Value types (db/dbformat.h): `kTypeDeletion = 0`, `kTypeValue = 1`. -/
def kTypeDeletion : Nat := 0

/-- Value type of ordinary key/value records (db/dbformat.h). -/
def kTypeValue : Nat := 1

/-- Seek tag type (db/dbformat.h): `kValueTypeForSeek = kTypeValue`. -/
def kValueTypeForSeek : Nat := kTypeValue

/-- Largest sequence number (db/dbformat.h): `(1 << 56) - 1`. -/
def kMaxSequenceNumber : Nat := (1 <<< 56) - 1

/-- PackSequenceAndType (db/dbformat.cc): `(seq << 8) | t`. -/
def packSequenceAndType (seq t : Nat) : Nat := seq <<< 8 ||| t

theorem packSequenceAndType_eq (seq t : Nat) (ht : t < 256) :
    packSequenceAndType seq t = 256 * seq + t := by
  unfold packSequenceAndType
  rw [Nat.shiftLeft_eq, Nat.mul_comm, ← Nat.mul_add_lt_is_or ht seq]

theorem kMaxSequenceNumber_eq : kMaxSequenceNumber = 2 ^ 56 - 1 := by
  unfold kMaxSequenceNumber
  rw [Nat.shiftLeft_eq]
  norm_num

theorem packSequenceAndType_lt (seq t : Nat) (hs : seq ≤ kMaxSequenceNumber)
    (ht : t < 256) : packSequenceAndType seq t < 2 ^ 64 := by
  rw [packSequenceAndType_eq seq t ht]
  rw [kMaxSequenceNumber_eq] at hs
  have h56 : (2 : Nat) ^ 56 - 1 < 2 ^ 56 := by omega
  have : (256 : Nat) * seq + t < 256 * 2 ^ 56 := by omega
  omega

/-- ExtractUserKey (db/dbformat.h): all but the trailing 8 bytes. -/
def extractUserKey (k : List Nat) : List Nat := k.take (k.length - 8)

/-- The trailing 8 bytes of an internal key decoded as a fixed64, as read by
`InternalKeyComparator::Compare` (db/dbformat.cc line 64). -/
def trailingTag (k : List Nat) : Nat := decodeFixed64 (k.drop (k.length - 8))

/-- AppendInternalKey (db/dbformat.cc): user key followed by the packed tag. -/
def appendInternalKey (userKey : List Nat) (seq t : Nat) : List Nat :=
  userKey ++ encodeFixed64 (packSequenceAndType seq t)

theorem extractUserKey_appendInternalKey (u : List Nat) (seq t : Nat) :
    extractUserKey (appendInternalKey u seq t) = u := by
  unfold extractUserKey appendInternalKey
  rw [List.length_append, encodeFixed64_length]
  simp [List.take_append_of_le_length]

theorem trailingTag_appendInternalKey (u : List Nat) (seq t : Nat)
    (hs : seq ≤ kMaxSequenceNumber) (ht : t < 256) :
    trailingTag (appendInternalKey u seq t) = packSequenceAndType seq t := by
  unfold trailingTag appendInternalKey
  rw [List.length_append, encodeFixed64_length]
  rw [show u.length + 8 - 8 = u.length + 0 by omega, List.drop_append]
  simpa using decodeFixed64_encodeFixed64 _ (packSequenceAndType_lt seq t hs ht)

/-- InternalKeyComparator::Compare (db/dbformat.cc lines 57-73), parameterised
by the user comparator `ucmp`: compare the user-key portions; on a tie compare
the trailing packed tags, larger tag first. -/
def icmpCompare (ucmp : List Nat → List Nat → Int) (akey bkey : List Nat) : Int :=
  let r := ucmp (extractUserKey akey) (extractUserKey bkey)
  if r = 0 then
    let anum := trailingTag akey
    let bnum := trailingTag bkey
    if anum > bnum then -1 else if anum < bnum then 1 else 0
  else r

/-- C1: for internal keys `a = u_a ++ pack(s_a, t_a)` and
`b = u_b ++ pack(s_b, t_b)`, `InternalKeyComparator::Compare` orders by the
user comparator first (`ucmp u_a u_b < 0` gives `Compare a b < 0`), and on
equal user keys the sign of `Compare a b` is the sign of the packed tag of
`b` minus the packed tag of `a` (so larger sequence, then larger type, sorts
first). -/
theorem c1_internal_key_comparator_orders
    (ucmp : List Nat → List Nat → Int) (ua ub : List Nat) (sa sb ta tb : Nat)
    (hsa : sa ≤ kMaxSequenceNumber) (hsb : sb ≤ kMaxSequenceNumber)
    (hta : ta ≤ kValueTypeForSeek) (htb : tb ≤ kValueTypeForSeek) :
    (ucmp ua ub < 0 →
      icmpCompare ucmp (appendInternalKey ua sa ta) (appendInternalKey ub sb tb) < 0) ∧
    (ucmp ua ub = 0 →
      (icmpCompare ucmp (appendInternalKey ua sa ta)
          (appendInternalKey ub sb tb)).sign =
        ((packSequenceAndType sb tb : Int) - (packSequenceAndType sa ta : Int)).sign) := by
  have hta' : ta < 256 := by
    have : kValueTypeForSeek = 1 := rfl
    omega
  have htb' : tb < 256 := by
    have : kValueTypeForSeek = 1 := rfl
    omega
  have hu : icmpCompare ucmp (appendInternalKey ua sa ta)
      (appendInternalKey ub sb tb) =
      (if ucmp ua ub = 0 then
        (if packSequenceAndType sa ta > packSequenceAndType sb tb then -1
         else if packSequenceAndType sa ta < packSequenceAndType sb tb then 1 else 0)
       else ucmp ua ub) := by
    unfold icmpCompare
    rw [extractUserKey_appendInternalKey, extractUserKey_appendInternalKey,
      trailingTag_appendInternalKey ua sa ta hsa hta',
      trailingTag_appendInternalKey ub sb tb hsb htb']
  constructor
  · intro hlt
    rw [hu, if_neg (by omega)]
    exact hlt
  · intro heq
    rw [hu, if_pos heq]
    rcases lt_trichotomy (packSequenceAndType sa ta) (packSequenceAndType sb tb) with
      h | h | h
    · rw [if_neg (by omega), if_pos h]
      have hc : ((packSequenceAndType sa ta : Int)) < (packSequenceAndType sb tb : Int) :=
        Int.ofNat_lt.mpr h
      have hpos : (0 : Int) < (packSequenceAndType sb tb : Int) -
          (packSequenceAndType sa ta : Int) := by omega
      rw [Int.sign_eq_one_of_pos hpos]
      rfl
    · rw [if_neg (by omega), if_neg (by omega), h]
      simp
    · rw [if_pos h]
      have hc : ((packSequenceAndType sb tb : Int)) < (packSequenceAndType sa ta : Int) :=
        Int.ofNat_lt.mpr h
      have hneg : (packSequenceAndType sb tb : Int) -
          (packSequenceAndType sa ta : Int) < 0 := by omega
      rw [Int.sign_eq_neg_one_of_neg hneg]
      rfl

/-! ## db/dbformat: LookupKey (claim C9) -/

/-- Size of the LookupKey inline buffer `space_` (db/dbformat.h line 240). -/
def lookupKeySpaceSize : Nat := 200

/-- Conservative size estimate computed by the LookupKey constructor
(db/dbformat.cc line 140): `usize + 13`. -/
def lookupKeyNeeded (usize : Nat) : Nat := usize + 13

/-- Buffer choice of the LookupKey constructor (db/dbformat.cc line 144):
the inline array is used iff `needed ≤ sizeof(space_)`; otherwise the buffer
is heap-allocated with `new`. -/
def lookupKeyUsesInline (usize : Nat) : Bool :=
  decide (lookupKeyNeeded usize ≤ lookupKeySpaceSize)

/-- The bytes the LookupKey constructor writes (db/dbformat.cc lines 150-163):
varint32 of `usize + 8`, the user key, then the 8-byte tag
`pack(s, kValueTypeForSeek)`. -/
def lookupKeyBytes (userKey : List Nat) (s : Nat) : List Nat :=
  encodeVarint32 (userKey.length + 8) ++ userKey ++
    encodeFixed64 (packSequenceAndType s kValueTypeForSeek)

theorem encodeVarint32_length_le (v : Nat) : (encodeVarint32 v).length ≤ 5 := by
  unfold encodeVarint32
  split_ifs <;> simp

/-- C9 counterexample: for a 188-byte user key the total encoded length is
198 ≤ 200 bytes, yet the constructor heap-allocates, because its inline test
uses the conservative estimate `188 + 13 = 201 > 200`, not the encoded
length.  This refutes "heap-allocates only when the total encoded length
exceeds 200 bytes". -/
theorem c9_counterexample :
    lookupKeyUsesInline (List.replicate 188 (0 : Nat)).length = false ∧
    (lookupKeyBytes (List.replicate 188 (0 : Nat)) 1).length = 198 := by
  constructor
  · simp only [List.length_replicate]
    rfl
  · simp only [lookupKeyBytes, List.length_append, List.length_replicate,
      encodeFixed64_length]
    rfl

/-- C9 amended: the constructor stores the encoding inline exactly when the
conservative estimate `usize + 13` is at most 200 — equivalently the user key
is at most 187 bytes — and that estimate always bounds the true encoded
length (so every inline key indeed fits).  The estimate is strict: a user
key of 188 to 190 bytes has total encoded length at most 200 bytes (the
length prefix `usize + 8` takes two varint bytes, so the encoding is
`usize + 10` bytes) yet is heap-allocated. -/
theorem c9_lookup_key_inline_amended (userKey : List Nat) (s : Nat) :
    lookupKeyUsesInline userKey.length = decide (userKey.length ≤ 187) ∧
    (lookupKeyBytes userKey s).length ≤ lookupKeyNeeded userKey.length ∧
    (188 ≤ userKey.length → userKey.length ≤ 190 →
      lookupKeyUsesInline userKey.length = false ∧
      (lookupKeyBytes userKey s).length ≤ lookupKeySpaceSize) := by
  refine ⟨?_, ?_, ?_⟩
  · unfold lookupKeyUsesInline lookupKeyNeeded lookupKeySpaceSize
    by_cases h : userKey.length ≤ 187
    · rw [decide_eq_true (by omega), decide_eq_true h]
    · rw [decide_eq_false (by omega), decide_eq_false h]
  · unfold lookupKeyBytes lookupKeyNeeded
    have h1 := encodeVarint32_length_le (userKey.length + 8)
    rw [List.length_append, List.length_append, encodeFixed64_length]
    omega
  · intro h1 h2
    have hv2 : (encodeVarint32 (userKey.length + 8)).length = 2 := by
      unfold encodeVarint32
      rw [if_neg (by omega), if_pos (by omega)]
      rfl
    constructor
    · unfold lookupKeyUsesInline lookupKeyNeeded lookupKeySpaceSize
      exact decide_eq_false (by omega)
    · unfold lookupKeyBytes lookupKeySpaceSize
      rw [List.length_append, List.length_append, encodeFixed64_length, hv2]
      omega

/-- C9 witness: a concrete 189-byte user key is heap-allocated although its
encoding takes only 199 ≤ 200 bytes. -/
theorem c9_witness :
    lookupKeyUsesInline (List.replicate 189 (0 : Nat)).length = false ∧
    (lookupKeyBytes (List.replicate 189 (0 : Nat)) 7).length ≤
      lookupKeySpaceSize :=
  (c9_lookup_key_inline_amended (List.replicate 189 0) 7).2.2
    (by rw [List.length_replicate]; decide)
    (by rw [List.length_replicate]; decide)

/-! ## table/table_builder: block compression decision (claim C8) -/

/-- Compression types as stored in the block trailer
(include/leveldb/options.h): only these two occur. -/
inductive CompressionType
  | kNoCompression
  | kSnappyCompression
  deriving DecidableEq

/-- TableBuilder::WriteBlock (table/table_builder.cc lines 162-198): choose
the stored block contents and trailer compression type.  `snappy` is the
result of `port::Snappy_Compress` on the raw bytes — an external collaborator
(the spec treats it as opaque), `none` when compression is unsupported or
fails.  The source keeps the compressed form only when
`compressed->size() < raw.size() - (raw.size() / 8u)`. -/
def writeBlockContents (ctype : CompressionType) (snappy : Option (List Nat))
    (raw : List Nat) : List Nat × CompressionType :=
  match ctype with
  | .kNoCompression => (raw, .kNoCompression)
  | .kSnappyCompression =>
    match snappy with
    | some compressed =>
      if compressed.length < raw.length - raw.length / 8 then
        (compressed, .kSnappyCompression)
      else (raw, .kNoCompression)
    | none => (raw, .kNoCompression)

/-- C8: the integer acceptance test `compressed < raw - raw / 8` is, for all
sizes, equivalent to the strict threshold `compressed < raw * 7/8` (stated
integrally as `8 * compressed < 7 * raw`); consequently with Snappy
configured the compressed form is stored, with type Snappy, iff compression
succeeded and met that threshold, and otherwise the raw bytes are stored
with type NoCompression. -/
theorem c8_snappy_threshold :
    (∀ c r : Nat, (c < r - r / 8) ↔ 8 * c < 7 * r) ∧
    (∀ (snappy : Option (List Nat)) (raw : List Nat),
      writeBlockContents .kSnappyCompression snappy raw =
        match snappy with
        | some compressed =>
          if 8 * compressed.length < 7 * raw.length then
            (compressed, CompressionType.kSnappyCompression)
          else (raw, CompressionType.kNoCompression)
        | none => (raw, CompressionType.kNoCompression)) := by
  constructor
  · intro c r
    omega
  · intro snappy raw
    cases snappy with
    | none => rfl
    | some compressed =>
      simp only [writeBlockContents]
      by_cases hc : 8 * compressed.length < 7 * raw.length
      · rw [if_pos (by omega), if_pos hc]
      · rw [if_neg (by omega), if_neg hc]

/-! ## table/filter_block: FilterBlockReader (claim C10) -/

/-- State of a FilterBlockReader (table/filter_block.h): `offsetStart` models
`offset_ - data_` and `num` the entry count; an early constructor return
leaves `num = 0`, which makes every probe fall through to `true` exactly as
dereferencing never happens in the source. -/
structure FilterBlockReader where
  contents : List Nat
  offsetStart : Nat
  num : Nat
  baseLg : Nat

/-- FilterBlockReader constructor (table/filter_block.cc lines 92-107). -/
def mkFilterBlockReader (contents : List Nat) : FilterBlockReader :=
  let n := contents.length
  if n < 5 then ⟨contents, 0, 0, 0⟩
  else
    let baseLg := contents.getD (n - 1) 0
    let lastWord := decodeFixed32 (contents.drop (n - 5))
    if lastWord > n - 5 then ⟨contents, 0, 0, baseLg⟩
    else ⟨contents, lastWord, (n - 5 - lastWord) / 4, baseLg⟩

/-- FilterBlockReader::KeyMayMatch (table/filter_block.cc lines 109-123),
parameterised by the policy's `KeyMayMatch` (an external collaborator). -/
def keyMayMatch (policy : List Nat → List Nat → Bool) (r : FilterBlockReader)
    (blockOffset : Nat) (key : List Nat) : Bool :=
  let index := blockOffset >>> r.baseLg
  if index < r.num then
    let start := decodeFixed32 (r.contents.drop (r.offsetStart + index * 4))
    let limit := decodeFixed32 (r.contents.drop (r.offsetStart + index * 4 + 4))
    if start ≤ limit ∧ limit ≤ r.offsetStart then
      policy key ((r.contents.drop start).take (limit - start))
    else if start = limit then false
    else true
  else true

/-- C10 counterexample: a filter block whose bucket 0 records the empty,
in-bounds range `start = limit = 0`.  The bucket index is in range and the
range is empty, yet `KeyMayMatch` consults the policy on a zero-length filter
rather than answering the definite `false` the claim promises: with a policy
that conservatively answers `true` on every filter, the probe returns
`true`. -/
theorem c10_counterexample :
    (let contents := encodeFixed32 0 ++ encodeFixed32 0 ++ encodeFixed32 0 ++ [0]
     let r := mkFilterBlockReader contents
     (0 : Nat) >>> r.baseLg < r.num ∧
     decodeFixed32 (r.contents.drop (r.offsetStart + 0 * 4)) =
       decodeFixed32 (r.contents.drop (r.offsetStart + 0 * 4 + 4)) ∧
     keyMayMatch (fun _ _ => true) r 0 [] = true) := by
  decide

/-- C10 amended: for an in-range bucket index, an empty recorded range that
lies within the offset array is passed to the policy as a zero-length filter
(the result is the policy's verdict, `false` for the Bloom policy but not in
general); the reader itself answers the definite `false` only when
`start = limit` yet `limit` exceeds the offset-array base; an out-of-range
bucket index or an inverted pair (`limit < start`), and an in-bounds
non-empty range, behave as before (`true` and the policy verdict,
respectively). -/
theorem c10_key_may_match_amended (policy : List Nat → List Nat → Bool)
    (r : FilterBlockReader) (blockOffset : Nat) (key : List Nat) :
    (r.num ≤ blockOffset >>> r.baseLg →
      keyMayMatch policy r blockOffset key = true) ∧
    (blockOffset >>> r.baseLg < r.num →
      (let index := blockOffset >>> r.baseLg
       let start := decodeFixed32 (r.contents.drop (r.offsetStart + index * 4))
       let limit := decodeFixed32 (r.contents.drop (r.offsetStart + index * 4 + 4))
       (start ≤ limit → limit ≤ r.offsetStart →
         keyMayMatch policy r blockOffset key =
           policy key ((r.contents.drop start).take (limit - start))) ∧
       (start = limit → r.offsetStart < limit →
         keyMayMatch policy r blockOffset key = false) ∧
       (limit < start →
         keyMayMatch policy r blockOffset key = true))) := by
  constructor
  · intro h
    unfold keyMayMatch
    rw [if_neg (by omega)]
  · intro h
    refine ⟨?_, ?_, ?_⟩
    · intro h1 h2
      unfold keyMayMatch
      rw [if_pos h, if_pos ⟨h1, h2⟩]
    · intro h1 h2
      unfold keyMayMatch
      rw [if_pos h, if_neg (by omega), if_pos h1]
    · intro h1
      unfold keyMayMatch
      rw [if_pos h, if_neg (by omega), if_neg (by omega)]

/-- Witness for the amended C10 at the counterexample input: the empty
in-bounds range of bucket 0 makes the probe return the policy's verdict on
the empty filter. -/
theorem c10_witness :
    ((0 : Nat) >>> (mkFilterBlockReader
        (encodeFixed32 0 ++ encodeFixed32 0 ++ encodeFixed32 0 ++ [0])).baseLg <
      (mkFilterBlockReader
        (encodeFixed32 0 ++ encodeFixed32 0 ++ encodeFixed32 0 ++ [0])).num) ∧
    keyMayMatch (fun _ _ => true)
      (mkFilterBlockReader (encodeFixed32 0 ++ encodeFixed32 0 ++ encodeFixed32 0 ++ [0]))
      0 [] = true := by
  refine ⟨by decide, ?_⟩
  have h := ((c10_key_may_match_amended (fun _ _ => true)
      (mkFilterBlockReader (encodeFixed32 0 ++ encodeFixed32 0 ++ encodeFixed32 0 ++ [0]))
      0 []).2 (by decide)).1 (by decide) (by decide)
  exact h.trans rfl

/-- Witness for C1 at a concrete instance: user keys `[97]` and `[97]` with the
constant-zero user comparator, tags `(5, 1)` and `(7, 0)`. -/
theorem c1_witness :
    ((5 ≤ kMaxSequenceNumber ∧ 7 ≤ kMaxSequenceNumber ∧
      1 ≤ kValueTypeForSeek ∧ 0 ≤ kValueTypeForSeek) ∧
     ((fun (_ _ : List Nat) => (0 : Int)) [97] [97] = 0 →
      (icmpCompare (fun _ _ => 0) (appendInternalKey [97] 5 1)
          (appendInternalKey [97] 7 0)).sign =
        ((packSequenceAndType 7 0 : Int) - (packSequenceAndType 5 1 : Int)).sign)) :=
  ⟨by decide,
   (c1_internal_key_comparator_orders (fun _ _ => 0) [97] [97] 5 7 1 0
      (by decide) (by decide) (by decide) (by decide)).2⟩

/-! ## db/dbformat: shortening operations (claim C7) -/

/-- InternalKeyComparator::FindShortestSeparator (db/dbformat.cc lines
77-96), parameterised by the user comparator `ucmp` and the user
FindShortestSeparator `ufss` (the value the user operation leaves in `tmp`).
If the user portion became physically shorter and logically larger, the
maximal tag is appended; otherwise `start` is left unchanged. -/
def icmpFindShortestSeparator (ucmp : List Nat → List Nat → Int)
    (ufss : List Nat → List Nat → List Nat) (start limit : List Nat) : List Nat :=
  let userStart := extractUserKey start
  let userLimit := extractUserKey limit
  let tmp := ufss userStart userLimit
  if tmp.length < userStart.length ∧ ucmp userStart tmp < 0 then
    tmp ++ encodeFixed64 (packSequenceAndType kMaxSequenceNumber kValueTypeForSeek)
  else start

/-- InternalKeyComparator::FindShortSuccessor (db/dbformat.cc lines 100-113),
parameterised likewise by `ucmp` and the user FindShortSuccessor `ufsucc`. -/
def icmpFindShortSuccessor (ucmp : List Nat → List Nat → Int)
    (ufsucc : List Nat → List Nat) (key : List Nat) : List Nat :=
  let userKey := extractUserKey key
  let tmp := ufsucc userKey
  if tmp.length < userKey.length ∧ ucmp userKey tmp < 0 then
    tmp ++ encodeFixed64 (packSequenceAndType kMaxSequenceNumber kValueTypeForSeek)
  else key

theorem icmp_self (ucmp : List Nat → List Nat → Int) (u : List Nat) (s t : Nat)
    (hrefl : ucmp u u = 0) (hs : s ≤ kMaxSequenceNumber) (ht : t < 256) :
    icmpCompare ucmp (appendInternalKey u s t) (appendInternalKey u s t) = 0 := by
  unfold icmpCompare
  rw [extractUserKey_appendInternalKey, trailingTag_appendInternalKey u s t hs ht, hrefl]
  simp

/-- C7: assuming the user comparator is reflexive and its
FindShortestSeparator obeys its contract (it either leaves the key unchanged
or produces a separator `s` with `start ≤ s < limit` in user order), then for
internal keys `start < limit`: the new start satisfies
`start ≤ new ∧ new < limit` in internal-key order; FindShortSuccessor
satisfies `key ≤ new`; and whenever the user portion became shorter and
strictly larger, the tag `(kMaxSequenceNumber, kValueTypeForSeek)` is
appended and the result is strictly greater than the original. -/
theorem c7_shortening_contracts
    (ucmp : List Nat → List Nat → Int) (ufss : List Nat → List Nat → List Nat)
    (ufsucc : List Nat → List Nat)
    (ua ul uk : List Nat) (sa sl sk ta tl tk : Nat)
    (hsa : sa ≤ kMaxSequenceNumber) (hsl : sl ≤ kMaxSequenceNumber)
    (hsk : sk ≤ kMaxSequenceNumber)
    (hta : ta ≤ kValueTypeForSeek) (htl : tl ≤ kValueTypeForSeek)
    (htk : tk ≤ kValueTypeForSeek)
    (hrefla : ucmp ua ua = 0) (hreflk : ucmp uk uk = 0)
    (hcontract : ufss ua ul = ua ∨
      (ucmp ua (ufss ua ul) ≤ 0 ∧ ucmp (ufss ua ul) ul < 0))
    (hlt : icmpCompare ucmp (appendInternalKey ua sa ta)
      (appendInternalKey ul sl tl) < 0) :
    (icmpCompare ucmp (appendInternalKey ua sa ta)
        (icmpFindShortestSeparator ucmp ufss (appendInternalKey ua sa ta)
          (appendInternalKey ul sl tl)) ≤ 0 ∧
      icmpCompare ucmp
        (icmpFindShortestSeparator ucmp ufss (appendInternalKey ua sa ta)
          (appendInternalKey ul sl tl))
        (appendInternalKey ul sl tl) < 0) ∧
    (icmpCompare ucmp (appendInternalKey uk sk tk)
        (icmpFindShortSuccessor ucmp ufsucc (appendInternalKey uk sk tk)) ≤ 0) ∧
    ((ufss ua ul).length < ua.length → ucmp ua (ufss ua ul) < 0 →
      icmpFindShortestSeparator ucmp ufss (appendInternalKey ua sa ta)
          (appendInternalKey ul sl tl) =
        ufss ua ul ++
          encodeFixed64 (packSequenceAndType kMaxSequenceNumber kValueTypeForSeek) ∧
      icmpCompare ucmp (appendInternalKey ua sa ta)
        (icmpFindShortestSeparator ucmp ufss (appendInternalKey ua sa ta)
          (appendInternalKey ul sl tl)) < 0) ∧
    ((ufsucc uk).length < uk.length → ucmp uk (ufsucc uk) < 0 →
      icmpFindShortSuccessor ucmp ufsucc (appendInternalKey uk sk tk) =
        ufsucc uk ++
          encodeFixed64 (packSequenceAndType kMaxSequenceNumber kValueTypeForSeek) ∧
      icmpCompare ucmp (appendInternalKey uk sk tk)
        (icmpFindShortSuccessor ucmp ufsucc (appendInternalKey uk sk tk)) < 0) := by
  have hta' : ta < 256 := by
    have hv : kValueTypeForSeek = 1 := rfl
    omega
  have htl' : tl < 256 := by
    have hv : kValueTypeForSeek = 1 := rfl
    omega
  have htk' : tk < 256 := by
    have hv : kValueTypeForSeek = 1 := rfl
    omega
  have hsepdef : icmpFindShortestSeparator ucmp ufss (appendInternalKey ua sa ta)
      (appendInternalKey ul sl tl) =
      (if (ufss ua ul).length < ua.length ∧ ucmp ua (ufss ua ul) < 0 then
        ufss ua ul ++
          encodeFixed64 (packSequenceAndType kMaxSequenceNumber kValueTypeForSeek)
      else appendInternalKey ua sa ta) := by
    unfold icmpFindShortestSeparator
    rw [extractUserKey_appendInternalKey, extractUserKey_appendInternalKey]
  have hsucdef : icmpFindShortSuccessor ucmp ufsucc (appendInternalKey uk sk tk) =
      (if (ufsucc uk).length < uk.length ∧ ucmp uk (ufsucc uk) < 0 then
        ufsucc uk ++
          encodeFixed64 (packSequenceAndType kMaxSequenceNumber kValueTypeForSeek)
      else appendInternalKey uk sk tk) := by
    unfold icmpFindShortSuccessor
    rw [extractUserKey_appendInternalKey]
  have hstart_new : ∀ (u : List Nat) (s t : Nat), s ≤ kMaxSequenceNumber → t < 256 →
      ∀ tmp : List Nat, ucmp u tmp < 0 →
      icmpCompare ucmp (appendInternalKey u s t)
        (tmp ++ encodeFixed64 (packSequenceAndType kMaxSequenceNumber kValueTypeForSeek)) < 0 := by
    intro u s t hs ht tmp hcl
    unfold icmpCompare
    rw [extractUserKey_appendInternalKey,
      show tmp ++ encodeFixed64 (packSequenceAndType kMaxSequenceNumber kValueTypeForSeek) =
        appendInternalKey tmp kMaxSequenceNumber kValueTypeForSeek from rfl,
      extractUserKey_appendInternalKey]
    rw [if_neg (by omega)]
    exact hcl
  have hnew_limit : ∀ tmp : List Nat, ucmp tmp ul < 0 →
      icmpCompare ucmp
        (tmp ++ encodeFixed64 (packSequenceAndType kMaxSequenceNumber kValueTypeForSeek))
        (appendInternalKey ul sl tl) < 0 := by
    intro tmp hcl
    unfold icmpCompare
    rw [show tmp ++ encodeFixed64 (packSequenceAndType kMaxSequenceNumber kValueTypeForSeek) =
        appendInternalKey tmp kMaxSequenceNumber kValueTypeForSeek from rfl,
      extractUserKey_appendInternalKey, extractUserKey_appendInternalKey]
    rw [if_neg (by omega)]
    exact hcl
  by_cases hb : (ufss ua ul).length < ua.length ∧ ucmp ua (ufss ua ul) < 0
  · have htmpne : ufss ua ul ≠ ua := by
      intro hEq
      rw [hEq] at hb
      omega
    have hcon : ucmp ua (ufss ua ul) ≤ 0 ∧ ucmp (ufss ua ul) ul < 0 := by
      rcases hcontract with hc | hc
      · exact absurd hc htmpne
      · exact hc
    rw [hsepdef, if_pos hb]
    refine ⟨⟨le_of_lt (hstart_new ua sa ta hsa hta' _ hb.2), hnew_limit _ hcon.2⟩, ?_, ?_, ?_⟩
    · by_cases hb2 : (ufsucc uk).length < uk.length ∧ ucmp uk (ufsucc uk) < 0
      · rw [hsucdef, if_pos hb2]
        exact le_of_lt (hstart_new uk sk tk hsk htk' _ hb2.2)
      · rw [hsucdef, if_neg hb2]
        rw [icmp_self ucmp uk sk tk hreflk hsk htk']
    · intro h1 h2
      exact ⟨rfl, hstart_new ua sa ta hsa hta' _ h2⟩
    · intro h1 h2
      rw [hsucdef, if_pos ⟨h1, h2⟩]
      exact ⟨rfl, hstart_new uk sk tk hsk htk' _ h2⟩
  · rw [hsepdef, if_neg hb]
    refine ⟨⟨?_, hlt⟩, ?_, ?_, ?_⟩
    · rw [icmp_self ucmp ua sa ta hrefla hsa hta']
    · by_cases hb2 : (ufsucc uk).length < uk.length ∧ ucmp uk (ufsucc uk) < 0
      · rw [hsucdef, if_pos hb2]
        exact le_of_lt (hstart_new uk sk tk hsk htk' _ hb2.2)
      · rw [hsucdef, if_neg hb2]
        rw [icmp_self ucmp uk sk tk hreflk hsk htk']
    · intro h1 h2
      exact absurd ⟨h1, h2⟩ hb
    · intro h1 h2
      rw [hsucdef, if_pos ⟨h1, h2⟩]
      exact ⟨rfl, hstart_new uk sk tk hsk htk' _ h2⟩

/-- Witness for C7: the constant-zero comparator with no-op shortening
functions, `start = [9] @ (5,1)` and `limit = [9] @ (3,1)`, key `[9] @ (4,1)`
(internal order puts the larger sequence first). -/
theorem c7_witness :
    ((5 ≤ kMaxSequenceNumber ∧ 3 ≤ kMaxSequenceNumber ∧ 4 ≤ kMaxSequenceNumber ∧
      (1 ≤ kValueTypeForSeek ∧ 1 ≤ kValueTypeForSeek ∧ 1 ≤ kValueTypeForSeek) ∧
      ((fun (_ _ : List Nat) => (0 : Int)) [9] [9] = 0) ∧
      ((fun (s : List Nat) (_ : List Nat) => s) [9] [9] = [9] ∨
        ((fun (_ _ : List Nat) => (0 : Int)) [9] ((fun (s : List Nat) (_ : List Nat) => s) [9] [9]) ≤ 0 ∧
         (fun (_ _ : List Nat) => (0 : Int)) ((fun (s : List Nat) (_ : List Nat) => s) [9] [9]) [9] < 0)) ∧
      icmpCompare (fun _ _ => 0) (appendInternalKey [9] 5 1) (appendInternalKey [9] 3 1) < 0) ∧
     icmpCompare (fun _ _ => 0) (appendInternalKey [9] 5 1)
        (icmpFindShortestSeparator (fun _ _ => 0) (fun s _ => s)
          (appendInternalKey [9] 5 1) (appendInternalKey [9] 3 1)) ≤ 0 ∧
      icmpCompare (fun _ _ => 0)
        (icmpFindShortestSeparator (fun _ _ => 0) (fun s _ => s)
          (appendInternalKey [9] 5 1) (appendInternalKey [9] 3 1))
        (appendInternalKey [9] 3 1) < 0) :=
  ⟨by decide,
   (c7_shortening_contracts (fun _ _ => 0) (fun s _ => s) (fun s => s)
      [9] [9] [9] 5 3 4 1 1 1 (by decide) (by decide) (by decide) (by decide)
      (by decide) (by decide) (by decide) (by decide) (Or.inl rfl) (by decide)).1⟩

/-! ## db/memtable: MemTable (claim C2) -/

/-- GetLengthPrefixedSlice on a raw entry pointer (db/memtable.cc lines
15-20): decode a varint32 length looking at most five bytes ahead
(`GetVarint32Ptr(p, p + 5, &len)`), then view that many following bytes. -/
def getLengthPrefixedView (data : List Nat) : List Nat :=
  match getVarint32Loop data 5 0 0 with
  | some (len, rest) => rest.take len
  | none => []

/-- MemTable::KeyComparator::operator() (db/memtable.cc lines 36-43): strip
the length prefixes of both encoded entries, then compare the internal
keys. -/
def memtableKeyCompare (ucmp : List Nat → List Nat → Int) (aptr bptr : List Nat) : Int :=
  icmpCompare ucmp (getLengthPrefixedView aptr) (getLengthPrefixedView bptr)

/-- One logical memtable record for a fixed user key: its sequence number,
value type and value. -/
structure MemRec where
  seq : Nat
  ty : Nat
  value : List Nat
  deriving DecidableEq

/-- Tag packed into the entry by MemTable::Add (db/memtable.cc line 109):
`(s << 8) | type`. -/
def recTag (r : MemRec) : Nat := packSequenceAndType r.seq r.ty

/-- The encoded skip-list entry MemTable::Add builds (db/memtable.cc lines
90-115): varint32 of the internal-key length, the user key, the 8-byte tag,
the varint32 value length, the value. -/
def memtableEntry (k : List Nat) (r : MemRec) : List Nat :=
  encodeVarint32 (k.length + 8) ++
    (k ++ (encodeFixed64 (packSequenceAndType r.seq r.ty) ++
      (encodeVarint32 r.value.length ++ r.value)))

/-- Record well-formedness: valid sequence and type, value length within the
varint32 range. -/
def recWF (r : MemRec) : Prop :=
  r.seq ≤ kMaxSequenceNumber ∧ r.ty ≤ kValueTypeForSeek ∧ r.value.length < 2 ^ 32

/-- The skip list under the memtable (db/skiplist.h), modelled by its ordered
contents: Insert splices the new key immediately before the first existing
key not below it (`FindGreaterOrEqual`), keeping the contents sorted. -/
def skipInsert (cmp : List Nat → List Nat → Int) (key : List Nat) :
    List (List Nat) → List (List Nat)
  | [] => [key]
  | x :: xs => if cmp x key < 0 then x :: skipInsert cmp key xs else key :: x :: xs

/-- Skip-list iterator Seek (db/skiplist.h): position on the first key not
below the target, `none` past the end. -/
def skipSeek (cmp : List Nat → List Nat → Int) (target : List Nat) :
    List (List Nat) → Option (List Nat)
  | [] => none
  | x :: xs => if cmp x target < 0 then skipSeek cmp target xs else some x

/-- Memtable state after MemTable::Add of each record of `rs` in order, all
with user key `k`. -/
def memtableBuild (ucmp : List Nat → List Nat → Int) (k : List Nat)
    (rs : List MemRec) : List (List Nat) :=
  rs.foldl (fun st r => skipInsert (memtableKeyCompare ucmp) (memtableEntry k r) st) []

/-- Outcome of MemTable::Get: value found, tombstone (NotFound status set,
returning true), or no entry for this user key (returning false). -/
inductive MemGetResult
  | found (value : List Nat)
  | deleted
  | absent
  deriving DecidableEq

/-- MemTable::Get (db/memtable.cc lines 121-165): seek the memtable key; if
the hit's user key equals the lookup's user key, dispatch on the low byte of
its tag — without re-checking the sequence number. -/
def memtableGet (ucmp : List Nat → List Nat → Int) (st : List (List Nat))
    (userKey : List Nat) (s : Nat) : MemGetResult :=
  let memkey := lookupKeyBytes userKey s
  match skipSeek (memtableKeyCompare ucmp) memkey st with
  | some entry =>
    match getVarint32Loop entry 5 0 0 with
    | some (keyLength, keyPtr) =>
      if ucmp (keyPtr.take (keyLength - 8)) userKey = 0 then
        let tag := decodeFixed64 (keyPtr.drop (keyLength - 8))
        if tag &&& 255 = kTypeValue then
          .found (getLengthPrefixedView (keyPtr.drop keyLength))
        else if tag &&& 255 = kTypeDeletion then .deleted
        else .absent
      else .absent
    | none => .absent
  | none => .absent

theorem land_255_eq_mod (x : Nat) : x &&& 255 = x % 256 := by
  have h := Nat.and_pow_two_sub_one_eq_mod x 8
  norm_num at h
  exact h

theorem getVarint32_five (v : Nat) (rest : List Nat) (h : v < 2 ^ 32)
    (h5 : (encodeVarint32 v).length ≤ 5) :
    getVarint32Loop (encodeVarint32 v ++ rest) 5 0 0 = some (v, rest) := by
  rw [← encodeVarint64_eq_encodeVarint32 v h] at h5 ⊢
  have hres := getVarint32Loop_encodeVarint64 v 0 0 rest 5
    (by norm_num; omega) (by omega) (by norm_num) h5
  norm_num at hres
  exact hres

theorem memtableEntry_parse (k : List Nat) (r : MemRec)
    (hklen : k.length + 8 < 2 ^ 32) :
    getVarint32Loop (memtableEntry k r) 5 0 0 =
      some (k.length + 8,
        k ++ (encodeFixed64 (packSequenceAndType r.seq r.ty) ++
          (encodeVarint32 r.value.length ++ r.value))) := by
  unfold memtableEntry
  exact getVarint32_five _ _ hklen (encodeVarint32_length_le _)

theorem memtableEntry_view (k : List Nat) (r : MemRec)
    (hklen : k.length + 8 < 2 ^ 32) :
    getLengthPrefixedView (memtableEntry k r) =
      appendInternalKey k r.seq r.ty := by
  unfold getLengthPrefixedView
  rw [memtableEntry_parse k r hklen]
  dsimp only
  rw [List.take_append_eq_append_take]
  rw [List.take_of_length_le (by omega)]
  rw [show k.length + 8 - k.length = 8 from by omega]
  rw [List.take_append_eq_append_take]
  rw [List.take_of_length_le (by rw [encodeFixed64_length])]
  rw [encodeFixed64_length]
  norm_num
  rfl

theorem lookupKeyBytes_parse (k : List Nat) (s : Nat)
    (hklen : k.length + 8 < 2 ^ 32) :
    getVarint32Loop (lookupKeyBytes k s) 5 0 0 =
      some (k.length + 8, k ++ encodeFixed64 (packSequenceAndType s kValueTypeForSeek)) := by
  unfold lookupKeyBytes
  rw [List.append_assoc]
  exact getVarint32_five _ _ hklen (encodeVarint32_length_le _)

theorem lookupKeyBytes_view (k : List Nat) (s : Nat)
    (hklen : k.length + 8 < 2 ^ 32) :
    getLengthPrefixedView (lookupKeyBytes k s) =
      appendInternalKey k s kValueTypeForSeek := by
  unfold getLengthPrefixedView
  rw [lookupKeyBytes_parse k s hklen]
  dsimp only
  rw [show k.length + 8 = (k ++ encodeFixed64 (packSequenceAndType s kValueTypeForSeek)).length from by
    rw [List.length_append, encodeFixed64_length]]
  rw [List.take_length]
  rfl

/-- Integer three-way comparison of packed tags, descending (the tie-break
InternalKeyComparator::Compare applies on equal user keys). -/
def tagCmpI (a b : Nat) : Int := if a > b then -1 else if a < b then 1 else 0

theorem icmp_append_tags (ucmp : List Nat → List Nat → Int) (k : List Nat)
    (s1 t1 s2 t2 : Nat) (hk : ucmp k k = 0)
    (hs1 : s1 ≤ kMaxSequenceNumber) (hs2 : s2 ≤ kMaxSequenceNumber)
    (ht1 : t1 < 256) (ht2 : t2 < 256) :
    icmpCompare ucmp (appendInternalKey k s1 t1) (appendInternalKey k s2 t2) =
      tagCmpI (packSequenceAndType s1 t1) (packSequenceAndType s2 t2) := by
  unfold icmpCompare tagCmpI
  rw [extractUserKey_appendInternalKey, extractUserKey_appendInternalKey,
    trailingTag_appendInternalKey k s1 t1 hs1 ht1,
    trailingTag_appendInternalKey k s2 t2 hs2 ht2, hk]
  simp

theorem memtableKeyCompare_entries (ucmp : List Nat → List Nat → Int)
    (k : List Nat) (r1 r2 : MemRec) (hk : ucmp k k = 0)
    (hklen : k.length + 8 < 2 ^ 32) (h1 : recWF r1) (h2 : recWF r2) :
    memtableKeyCompare ucmp (memtableEntry k r1) (memtableEntry k r2) =
      tagCmpI (recTag r1) (recTag r2) := by
  unfold memtableKeyCompare
  rw [memtableEntry_view k r1 hklen, memtableEntry_view k r2 hklen]
  exact icmp_append_tags ucmp k _ _ _ _ hk h1.1 h2.1
    (by have := h1.2.1; unfold kValueTypeForSeek kTypeValue at this; omega)
    (by have := h2.2.1; unfold kValueTypeForSeek kTypeValue at this; omega)

theorem memtableKeyCompare_lookup (ucmp : List Nat → List Nat → Int)
    (k : List Nat) (r : MemRec) (s : Nat) (hk : ucmp k k = 0)
    (hklen : k.length + 8 < 2 ^ 32) (h1 : recWF r) (hs : s ≤ kMaxSequenceNumber) :
    memtableKeyCompare ucmp (memtableEntry k r) (lookupKeyBytes k s) =
      tagCmpI (recTag r) (packSequenceAndType s kValueTypeForSeek) := by
  unfold memtableKeyCompare
  rw [memtableEntry_view k r hklen, lookupKeyBytes_view k s hklen]
  exact icmp_append_tags ucmp k _ _ _ _ hk h1.1 hs
    (by have := h1.2.1; unfold kValueTypeForSeek kTypeValue at this; omega)
    (by unfold kValueTypeForSeek kTypeValue; omega)

theorem tagCmpI_lt_zero (a b : Nat) : tagCmpI a b < 0 ↔ b < a := by
  unfold tagCmpI
  split_ifs with h1 h2 <;> constructor <;> intro h <;> omega

/-- Descending insertion by tag: the record-level image of `skipInsert` under
the memtable comparator (larger tags sort first). -/
def insertRecDesc (r : MemRec) : List MemRec → List MemRec
  | [] => [r]
  | x :: xs => if recTag r < recTag x then x :: insertRecDesc r xs else r :: x :: xs

/-- Record-level contents of the memtable after inserting `rs` in order. -/
def sortRecsDesc (rs : List MemRec) : List MemRec :=
  rs.foldl (fun acc r => insertRecDesc r acc) []

theorem mem_insertRecDesc (r a : MemRec) (l : List MemRec) :
    a ∈ insertRecDesc r l ↔ a = r ∨ a ∈ l := by
  induction l with
  | nil => simp [insertRecDesc]
  | cons x xs ih =>
    rw [insertRecDesc]
    by_cases hc : recTag r < recTag x
    · rw [if_pos hc]
      simp only [List.mem_cons, ih]
      tauto
    · rw [if_neg hc]
      simp only [List.mem_cons]

theorem mem_sortRecsDesc_aux (rs : List MemRec) : ∀ acc a,
    (a ∈ rs.foldl (fun acc r => insertRecDesc r acc) acc ↔ a ∈ acc ∨ a ∈ rs) := by
  induction rs with
  | nil => simp
  | cons r rest ih =>
    intro acc a
    rw [List.foldl_cons, ih, mem_insertRecDesc]
    simp only [List.mem_cons]
    tauto

theorem mem_sortRecsDesc (rs : List MemRec) (a : MemRec) :
    a ∈ sortRecsDesc rs ↔ a ∈ rs := by
  rw [sortRecsDesc, mem_sortRecsDesc_aux]
  simp

/-- Sorted descending by tag (non-strict). -/
def SortedDescRec (l : List MemRec) : Prop :=
  List.Pairwise (fun a b => recTag b ≤ recTag a) l

theorem insertRecDesc_sorted (r : MemRec) (l : List MemRec) (h : SortedDescRec l) :
    SortedDescRec (insertRecDesc r l) := by
  induction l with
  | nil => simp [insertRecDesc, SortedDescRec]
  | cons x xs ih =>
    rw [insertRecDesc]
    rcases List.pairwise_cons.mp h with ⟨hx, hxs⟩
    by_cases hc : recTag r < recTag x
    · rw [if_pos hc]
      refine List.pairwise_cons.mpr ⟨?_, ih hxs⟩
      intro b hb
      rcases (mem_insertRecDesc r b xs).mp hb with h1 | h1
      · subst h1
        omega
      · exact hx b h1
    · rw [if_neg hc]
      refine List.pairwise_cons.mpr ⟨?_, h⟩
      intro b hb
      rcases List.mem_cons.mp hb with h1 | h1
      · subst h1
        omega
      · have := hx b h1
        omega

theorem sortRecsDesc_sorted (rs : List MemRec) : SortedDescRec (sortRecsDesc rs) := by
  rw [sortRecsDesc]
  have haux : ∀ acc, SortedDescRec acc →
      SortedDescRec (rs.foldl (fun acc r => insertRecDesc r acc) acc) := by
    induction rs with
    | nil => intro acc h; exact h
    | cons r rest ih =>
      intro acc h
      rw [List.foldl_cons]
      exact ih _ (insertRecDesc_sorted r acc h)
  exact haux [] (by simp [SortedDescRec])

theorem skipInsert_map (ucmp : List Nat → List Nat → Int) (k : List Nat)
    (hk : ucmp k k = 0) (hklen : k.length + 8 < 2 ^ 32) (r : MemRec)
    (acc : List MemRec) (hr : recWF r) (hacc : ∀ x ∈ acc, recWF x) :
    skipInsert (memtableKeyCompare ucmp) (memtableEntry k r)
        (acc.map (memtableEntry k)) =
      (insertRecDesc r acc).map (memtableEntry k) := by
  induction acc with
  | nil => rfl
  | cons x xs ih =>
    simp only [List.map_cons, skipInsert, insertRecDesc]
    rw [memtableKeyCompare_entries ucmp k x r hk hklen (hacc x (by simp)) hr]
    by_cases hc : recTag r < recTag x
    · rw [if_pos ((tagCmpI_lt_zero _ _).mpr hc), if_pos hc]
      rw [ih (fun y hy => hacc y (by simp [hy]))]
      rfl
    · rw [if_neg (by rw [tagCmpI_lt_zero]; omega), if_neg hc]
      rfl

theorem memtableBuild_eq (ucmp : List Nat → List Nat → Int) (k : List Nat)
    (hk : ucmp k k = 0) (hklen : k.length + 8 < 2 ^ 32) (rs : List MemRec)
    (hwf : ∀ r ∈ rs, recWF r) :
    memtableBuild ucmp k rs = (sortRecsDesc rs).map (memtableEntry k) := by
  have haux : ∀ (rs2 acc : List MemRec), (∀ r ∈ rs2, recWF r) → (∀ x ∈ acc, recWF x) →
      rs2.foldl (fun st r => skipInsert (memtableKeyCompare ucmp) (memtableEntry k r) st)
          (acc.map (memtableEntry k)) =
        (rs2.foldl (fun acc r => insertRecDesc r acc) acc).map (memtableEntry k) := by
    intro rs2
    induction rs2 with
    | nil => intro acc _ _; rfl
    | cons r rest ih =>
      intro acc hwf2 hacc
      rw [List.foldl_cons, List.foldl_cons,
        skipInsert_map ucmp k hk hklen r acc (hwf2 r (by simp)) hacc]
      refine ih _ (fun x hx => hwf2 x (by simp [hx])) ?_
      intro x hx
      rcases (mem_insertRecDesc r x acc).mp hx with h1 | h1
      · subst h1
        exact hwf2 x (by simp)
      · exact hacc x h1
  have h0 := haux rs [] hwf (by simp)
  simpa [memtableBuild, sortRecsDesc] using h0

theorem skipSeek_map (ucmp : List Nat → List Nat → Int) (k : List Nat) (s : Nat)
    (hk : ucmp k k = 0) (hklen : k.length + 8 < 2 ^ 32)
    (hs : s ≤ kMaxSequenceNumber) (rs : List MemRec) (hwf : ∀ r ∈ rs, recWF r) :
    skipSeek (memtableKeyCompare ucmp) (lookupKeyBytes k s)
        (rs.map (memtableEntry k)) =
      (rs.find? (fun r =>
        decide (recTag r ≤ packSequenceAndType s kValueTypeForSeek))).map
          (memtableEntry k) := by
  induction rs with
  | nil => rfl
  | cons r rest ih =>
    simp only [List.map_cons, skipSeek]
    rw [memtableKeyCompare_lookup ucmp k r s hk hklen (hwf r (by simp)) hs]
    by_cases hc : recTag r ≤ packSequenceAndType s kValueTypeForSeek
    · rw [if_neg (by rw [tagCmpI_lt_zero]; omega)]
      rw [List.find?_cons_of_pos _ (by simpa using hc)]
      rfl
    · rw [if_pos (by rw [tagCmpI_lt_zero]; omega)]
      rw [List.find?_cons_of_neg _ (by simpa using hc)]
      exact ih (fun x hx => hwf x (by simp [hx]))

theorem find?_sorted_max (bound : Nat) (rs : List MemRec) (hsor : SortedDescRec rs)
    (r : MemRec) (hf : rs.find? (fun x => decide (recTag x ≤ bound)) = some r) :
    ∀ x ∈ rs, recTag x ≤ bound → recTag x ≤ recTag r := by
  induction rs with
  | nil => simp at hf
  | cons a l ih =>
    rcases List.pairwise_cons.mp hsor with ⟨ha, hl⟩
    by_cases hc : recTag a ≤ bound
    · rw [List.find?_cons_of_pos _ (by simpa using hc)] at hf
      simp only [Option.some.injEq] at hf
      subst hf
      intro x hx _
      rcases List.mem_cons.mp hx with h1 | h1
      · subst h1
        exact le_refl _
      · exact ha x h1
    · rw [List.find?_cons_of_neg _ (by simpa using hc)] at hf
      intro x hx hxb
      rcases List.mem_cons.mp hx with h1 | h1
      · subst h1
        omega
      · exact ih hl hf x h1 hxb

theorem getLengthPrefixedView_canonical (v : List Nat) (h : v.length < 2 ^ 32) :
    getLengthPrefixedView (encodeVarint32 v.length ++ v) = v := by
  unfold getLengthPrefixedView
  rw [getVarint32_five _ _ h (encodeVarint32_length_le _)]
  dsimp only
  exact List.take_length v

theorem memtableGet_eq_find (ucmp : List Nat → List Nat → Int) (k : List Nat)
    (s : Nat) (hk : ucmp k k = 0) (hklen : k.length + 8 < 2 ^ 32)
    (hs : s ≤ kMaxSequenceNumber) (rs : List MemRec) (hwf : ∀ r ∈ rs, recWF r) :
    memtableGet ucmp (rs.map (memtableEntry k)) k s =
      (match rs.find? (fun r =>
          decide (recTag r ≤ packSequenceAndType s kValueTypeForSeek)) with
        | some r => if r.ty = kTypeValue then .found r.value else .deleted
        | none => .absent) := by
  unfold memtableGet
  dsimp only
  rw [skipSeek_map ucmp k s hk hklen hs rs hwf]
  cases hf : rs.find? (fun r =>
      decide (recTag r ≤ packSequenceAndType s kValueTypeForSeek)) with
  | none => rfl
  | some r =>
    have hr : recWF r := hwf r (List.mem_of_find?_eq_some hf)
    have hty256 : r.ty < 256 := by
      have := hr.2.1
      unfold kValueTypeForSeek kTypeValue at this
      omega
    rw [show Option.map (memtableEntry k) (some r) = some (memtableEntry k r) from rfl]
    dsimp only
    rw [memtableEntry_parse k r hklen]
    dsimp only
    rw [show k.length + 8 - 8 = k.length from by omega]
    rw [List.take_left, List.drop_left]
    rw [if_pos hk]
    rw [decodeFixed64_append _ _ (packSequenceAndType_lt r.seq r.ty hr.1 hty256)]
    rw [land_255_eq_mod, packSequenceAndType_eq r.seq r.ty hty256]
    have hmod : (256 * r.seq + r.ty) % 256 = r.ty := by omega
    rw [hmod]
    have hdrop : (k ++ (encodeFixed64 (256 * r.seq + r.ty) ++
        (encodeVarint32 r.value.length ++ r.value))).drop (k.length + 8) =
        encodeVarint32 r.value.length ++ r.value := by
      rw [List.drop_append_eq_append_drop]
      rw [List.drop_of_length_le (by omega)]
      rw [show k.length + 8 - k.length = 8 from by omega]
      rw [List.nil_append]
      rw [show (8 : Nat) =
        (encodeFixed64 (256 * r.seq + r.ty)).length from
          (encodeFixed64_length _).symm]
      exact List.drop_left _ _
    by_cases hty : r.ty = kTypeValue
    · rw [if_pos hty, if_pos hty]
      rw [hdrop, getLengthPrefixedView_canonical _ hr.2.2]
    · have hty0 : r.ty = kTypeDeletion := by
        have := hr.2.1
        unfold kValueTypeForSeek kTypeValue at this
        unfold kTypeValue at hty
        unfold kTypeDeletion
        omega
      rw [if_neg hty, if_neg hty, if_pos hty0]

/-- C2: for a memtable into which the value records `(seq = i, Value, k, v i)`
for `i = 1..N` have been added in any order (all internal keys distinct),
`MemTable::Get` with `LookupKey(k, s)` for any snapshot `1 ≤ s` returns
`v (min N s)` — the value with the largest sequence `≤ s`; if additionally a
deletion record `(seq = j, Deletion, k)` with `j ≤ s` and `j` above every
value sequence `≤ s` has been added, `Get` reports NotFound.  The comparator's
descending-sequence tie-break makes the seek land on the newest version at or
below the snapshot, and `Get` never re-checks the sequence number. -/
theorem c2_memtable_newest_wins
    (ucmp : List Nat → List Nat → Int) (k : List Nat) (v : Nat → List Nat)
    (N s j : Nat) (rs rsd : List MemRec)
    (hk : ucmp k k = 0) (hklen : k.length + 8 < 2 ^ 32)
    (hs1 : 1 ≤ s) (hsmax : s ≤ kMaxSequenceNumber)
    (hN : 1 ≤ N) (hNmax : N ≤ kMaxSequenceNumber)
    (hvlen : ∀ i, (v i).length < 2 ^ 32)
    (hperm : rs.Perm ((List.range N).map
      (fun i => (⟨i + 1, kTypeValue, v (i + 1)⟩ : MemRec))))
    (hj1 : min N s < j) (hj2 : j ≤ s)
    (hpermd : rsd.Perm ((⟨j, kTypeDeletion, []⟩ : MemRec) ::
      (List.range N).map (fun i => (⟨i + 1, kTypeValue, v (i + 1)⟩ : MemRec)))) :
    memtableGet ucmp (memtableBuild ucmp k rs) k s = .found (v (min N s)) ∧
    memtableGet ucmp (memtableBuild ucmp k rsd) k s = .deleted := by
  have hvk : kValueTypeForSeek = 1 := rfl
  have htv : kTypeValue = 1 := rfl
  have htd : kTypeDeletion = 0 := rfl
  have hbound : packSequenceAndType s kValueTypeForSeek = 256 * s + 1 := by
    rw [packSequenceAndType_eq s _ (by omega)]
    omega
  have hshape : ∀ x : MemRec,
      x ∈ (List.range N).map (fun i => (⟨i + 1, kTypeValue, v (i + 1)⟩ : MemRec)) ↔
        ∃ i, i < N ∧ x = ⟨i + 1, kTypeValue, v (i + 1)⟩ := by
    intro x
    simp only [List.mem_map, List.mem_range]
    constructor
    · rintro ⟨i, hi, hEq⟩
      exact ⟨i, hi, hEq.symm⟩
    · rintro ⟨i, hi, hEq⟩
      exact ⟨i, hi, hEq.symm⟩
  have htagval : ∀ i : Nat, i + 1 ≤ kMaxSequenceNumber →
      recTag ⟨i + 1, kTypeValue, v (i + 1)⟩ = 256 * (i + 1) + 1 := by
    intro i _
    show packSequenceAndType (i + 1) kTypeValue = 256 * (i + 1) + 1
    rw [packSequenceAndType_eq _ _ (by omega)]
    omega
  have hwfval : ∀ i, i < N → recWF ⟨i + 1, kTypeValue, v (i + 1)⟩ := by
    intro i hi
    exact ⟨by show i + 1 ≤ kMaxSequenceNumber; omega, by show kTypeValue ≤ kValueTypeForSeek; omega,
      hvlen (i + 1)⟩
  constructor
  · -- value-only memtable
    have hmem : ∀ x, x ∈ rs ↔ ∃ i, i < N ∧ x = ⟨i + 1, kTypeValue, v (i + 1)⟩ := by
      intro x
      rw [hperm.mem_iff]
      exact hshape x
    have hwf : ∀ r ∈ rs, recWF r := by
      intro r hr
      obtain ⟨i, hi, hEq⟩ := (hmem r).mp hr
      subst hEq
      exact hwfval i hi
    rw [memtableBuild_eq ucmp k hk hklen rs hwf]
    have hwfs : ∀ r ∈ sortRecsDesc rs, recWF r := by
      intro r hr
      exact hwf r ((mem_sortRecsDesc rs r).mp hr)
    rw [memtableGet_eq_find ucmp k s hk hklen hsmax _ hwfs]
    -- the candidate with the largest admissible tag
    have hmin1 : 1 ≤ min N s := by omega
    have hminN : min N s ≤ N := by omega
    have hmins : min N s ≤ s := by omega
    have hr0mem : (⟨min N s, kTypeValue, v (min N s)⟩ : MemRec) ∈ sortRecsDesc rs := by
      rw [mem_sortRecsDesc, hmem]
      exact ⟨min N s - 1, by omega, by rw [show min N s - 1 + 1 = min N s from by omega]⟩
    have hr0tag : recTag ⟨min N s, kTypeValue, v (min N s)⟩ = 256 * min N s + 1 := by
      show packSequenceAndType (min N s) kTypeValue = 256 * min N s + 1
      rw [packSequenceAndType_eq _ _ (by omega)]
      omega
    cases hf : (sortRecsDesc rs).find? (fun r =>
        decide (recTag r ≤ packSequenceAndType s kValueTypeForSeek)) with
    | none =>
      rw [List.find?_eq_none] at hf
      exact absurd (by simp only [decide_eq_true_eq]; rw [hr0tag, hbound]; omega)
        (hf _ hr0mem)
    | some r =>
      have hrmem : r ∈ rs := (mem_sortRecsDesc rs r).mp (List.mem_of_find?_eq_some hf)
      obtain ⟨i, hi, hEq⟩ := (hmem r).mp hrmem
      have hrtag : recTag r ≤ packSequenceAndType s kValueTypeForSeek := by
        have := List.find?_some hf
        simpa using this
      have hits : i + 1 ≤ s := by
        rw [hEq] at hrtag
        rw [htagval i (by omega), hbound] at hrtag
        omega
      have hmax := find?_sorted_max _ _ (sortRecsDesc_sorted rs) r hf
        ⟨min N s, kTypeValue, v (min N s)⟩ hr0mem
        (by rw [hr0tag, hbound]; omega)
      have hge : min N s ≤ i + 1 := by
        rw [hEq, htagval i (by omega), hr0tag] at hmax
        omega
      have hieq : i + 1 = min N s := by omega
      subst hEq
      have hcond : (⟨i + 1, kTypeValue, v (i + 1)⟩ : MemRec).ty = kTypeValue := rfl
      dsimp only
      rw [if_pos hcond, hieq]
  · -- memtable with the newer deletion
    have hmem : ∀ x, x ∈ rsd ↔ x = ⟨j, kTypeDeletion, []⟩ ∨
        ∃ i, i < N ∧ x = ⟨i + 1, kTypeValue, v (i + 1)⟩ := by
      intro x
      rw [hpermd.mem_iff, List.mem_cons]
      rw [hshape x]
    have hwf : ∀ r ∈ rsd, recWF r := by
      intro r hr
      rcases (hmem r).mp hr with hEq | ⟨i, hi, hEq⟩
      · subst hEq
        exact ⟨by show j ≤ kMaxSequenceNumber; omega,
          by show kTypeDeletion ≤ kValueTypeForSeek; omega, by norm_num⟩
      · subst hEq
        exact hwfval i hi
    rw [memtableBuild_eq ucmp k hk hklen rsd hwf]
    have hwfs : ∀ r ∈ sortRecsDesc rsd, recWF r := by
      intro r hr
      exact hwf r ((mem_sortRecsDesc rsd r).mp hr)
    rw [memtableGet_eq_find ucmp k s hk hklen hsmax _ hwfs]
    have hdtag : recTag ⟨j, kTypeDeletion, []⟩ = 256 * j := by
      show packSequenceAndType j kTypeDeletion = 256 * j
      rw [packSequenceAndType_eq _ _ (by omega)]
      omega
    have hdmem : (⟨j, kTypeDeletion, []⟩ : MemRec) ∈ sortRecsDesc rsd := by
      rw [mem_sortRecsDesc, hmem]
      exact Or.inl rfl
    cases hf : (sortRecsDesc rsd).find? (fun r =>
        decide (recTag r ≤ packSequenceAndType s kValueTypeForSeek)) with
    | none =>
      rw [List.find?_eq_none] at hf
      exact absurd (by simp only [decide_eq_true_eq]; rw [hdtag, hbound]; omega)
        (hf _ hdmem)
    | some r =>
      have hrmem : r ∈ rsd := (mem_sortRecsDesc rsd r).mp (List.mem_of_find?_eq_some hf)
      have hrtag : recTag r ≤ packSequenceAndType s kValueTypeForSeek := by
        have := List.find?_some hf
        simpa using this
      have hmax := find?_sorted_max _ _ (sortRecsDesc_sorted rsd) r hf
        ⟨j, kTypeDeletion, []⟩ hdmem (by rw [hdtag, hbound]; omega)
      rcases (hmem r).mp hrmem with hEq | ⟨i, hi, hEq⟩
      · subst hEq
        dsimp only
        rw [if_neg (by show kTypeDeletion ≠ kTypeValue; rw [htd, htv]; omega)]
      · exfalso
        rw [hEq] at hrtag hmax
        rw [htagval i (by omega), hbound] at hrtag
        rw [htagval i (by omega), hdtag] at hmax
        omega

/-- Witness for C2 at `N = 1`, `s = 2`, `j = 2`, empty values. -/
theorem c2_witness :
    (((fun (_ _ : List Nat) => (0 : Int)) [7] [7] = 0) ∧ ([7] : List Nat).length + 8 < 2 ^ 32 ∧
      1 ≤ 2 ∧ 2 ≤ kMaxSequenceNumber ∧ 1 ≤ 1 ∧ 1 ≤ kMaxSequenceNumber ∧
      (([(⟨1, kTypeValue, []⟩ : MemRec)]).Perm ((List.range 1).map
        (fun i => (⟨i + 1, kTypeValue, []⟩ : MemRec)))) ∧
      min 1 2 < 2 ∧ 2 ≤ 2 ∧
      (([(⟨2, kTypeDeletion, []⟩ : MemRec), ⟨1, kTypeValue, []⟩]).Perm
        ((⟨2, kTypeDeletion, []⟩ : MemRec) ::
          (List.range 1).map (fun i => (⟨i + 1, kTypeValue, []⟩ : MemRec))))) ∧
    (memtableGet (fun _ _ => 0)
        (memtableBuild (fun _ _ => 0) [7] [(⟨1, kTypeValue, []⟩ : MemRec)]) [7] 2 =
      .found [] ∧
     memtableGet (fun _ _ => 0)
        (memtableBuild (fun _ _ => 0) [7]
          [(⟨2, kTypeDeletion, []⟩ : MemRec), ⟨1, kTypeValue, []⟩]) [7] 2 =
      .deleted) :=
  ⟨⟨rfl, by norm_num, by norm_num, by decide, by norm_num, by decide, by decide,
    by decide, by decide, by decide⟩,
   c2_memtable_newest_wins (fun _ _ => 0) [7] (fun _ => []) 1 2 2
      [⟨1, kTypeValue, []⟩] [⟨2, kTypeDeletion, []⟩, ⟨1, kTypeValue, []⟩]
      rfl (by norm_num) (by norm_num) (by decide) (by norm_num) (by decide)
      (fun i => by norm_num) (by decide) (by decide) (by decide) (by decide)⟩

/-! ## db/write_batch: WriteBatch::Iterate (claim C5) -/

/-- Handler calls emitted by WriteBatch::Iterate, in order. -/
inductive BatchOp
  | put (key value : List Nat)
  | del (key : List Nat)
  deriving DecidableEq

/-- The corruption exits of WriteBatch::Iterate, plus a fuel marker that the
fueled loop below never actually reaches (proved by the C5 theorem's
backward direction). -/
inductive BatchError
  | tooSmall
  | badPut
  | badDelete
  | unknownTag
  | wrongCount
  | outOfFuel
  deriving DecidableEq

/-- Size of the WriteBatch header (db/write_batch.cc line 27). -/
def kHeader : Nat := 12

theorem getVarint32Loop_shrinks (p : List Nat) : ∀ limit shift result v rest,
    getVarint32Loop p limit shift result = some (v, rest) → rest.length < p.length := by
  induction p with
  | nil =>
    intro limit shift result v rest h
    rw [getVarint32Loop] at h
    by_cases hc : shift ≤ 28 ∧ 0 < limit
    · rw [if_pos hc] at h
      exact absurd h (by simp)
    · rw [if_neg hc] at h
      exact absurd h (by simp)
  | cons b tail ih =>
    intro limit shift result v rest h
    rw [getVarint32Loop] at h
    by_cases hc : shift ≤ 28 ∧ 0 < limit
    · rw [if_pos hc] at h
      try dsimp only at h
      by_cases hb : b &&& 128 ≠ 0
      · rw [if_pos hb] at h
        have hlt := ih _ _ _ _ _ h
        simp only [List.length_cons]
        omega
      · rw [if_neg hb] at h
        simp only [Option.some.injEq, Prod.mk.injEq] at h
        obtain ⟨h1, h2⟩ := h
        subst h2
        simp only [List.length_cons]
        omega
    · rw [if_neg hc] at h
      exact absurd h (by simp)

theorem getVarint32_shrinks (input : List Nat) (v : Nat) (rest : List Nat)
    (h : getVarint32 input = some (v, rest)) : rest.length < input.length :=
  getVarint32Loop_shrinks input _ _ _ _ _ h

theorem getLengthPrefixedSlice_shrinks (input s rest : List Nat)
    (h : getLengthPrefixedSlice input = some (s, rest)) : rest.length < input.length := by
  unfold getLengthPrefixedSlice at h
  cases hv : getVarint32 input with
  | none => rw [hv] at h; exact absurd h (by simp)
  | some pr =>
    obtain ⟨len, rest1⟩ := pr
    rw [hv] at h; try dsimp only at h
    by_cases hle : len ≤ rest1.length
    · rw [if_pos hle] at h
      simp only [Option.some.injEq, Prod.mk.injEq] at h
      have h1 := getVarint32_shrinks input len rest1 hv
      rw [← h.2, List.length_drop]
      omega
    · rw [if_neg hle] at h
      exact absurd h (by simp)

/-- Loop of WriteBatch::Iterate (db/write_batch.cc lines 57-82): walk the
records, dispatching on the tag byte; collect the handler calls in order and
count the records.  `fuel` bounds the number of iterations; every iteration
consumes at least the tag byte, so `input.length` fuel always suffices. -/
def iterateRecords (fuel : Nat) (input : List Nat) (found : Nat) :
    Except BatchError (List BatchOp × Nat) :=
  match fuel with
  | 0 =>
    match input with
    | [] => .ok ([], found)
    | _ :: _ => .error .outOfFuel
  | fuel + 1 =>
    match input with
    | [] => .ok ([], found)
    | tag :: rest =>
      if tag = kTypeValue then
        match getLengthPrefixedSlice rest with
        | some (key, rest1) =>
          match getLengthPrefixedSlice rest1 with
          | some (value, rest2) =>
            match iterateRecords fuel rest2 (found + 1) with
            | .ok (ops, f) => .ok (.put key value :: ops, f)
            | .error e => .error e
          | none => .error .badPut
        | none => .error .badPut
      else if tag = kTypeDeletion then
        match getLengthPrefixedSlice rest with
        | some (key, rest1) =>
          match iterateRecords fuel rest1 (found + 1) with
          | .ok (ops, f) => .ok (.del key :: ops, f)
          | .error e => .error e
        | none => .error .badDelete
      else .error .unknownTag

/-- WriteBatch::Iterate (db/write_batch.cc lines 47-89): header check, record
walk, then the count check against the fixed32 at offset 8. -/
def writeBatchIterate (rep : List Nat) : Except BatchError (List BatchOp) :=
  if rep.length < kHeader then .error .tooSmall
  else
    match iterateRecords rep.length (rep.drop kHeader) 0 with
    | .ok (ops, found) =>
      if found = decodeFixed32 (rep.drop 8) then .ok ops else .error .wrongCount
    | .error e => .error e

/-- Well-formed record region of a batch: a concatenation of records, each a
known tag byte followed by well-formed length-prefixed strings (as accepted
by GetLengthPrefixedSlice — a length that decodes and at least that many
bytes after it); `ops` are the corresponding handler calls in order. -/
inductive BatchBodyDenotes : List Nat → List BatchOp → Prop where
  | nil : BatchBodyDenotes [] []
  | put {rest k rest1 v rest2 : List Nat} {ops : List BatchOp} :
      getLengthPrefixedSlice rest = some (k, rest1) →
      getLengthPrefixedSlice rest1 = some (v, rest2) →
      BatchBodyDenotes rest2 ops →
      BatchBodyDenotes (kTypeValue :: rest) (.put k v :: ops)
  | del {rest k rest1 : List Nat} {ops : List BatchOp} :
      getLengthPrefixedSlice rest = some (k, rest1) →
      BatchBodyDenotes rest1 ops →
      BatchBodyDenotes (kTypeDeletion :: rest) (.del k :: ops)

theorem iterateRecords_ok_found (fuel : Nat) : ∀ input found ops g,
    iterateRecords fuel input found = .ok (ops, g) → g = found + ops.length := by
  induction fuel with
  | zero =>
    intro input found ops g h
    cases input with
    | nil =>
      simp only [iterateRecords, Except.ok.injEq, Prod.mk.injEq] at h
      simp [← h.1, h.2]
    | cons a l => exact absurd h (by simp [iterateRecords])
  | succ fuel ih =>
    intro input found ops g h
    cases input with
    | nil =>
      simp only [iterateRecords, Except.ok.injEq, Prod.mk.injEq] at h
      simp [← h.1, h.2]
    | cons tag rest =>
      rw [iterateRecords] at h
      by_cases h1 : tag = kTypeValue
      · rw [if_pos h1] at h
        cases hk : getLengthPrefixedSlice rest with
        | none => rw [hk] at h; exact absurd h (by simp)
        | some pr1 =>
          obtain ⟨key, rest1⟩ := pr1
          rw [hk] at h; try dsimp only at h
          cases hv : getLengthPrefixedSlice rest1 with
          | none => rw [hv] at h; exact absurd h (by simp)
          | some pr2 =>
            obtain ⟨value, rest2⟩ := pr2
            rw [hv] at h; try dsimp only at h
            cases hr : iterateRecords fuel rest2 (found + 1) with
            | error e => rw [hr] at h; exact absurd h (by simp)
            | ok pr3 =>
              obtain ⟨ops2, f2⟩ := pr3
              rw [hr] at h; try dsimp only at h
              simp only [Except.ok.injEq, Prod.mk.injEq] at h
              have hrec := ih rest2 (found + 1) ops2 f2 hr
              rw [← h.1, ← h.2]
              simp only [List.length_cons]
              omega
      · rw [if_neg h1] at h
        by_cases h2 : tag = kTypeDeletion
        · rw [if_pos h2] at h
          cases hk : getLengthPrefixedSlice rest with
          | none => rw [hk] at h; exact absurd h (by simp)
          | some pr1 =>
            obtain ⟨key, rest1⟩ := pr1
            rw [hk] at h; try dsimp only at h
            cases hr : iterateRecords fuel rest1 (found + 1) with
            | error e => rw [hr] at h; exact absurd h (by simp)
            | ok pr3 =>
              obtain ⟨ops2, f2⟩ := pr3
              rw [hr] at h; try dsimp only at h
              simp only [Except.ok.injEq, Prod.mk.injEq] at h
              have hrec := ih rest1 (found + 1) ops2 f2 hr
              rw [← h.1, ← h.2]
              simp only [List.length_cons]
              omega
        · rw [if_neg h2] at h
          exact absurd h (by simp)

theorem iterateRecords_ok_denotes (fuel : Nat) : ∀ input found ops g,
    iterateRecords fuel input found = .ok (ops, g) → BatchBodyDenotes input ops := by
  induction fuel with
  | zero =>
    intro input found ops g h
    cases input with
    | nil =>
      simp only [iterateRecords, Except.ok.injEq, Prod.mk.injEq] at h
      rw [← h.1]
      exact .nil
    | cons a l => exact absurd h (by simp [iterateRecords])
  | succ fuel ih =>
    intro input found ops g h
    cases input with
    | nil =>
      simp only [iterateRecords, Except.ok.injEq, Prod.mk.injEq] at h
      rw [← h.1]
      exact .nil
    | cons tag rest =>
      rw [iterateRecords] at h
      by_cases h1 : tag = kTypeValue
      · rw [if_pos h1] at h
        cases hk : getLengthPrefixedSlice rest with
        | none => rw [hk] at h; exact absurd h (by simp)
        | some pr1 =>
          obtain ⟨key, rest1⟩ := pr1
          rw [hk] at h; try dsimp only at h
          cases hv : getLengthPrefixedSlice rest1 with
          | none => rw [hv] at h; exact absurd h (by simp)
          | some pr2 =>
            obtain ⟨value, rest2⟩ := pr2
            rw [hv] at h; try dsimp only at h
            cases hr : iterateRecords fuel rest2 (found + 1) with
            | error e => rw [hr] at h; exact absurd h (by simp)
            | ok pr3 =>
              obtain ⟨ops2, f2⟩ := pr3
              rw [hr] at h; try dsimp only at h
              simp only [Except.ok.injEq, Prod.mk.injEq] at h
              rw [h1, ← h.1]
              exact .put hk hv (ih rest2 (found + 1) ops2 f2 hr)
      · rw [if_neg h1] at h
        by_cases h2 : tag = kTypeDeletion
        · rw [if_pos h2] at h
          cases hk : getLengthPrefixedSlice rest with
          | none => rw [hk] at h; exact absurd h (by simp)
          | some pr1 =>
            obtain ⟨key, rest1⟩ := pr1
            rw [hk] at h; try dsimp only at h
            cases hr : iterateRecords fuel rest1 (found + 1) with
            | error e => rw [hr] at h; exact absurd h (by simp)
            | ok pr3 =>
              obtain ⟨ops2, f2⟩ := pr3
              rw [hr] at h; try dsimp only at h
              simp only [Except.ok.injEq, Prod.mk.injEq] at h
              rw [h2, ← h.1]
              exact .del hk (ih rest1 (found + 1) ops2 f2 hr)
        · rw [if_neg h2] at h
          exact absurd h (by simp)

theorem denotes_iterateRecords (input : List Nat) (ops : List BatchOp)
    (hd : BatchBodyDenotes input ops) : ∀ fuel found, input.length ≤ fuel →
    iterateRecords fuel input found = .ok (ops, found + ops.length) := by
  induction hd with
  | nil =>
    intro fuel found _
    cases fuel <;> simp [iterateRecords]
  | @put rest k rest1 v rest2 ops2 hk hv _ ih =>
    intro fuel found hfuel
    simp only [List.length_cons] at hfuel
    cases fuel with
    | zero => omega
    | succ fuel =>
      rw [iterateRecords]
      rw [if_pos rfl, hk]
      dsimp only
      rw [hv]
      dsimp only
      have hlen : rest2.length ≤ fuel := by
        have l1 := getLengthPrefixedSlice_shrinks _ _ _ hk
        have l2 := getLengthPrefixedSlice_shrinks _ _ _ hv
        omega
      rw [ih fuel (found + 1) hlen]
      simp only [List.length_cons]
      congr 2
      omega
  | @del rest k rest1 ops2 hk _ ih =>
    intro fuel found hfuel
    simp only [List.length_cons] at hfuel
    cases fuel with
    | zero => omega
    | succ fuel =>
      rw [iterateRecords]
      rw [if_neg (by decide), if_pos rfl, hk]
      dsimp only
      have hlen : rest1.length ≤ fuel := by
        have l1 := getLengthPrefixedSlice_shrinks _ _ _ hk
        omega
      rw [ih fuel (found + 1) hlen]
      simp only [List.length_cons]
      congr 2
      omega

/-- Canonical record encoding written by WriteBatch::Put and
WriteBatch::Delete (db/write_batch.cc lines 108-120). -/
def encodeBatchOp : BatchOp → List Nat
  | .put k v => kTypeValue :: (encodeVarint32 k.length ++ k ++ (encodeVarint32 v.length ++ v))
  | .del k => kTypeDeletion :: (encodeVarint32 k.length ++ k)

/-- Canonical batch representation: fixed64 sequence, fixed32 count, then the
canonically encoded records. -/
def encodeBatch (seq : Nat) (ops : List BatchOp) : List Nat :=
  encodeFixed64 seq ++ encodeFixed32 ops.length ++ (ops.map encodeBatchOp).flatten

/-- Bounds under which a record's lengths fit the 32-bit varints. -/
def batchOpLenOk : BatchOp → Prop
  | .put k v => k.length < 2 ^ 32 ∧ v.length < 2 ^ 32
  | .del k => k.length < 2 ^ 32

theorem getLengthPrefixedSlice_canonical (s rest : List Nat) (h : s.length < 2 ^ 32) :
    getLengthPrefixedSlice (encodeVarint32 s.length ++ s ++ rest) = some (s, rest) := by
  unfold getLengthPrefixedSlice
  rw [List.append_assoc, getVarint32_encodeVarint32 _ _ h]
  dsimp only
  rw [if_pos (by rw [List.length_append]; omega)]
  rw [List.take_left, List.drop_left]

theorem getLengthPrefixedSlice_canonical_assoc (s rest : List Nat)
    (h : s.length < 2 ^ 32) :
    getLengthPrefixedSlice (encodeVarint32 s.length ++ (s ++ rest)) = some (s, rest) := by
  rw [← List.append_assoc]
  exact getLengthPrefixedSlice_canonical s rest h

theorem encodeBatchOp_denotes (ops : List BatchOp) (h : ∀ op ∈ ops, batchOpLenOk op) :
    BatchBodyDenotes (ops.map encodeBatchOp).flatten ops := by
  induction ops with
  | nil => exact .nil
  | cons op rest ih =>
    have hop := h op (by simp)
    have hrest := ih (fun o ho => h o (by simp [ho]))
    cases op with
    | put k v =>
      obtain ⟨hk, hv⟩ := hop
      simp only [List.map_cons, List.flatten_cons, encodeBatchOp, List.cons_append,
        List.append_assoc]
      exact .put (getLengthPrefixedSlice_canonical_assoc k _ hk)
        (getLengthPrefixedSlice_canonical_assoc v _ hv) hrest
    | del k =>
      simp only [List.map_cons, List.flatten_cons, encodeBatchOp, List.cons_append,
        List.append_assoc]
      exact .del (getLengthPrefixedSlice_canonical_assoc k _ hop) hrest

/-- C5: WriteBatch::Iterate succeeds, emitting exactly one Put or Delete
callback per record in order, iff the buffer is at least the 12-byte header,
the record region parses as a sequence of records (known tag byte, then
well-formed length-prefixed strings), and the header's count field equals the
number of records; every other buffer produces a Corruption error, and on the
canonical encodings built by Put/Delete the iteration succeeds and returns
the original operations. -/
theorem c5_write_batch_iterate :
    (∀ rep ops, writeBatchIterate rep = .ok ops ↔
      (kHeader ≤ rep.length ∧ BatchBodyDenotes (rep.drop kHeader) ops ∧
        decodeFixed32 (rep.drop 8) = ops.length)) ∧
    (∀ seq ops, seq < 2 ^ 64 → ops.length < 2 ^ 32 →
      (∀ op ∈ ops, batchOpLenOk op) →
      writeBatchIterate (encodeBatch seq ops) = .ok ops) := by
  have main : ∀ rep ops, writeBatchIterate rep = .ok ops ↔
      (kHeader ≤ rep.length ∧ BatchBodyDenotes (rep.drop kHeader) ops ∧
        decodeFixed32 (rep.drop 8) = ops.length) := by
    intro rep ops
    unfold writeBatchIterate
    constructor
    · intro h
      by_cases hlen : rep.length < kHeader
      · rw [if_pos hlen] at h
        exact absurd h (by simp)
      · rw [if_neg hlen] at h
        cases hr : iterateRecords rep.length (rep.drop kHeader) 0 with
        | error e => rw [hr] at h; exact absurd h (by simp)
        | ok pr =>
          obtain ⟨ops2, found⟩ := pr
          rw [hr] at h; try dsimp only at h
          by_cases hc : found = decodeFixed32 (rep.drop 8)
          · rw [if_pos hc] at h
            simp only [Except.ok.injEq] at h
            subst h
            have hf := iterateRecords_ok_found _ _ _ _ _ hr
            refine ⟨by omega, iterateRecords_ok_denotes _ _ _ _ _ hr, by omega⟩
          · rw [if_neg hc] at h
            exact absurd h (by simp)
    · rintro ⟨hlen, hden, hcount⟩
      rw [if_neg (by omega)]
      rw [denotes_iterateRecords _ _ hden rep.length 0
        (by rw [List.length_drop]; omega)]
      dsimp only
      rw [if_pos (by omega)]
  refine ⟨main, ?_⟩
  intro seq ops hseq hcount hops
  rw [main]
  have hlen12 : (encodeFixed64 seq ++ encodeFixed32 ops.length).length = 12 := by
    rw [List.length_append, encodeFixed64_length, encodeFixed32_length]
  refine ⟨?_, ?_, ?_⟩
  · unfold encodeBatch kHeader
    rw [List.append_assoc, List.length_append]
    rw [List.length_append, encodeFixed64_length, encodeFixed32_length]
    omega
  · unfold encodeBatch
    rw [show encodeFixed64 seq ++ encodeFixed32 ops.length ++ (ops.map encodeBatchOp).flatten = (encodeFixed64 seq ++ encodeFixed32 ops.length) ++ (ops.map encodeBatchOp).flatten from by simp [List.append_assoc]]
    rw [show (kHeader : Nat) = (encodeFixed64 seq ++ encodeFixed32 ops.length).length from by rw [hlen12]; rfl]
    rw [List.drop_left]
    exact encodeBatchOp_denotes ops hops
  · unfold encodeBatch
    rw [show encodeFixed64 seq ++ encodeFixed32 ops.length ++ (ops.map encodeBatchOp).flatten = encodeFixed64 seq ++ (encodeFixed32 ops.length ++ (ops.map encodeBatchOp).flatten) from by simp [List.append_assoc]]
    rw [show (8 : Nat) = (encodeFixed64 seq).length from (encodeFixed64_length seq).symm]
    rw [List.drop_left]
    exact decodeFixed32_append _ _ hcount

/-- Witness for C5's canonical round-trip at a concrete batch: sequence 7,
one Put and one Delete. -/
theorem c5_witness :
    ((7 : Nat) < 2 ^ 64 ∧ ([BatchOp.put [1] [2, 3], BatchOp.del [4]] : List BatchOp).length < 2 ^ 32 ∧
      (∀ op ∈ ([BatchOp.put [1] [2, 3], BatchOp.del [4]] : List BatchOp), batchOpLenOk op)) ∧
    writeBatchIterate (encodeBatch 7 [BatchOp.put [1] [2, 3], BatchOp.del [4]]) =
      .ok [BatchOp.put [1] [2, 3], BatchOp.del [4]] :=
  ⟨⟨by norm_num, by norm_num, by intro op hop; fin_cases hop <;> norm_num [batchOpLenOk]⟩,
   c5_write_batch_iterate.2 7 _ (by norm_num) (by norm_num)
     (by intro op hop; fin_cases hop <;> norm_num [batchOpLenOk])⟩

/-! ## db/log_writer: Writer::AddRecord (claim C4) -/

/-- WAL record types (db/log_format.h lines 19-28). -/
def kZeroType : Nat := 0

/-- A complete record (db/log_format.h). -/
def kFullType : Nat := 1

/-- First fragment of a record (db/log_format.h). -/
def kFirstType : Nat := 2

/-- Middle fragment of a record (db/log_format.h). -/
def kMiddleType : Nat := 3

/-- Last fragment of a record (db/log_format.h). -/
def kLastType : Nat := 4

/-- WAL block size (db/log_format.h line 31): 32 KiB. -/
def kBlockSize : Nat := 32768

/-- WAL physical record header size (db/log_format.h line 37): 7 bytes. -/
def kHeaderSize : Nat := 7

/-- One physical append performed by the log writer: zero padding of a block
tail, or a physical record of a given type and payload (header raised to the
byte level by `renderItem`). -/
inductive PhysItem
  | pad (n : Nat)
  | record (t : Nat) (payload : List Nat)
  deriving DecidableEq

/-- Zero padding Writer::AddRecord appends when fewer than `kHeaderSize`
bytes remain in the block and at least one does (db/log_writer.cc lines
56-64). -/
def padOf (blockOffset : Nat) : List PhysItem :=
  if kBlockSize - blockOffset < kHeaderSize ∧ 0 < kBlockSize - blockOffset then
    [PhysItem.pad (kBlockSize - blockOffset)] else []

/-- Block offset after the possible block switch (db/log_writer.cc line 64). -/
def boAfterPad (blockOffset : Nat) : Nat :=
  if kBlockSize - blockOffset < kHeaderSize then 0 else blockOffset

/-- Record type chosen for a fragment (db/log_writer.cc lines 76-90). -/
def fragType (bgn isEnd : Bool) : Nat :=
  if bgn ∧ isEnd then kFullType
  else if bgn then kFirstType
  else if isEnd then kLastType
  else kMiddleType

/-- Writer::AddRecord (db/log_writer.cc lines 37-99) as the sequence of
physical appends it performs, threading the block offset.  Per iteration: if
fewer than `kHeaderSize` bytes remain in the block, zero-fill them (when any
remain) and start a new block; then emit `min(left, avail)` payload bytes
with the type determined by the first/final flags.  `fuel` bounds the
do-while loop (`none` only on exhaustion; `2·|data| + 3` always suffices). -/
def addRecordLoop : Nat → Nat → List Nat → Bool → Option (List PhysItem × Nat)
  | 0, _, _, _ => none
  | fuel + 1, blockOffset, data, bgn =>
    if data.length ≤ kBlockSize - boAfterPad blockOffset - kHeaderSize then
      some (padOf blockOffset ++
          [PhysItem.record (fragType bgn true)
            (data.take (kBlockSize - boAfterPad blockOffset - kHeaderSize))],
        boAfterPad blockOffset + kHeaderSize + data.length)
    else
      match addRecordLoop fuel (boAfterPad blockOffset + kHeaderSize +
          (kBlockSize - boAfterPad blockOffset - kHeaderSize))
          (data.drop (kBlockSize - boAfterPad blockOffset - kHeaderSize)) false with
      | some (items, boEnd) =>
        some (padOf blockOffset ++
          PhysItem.record (fragType bgn false)
            (data.take (kBlockSize - boAfterPad blockOffset - kHeaderSize)) :: items, boEnd)
      | none => none

/-- The physical records among a list of appends, in order. -/
def recsOf (items : List PhysItem) : List (Nat × List Nat) :=
  items.filterMap (fun it => match it with
    | .record t p => some (t, p)
    | .pad _ => none)

/-- Physical well-formedness of a sequence of appends starting at block
offset `bo`: padding fills exactly the sub-header tail of its block, every
record fits inside its block (never spanning a boundary), and every record
followed by further records fills its block completely (its payload is
exactly `kBlockSize - bo - kHeaderSize` bytes — the `min` of the claim). -/
def fragmentsWF : Nat → List PhysItem → Prop
  | _, [] => True
  | bo, .pad n :: rest => n = kBlockSize - bo ∧ 0 < n ∧ n < kHeaderSize ∧ fragmentsWF 0 rest
  | bo, .record _ p :: rest =>
    bo + kHeaderSize + p.length ≤ kBlockSize ∧
    (recsOf rest ≠ [] → p.length = kBlockSize - bo - kHeaderSize) ∧
    fragmentsWF ((bo + kHeaderSize + p.length) % kBlockSize) rest

/-- Type each fragment must carry: `Full` for the only fragment of a fresh
record, `First`/`Last` at the ends, `Middle` inside. -/
def expectedRecType (bgn : Bool) (i m : Nat) : Nat :=
  if i = 0 ∧ bgn then (if m = 1 then kFullType else kFirstType)
  else if i = m - 1 then kLastType
  else kMiddleType

theorem recsOf_append (a b : List PhysItem) : recsOf (a ++ b) = recsOf a ++ recsOf b := by
  unfold recsOf
  rw [List.filterMap_append]

theorem recsOf_padOf (blockOffset : Nat) : recsOf (padOf blockOffset) = [] := by
  unfold padOf
  split_ifs <;> rfl

theorem boAfterPad_le (blockOffset : Nat) (hbo : blockOffset ≤ kBlockSize) :
    boAfterPad blockOffset ≤ kBlockSize - kHeaderSize := by
  unfold boAfterPad kBlockSize kHeaderSize at *
  split_ifs with hc
  · omega
  · omega

theorem fragmentsWF_padOf (blockOffset : Nat) (hbo : blockOffset ≤ kBlockSize)
    (rest : List PhysItem) (hrest : fragmentsWF (boAfterPad blockOffset) rest) :
    fragmentsWF (blockOffset % kBlockSize) (padOf blockOffset ++ rest) := by
  unfold padOf boAfterPad at *
  by_cases h1 : kBlockSize - blockOffset < kHeaderSize
  · rw [if_pos h1] at hrest
    by_cases h2 : 0 < kBlockSize - blockOffset
    · rw [if_pos ⟨h1, h2⟩, List.cons_append, List.nil_append]
      have hlt : blockOffset < kBlockSize := by
        unfold kBlockSize kHeaderSize at *
        omega
      rw [Nat.mod_eq_of_lt hlt]
      exact ⟨rfl, h2, h1, hrest⟩
    · rw [if_neg (by tauto), List.nil_append]
      have heq : blockOffset = kBlockSize := by
        unfold kBlockSize kHeaderSize at *
        omega
      rw [heq, Nat.mod_self]
      exact hrest
  · rw [if_neg (by tauto), List.nil_append]
    rw [if_neg h1] at hrest
    have hlt : blockOffset < kBlockSize := by
      unfold kBlockSize kHeaderSize at *
      omega
    rw [Nat.mod_eq_of_lt hlt]
    exact hrest

theorem recsOf_cons_rec (t : Nat) (p : List Nat) (l : List PhysItem) :
    recsOf (.record t p :: l) = (t, p) :: recsOf l := by
  unfold recsOf
  rw [List.filterMap_cons]

theorem recsOf_cons_pad (n : Nat) (l : List PhysItem) :
    recsOf (.pad n :: l) = recsOf l := by
  unfold recsOf
  rw [List.filterMap_cons]

theorem fragType_nonend_head (bgn : Bool) (m : Nat) (h : 2 ≤ m) :
    fragType bgn false = expectedRecType bgn 0 m := by
  unfold fragType expectedRecType
  cases bgn <;> split_ifs <;> first | rfl | omega | simp_all

theorem expectedRecType_shift (bgn : Bool) (j m : Nat) (h : 1 ≤ m) :
    expectedRecType false j m = expectedRecType bgn (j + 1) (m + 1) := by
  unfold expectedRecType
  split_ifs <;> first | rfl | omega | simp_all

theorem addRecordLoop_spec (fuel : Nat) : ∀ bo data bgn items boEnd,
    bo ≤ kBlockSize →
    addRecordLoop fuel bo data bgn = some (items, boEnd) →
    fragmentsWF (bo % kBlockSize) items ∧
    ((recsOf items).map Prod.snd).flatten = data ∧
    recsOf items ≠ [] ∧
    (∀ i, i < (recsOf items).length →
      ((recsOf items).getD i (0, [])).1 = expectedRecType bgn i (recsOf items).length) ∧
    boEnd ≤ kBlockSize ∧
    (data = [] → bgn = true → recsOf items = [(kFullType, [])]) := by
  induction fuel with
  | zero =>
    intro bo data bgn items boEnd hbo h
    exact absurd h (by simp [addRecordLoop])
  | succ fuel ih =>
    intro bo data bgn items boEnd hbo h
    rw [addRecordLoop] at h
    have hB := boAfterPad_le bo hbo
    by_cases hend : data.length ≤ kBlockSize - boAfterPad bo - kHeaderSize
    · rw [if_pos hend] at h
      simp only [Option.some.injEq, Prod.mk.injEq] at h
      obtain ⟨hitems, hboEnd⟩ := h
      have htake : data.take (kBlockSize - boAfterPad bo - kHeaderSize) = data :=
        List.take_of_length_le hend
      rw [htake] at hitems
      subst hitems
      subst hboEnd
      have hrecs : recsOf (padOf bo ++ [PhysItem.record (fragType bgn true) data]) =
          [(fragType bgn true, data)] := by
        rw [recsOf_append, recsOf_padOf, List.nil_append, recsOf_cons_rec]
        rfl
      refine ⟨?_, ?_, ?_, ?_, ?_, ?_⟩
      · refine fragmentsWF_padOf bo hbo _ ?_
        refine ⟨?_, ?_, trivial⟩
        · unfold kBlockSize kHeaderSize at *
          omega
        · intro hne
          exact absurd rfl hne
      · rw [hrecs]
        simp
      · rw [hrecs]
        simp
      · intro i hi
        rw [hrecs] at hi ⊢
        cases i with
        | zero =>
          simp only [List.getD_cons_zero, List.length_singleton]
          show fragType bgn true = expectedRecType bgn 0 1
          cases bgn <;> decide
        | succ j =>
          simp only [List.length_singleton] at hi
          omega
      · unfold kBlockSize kHeaderSize at *
        omega
      · intro hdata hbgn
        subst hdata
        subst hbgn
        rw [hrecs]
        rfl
    · rw [if_neg hend] at h
      cases hrec : addRecordLoop fuel (boAfterPad bo + kHeaderSize +
          (kBlockSize - boAfterPad bo - kHeaderSize))
          (data.drop (kBlockSize - boAfterPad bo - kHeaderSize)) false with
      | none =>
        rw [hrec] at h
        exact absurd h (by simp)
      | some pr =>
        obtain ⟨items2, boEnd2⟩ := pr
        rw [hrec] at h
        simp only [Option.some.injEq, Prod.mk.injEq] at h
        obtain ⟨hitems, hboEnd⟩ := h
        subst hitems
        subst hboEnd
        have hbo2 : boAfterPad bo + kHeaderSize +
            (kBlockSize - boAfterPad bo - kHeaderSize) = kBlockSize := by
          unfold kBlockSize kHeaderSize at *
          omega
        have hih := ih _ _ _ _ _ (le_of_eq hbo2) hrec
        rw [hbo2, Nat.mod_self] at hih
        obtain ⟨ihWF, ihFlat, ihNe, ihTy, ihBound, _⟩ := hih
        have hlen : (data.take (kBlockSize - boAfterPad bo - kHeaderSize)).length =
            kBlockSize - boAfterPad bo - kHeaderSize := by
          rw [List.length_take]
          omega
        have hm1 : 1 ≤ (recsOf items2).length := by
          rcases Nat.eq_zero_or_pos (recsOf items2).length with hz | hp
          · exact absurd (List.eq_nil_of_length_eq_zero hz) ihNe
          · exact hp
        have hrecs : recsOf (padOf bo ++ PhysItem.record (fragType bgn false)
            (data.take (kBlockSize - boAfterPad bo - kHeaderSize)) :: items2) =
            (fragType bgn false, data.take (kBlockSize - boAfterPad bo - kHeaderSize)) ::
              recsOf items2 := by
          rw [recsOf_append, recsOf_padOf, List.nil_append, recsOf_cons_rec]
        refine ⟨?_, ?_, ?_, ?_, ihBound, ?_⟩
        · refine fragmentsWF_padOf bo hbo _ ?_
          refine ⟨?_, ?_, ?_⟩
          · rw [hlen]
            unfold kBlockSize kHeaderSize at *
            omega
          · intro _
            exact hlen
          · rw [hlen, hbo2, Nat.mod_self]
            exact ihWF
        · rw [hrecs]
          simp only [List.map_cons, List.flatten_cons]
          rw [ihFlat]
          exact List.take_append_drop _ data
        · rw [hrecs]
          simp
        · intro i hi
          rw [hrecs] at hi ⊢
          cases i with
          | zero =>
            simp only [List.getD_cons_zero, List.length_cons]
            show fragType bgn false = expectedRecType bgn 0 ((recsOf items2).length + 1)
            exact fragType_nonend_head bgn _ (by omega)
          | succ j =>
            simp only [List.getD_cons_succ, List.length_cons] at hi ⊢
            have hj : j < (recsOf items2).length := by omega
            rw [ihTy j hj]
            exact expectedRecType_shift bgn j _ hm1
        · intro hdata
          rw [hdata] at hend
          exact absurd (by simp) hend

/-- C4: Writer::AddRecord fragmentation.  For every AddRecord call starting
at block offset `bo`: the emitted physical items are well formed (padding
fills exactly the sub-header tail of its block, every record fits inside its
block — no record spans a block boundary — and every non-final fragment
carries exactly `kBlockSize - bo - kHeaderSize` payload bytes, the `min` of
the claim); the fragments reassemble the payload; at least one record is
emitted; fragment `i` of `m` carries type Full (single), First (i = 0),
Last (i = m-1) or Middle; the final block offset stays within a block; and
an empty payload emits exactly one Full record of zero length. -/
theorem c4_add_record_fragments (fuel bo : Nat) (data : List Nat)
    (items : List PhysItem) (boEnd : Nat)
    (hbo : bo ≤ kBlockSize)
    (h : addRecordLoop fuel bo data true = some (items, boEnd)) :
    fragmentsWF (bo % kBlockSize) items ∧
    ((recsOf items).map Prod.snd).flatten = data ∧
    recsOf items ≠ [] ∧
    (∀ i, i < (recsOf items).length →
      ((recsOf items).getD i (0, [])).1 = expectedRecType true i (recsOf items).length) ∧
    boEnd ≤ kBlockSize ∧
    (data = [] → recsOf items = [(kFullType, [])]) := by
  have h2 := addRecordLoop_spec fuel bo data true items boEnd hbo h
  exact ⟨h2.1, h2.2.1, h2.2.2.1, h2.2.2.2.1, h2.2.2.2.2.1,
    fun hd => h2.2.2.2.2.2 hd rfl⟩

theorem c4_witness :
    (fragmentsWF (0 % kBlockSize) [PhysItem.record kFullType []] ∧
      ((recsOf [PhysItem.record kFullType []]).map Prod.snd).flatten = [] ∧
      recsOf [PhysItem.record kFullType []] ≠ [] ∧
      (∀ i, i < (recsOf [PhysItem.record kFullType []]).length →
        ((recsOf [PhysItem.record kFullType []]).getD i (0, [])).1 =
          expectedRecType true i (recsOf [PhysItem.record kFullType []]).length) ∧
      7 ≤ kBlockSize ∧
      (([] : List Nat) = [] → recsOf [PhysItem.record kFullType []] = [(kFullType, [])])) ∧
    (fragmentsWF (32763 % kBlockSize) [PhysItem.pad 5, PhysItem.record kFullType [1, 2, 3]] ∧
      ((recsOf [PhysItem.pad 5, PhysItem.record kFullType [1, 2, 3]]).map Prod.snd).flatten =
        [1, 2, 3] ∧
      recsOf [PhysItem.pad 5, PhysItem.record kFullType [1, 2, 3]] ≠ [] ∧
      (∀ i, i < (recsOf [PhysItem.pad 5, PhysItem.record kFullType [1, 2, 3]]).length →
        ((recsOf [PhysItem.pad 5, PhysItem.record kFullType [1, 2, 3]]).getD i (0, [])).1 =
          expectedRecType true i
            (recsOf [PhysItem.pad 5, PhysItem.record kFullType [1, 2, 3]]).length) ∧
      10 ≤ kBlockSize ∧
      ([1, 2, 3] = ([] : List Nat) →
        recsOf [PhysItem.pad 5, PhysItem.record kFullType [1, 2, 3]] = [(kFullType, [])])) :=
  ⟨c4_add_record_fragments 2 0 [] [PhysItem.record kFullType []] 7
      (by decide) (by decide),
    c4_add_record_fragments 2 32763 [1, 2, 3]
      [PhysItem.pad 5, PhysItem.record kFullType [1, 2, 3]] 10
      (by decide) (by decide)⟩

/-! ### C6 — LRUCache shard (util/cache.cc)

The shard state is embedded at the level the invariant comment atop
util/cache.cc speaks: each live heap handle (`struct LRUHandle`) is a pair
of an allocation id and its fields; `lru` and `inUse` hold the ids linked
into the `lru_` resp. `in_use_` circular lists (oldest first — `lru_.next`
is the eviction end, `LRU_Append` appends before the dummy head, i.e. at
the tail); the hash table `table_` holds exactly the in-cache entries, so
table membership is the `inCache` flag and a table lookup scans the live
entries for an in-cache entry with the given key; `freed` records the ids
whose deleter has run (`Unref` reaching `refs == 0`). -/

/-- `struct LRUHandle` (util/cache.cc): key, charge, `in_cache`, `refs`. -/
structure LRUEntry where
  key : List Nat
  charge : Nat
  inCache : Bool
  refs : Nat
  deriving DecidableEq

/-- One LRUCache shard: `capacity_`, `usage_`, a fresh-id counter for
`malloc`, the live handles, the two lists as id lists, and the deleted ids. -/
structure CacheState where
  capacity : Nat
  usage : Nat
  nextId : Nat
  entries : List (Nat × LRUEntry)
  lru : List Nat
  inUse : List Nat
  freed : List Nat
  deriving DecidableEq

/-- The live entry with the given id, if any. -/
def entriesFind (l : List (Nat × LRUEntry)) (id : Nat) : Option LRUEntry :=
  (l.find? (fun p => p.1 == id)).map Prod.snd

/-- Dereference a handle id in a shard state. -/
def entryOf (s : CacheState) (id : Nat) : Option LRUEntry :=
  entriesFind s.entries id

/-- In-place update of the fields of handle `id` (a store through the
handle pointer). -/
def setEntry (l : List (Nat × LRUEntry)) (id : Nat) (e : LRUEntry) :
    List (Nat × LRUEntry) :=
  l.map (fun p => if p.1 = id then (id, e) else p)

/-- `LRU_Remove` (util/cache.cc): unlink an id from a list. -/
def removeId (l : List Nat) (id : Nat) : List Nat :=
  l.filter (fun x => x != id)

/-- `LRUCache::Ref` (util/cache.cc): an entry on `lru_` (refs = 1, in
cache) moves to `in_use_`; the reference count is incremented. -/
def cacheRef (s : CacheState) (id : Nat) : CacheState :=
  match entryOf s id with
  | none => s
  | some e =>
    { s with
      lru := if e.refs = 1 ∧ e.inCache = true then removeId s.lru id else s.lru,
      inUse := if e.refs = 1 ∧ e.inCache = true then s.inUse ++ [id] else s.inUse,
      entries := setEntry s.entries id { e with refs := e.refs + 1 } }

/-- `LRUCache::Unref` (util/cache.cc): decrement `refs`; at zero run the
deleter and free the handle; at one while still in cache move it from
`in_use_` to `lru_`. -/
def cacheUnref (s : CacheState) (id : Nat) : CacheState :=
  match entryOf s id with
  | none => s
  | some e =>
    if e.refs - 1 = 0 then
      { s with entries := s.entries.filter (fun p => p.1 != id),
               freed := s.freed ++ [id] }
    else if e.inCache = true ∧ e.refs - 1 = 1 then
      { s with inUse := removeId s.inUse id,
               lru := s.lru ++ [id],
               entries := setEntry s.entries id { e with refs := e.refs - 1 } }
    else
      { s with entries := setEntry s.entries id { e with refs := e.refs - 1 } }

/-- `LRUCache::FinishErase` (util/cache.cc) applied to a handle already
removed from the hash table: unlink from its list, clear `in_cache`, charge
back `usage_`, and `Unref`. -/
def finishErase (s : CacheState) (id : Nat) : CacheState :=
  match entryOf s id with
  | none => s
  | some e =>
    cacheUnref
      { s with
        lru := removeId s.lru id,
        inUse := removeId s.inUse id,
        usage := s.usage - e.charge,
        entries := setEntry s.entries id { e with inCache := false } } id

/-- `HandleTable::Lookup`: the in-cache entry with the given key. -/
def tableLookup (s : CacheState) (key : List Nat) : Option Nat :=
  (s.entries.find? (fun p => p.2.inCache && decide (p.2.key = key))).map Prod.fst

/-- `e->key()` for a live handle. -/
def keyOfId (s : CacheState) (id : Nat) : List Nat :=
  match entryOf s id with
  | some e => e.key
  | none => []

/-- `LRUCache::Lookup` (util/cache.cc): table lookup plus `Ref`. -/
def cacheLookup (s : CacheState) (key : List Nat) : CacheState :=
  match tableLookup s key with
  | none => s
  | some id => cacheRef s id

/-- `LRUCache::Release` (util/cache.cc): `Unref` the handle. -/
def cacheRelease (s : CacheState) (id : Nat) : CacheState :=
  cacheUnref s id

/-- `LRUCache::Erase` (util/cache.cc): `FinishErase(table_.Remove(key))`. -/
def cacheErase (s : CacheState) (key : List Nat) : CacheState :=
  match tableLookup s key with
  | none => s
  | some id => finishErase s id

/-- The eviction loop of `LRUCache::Insert` (util/cache.cc lines 355-362):
while `usage_ > capacity_` and `lru_` is nonempty, remove the oldest
(`lru_.next`) entry from the table and finish erasing it.  `fuel` bounds
the loop; the length of `lru` suffices. -/
def evictLoop : Nat → CacheState → CacheState
  | 0, s => s
  | fuel + 1, s =>
    if s.capacity < s.usage then
      match s.lru with
      | [] => s
      | id :: _ => evictLoop fuel (cacheErase s (keyOfId s id))
    else s

/-- `LRUCache::Insert` (util/cache.cc): allocate a fresh handle with one
client reference; when the cache has capacity, take a cache reference, mark
in-cache, append to `in_use_`, charge `usage_`, finish erasing any displaced
entry with the same key, and run the eviction loop; with zero capacity the
handle is returned uncached. -/
def cacheInsert (s : CacheState) (key : List Nat) (charge : Nat) : CacheState :=
  let id := s.nextId
  if 0 < s.capacity then
    let sMid : CacheState :=
      { s with nextId := id + 1,
               entries := s.entries ++ [(id, ⟨key, charge, true, 2⟩)],
               inUse := s.inUse ++ [id],
               usage := s.usage + charge }
    let sDup : CacheState :=
      match tableLookup s key with
      | none => sMid
      | some old => finishErase sMid old
    evictLoop sDup.lru.length sDup
  else
    { s with nextId := id + 1,
             entries := s.entries ++ [(id, ⟨key, charge, false, 1⟩)] }

/-- The loop of `LRUCache::Prune` (util/cache.cc): erase the oldest `lru_`
entry until the list is empty. -/
def pruneLoop : Nat → CacheState → CacheState
  | 0, s => s
  | fuel + 1, s =>
    match s.lru with
    | [] => s
    | id :: _ => pruneLoop fuel (cacheErase s (keyOfId s id))

/-- `LRUCache::Prune` (util/cache.cc). -/
def cachePrune (s : CacheState) : CacheState :=
  pruneLoop s.lru.length s

/-- The entry-state invariant from the comment atop util/cache.cc: live ids
are distinct, the lists hold distinct ids of live entries, every live entry
has a reference, an entry is on `in_use_` iff `refs >= 2` and in cache, on
`lru_` iff `refs = 1` and in cache, ids are below the allocation counter,
in-cache entries have distinct keys, and freed ids are not live. -/
def Inv (s : CacheState) : Prop :=
  (s.entries.map Prod.fst).Nodup ∧
  s.lru.Nodup ∧
  s.inUse.Nodup ∧
  (∀ p ∈ s.entries,
    1 ≤ p.2.refs ∧
    (p.1 ∈ s.inUse ↔ (2 ≤ p.2.refs ∧ p.2.inCache = true)) ∧
    (p.1 ∈ s.lru ↔ (p.2.refs = 1 ∧ p.2.inCache = true)) ∧
    p.1 < s.nextId) ∧
  (∀ id ∈ s.lru, id ∈ s.entries.map Prod.fst) ∧
  (∀ id ∈ s.inUse, id ∈ s.entries.map Prod.fst) ∧
  (∀ p ∈ s.entries, ∀ q ∈ s.entries,
    p.2.inCache = true → q.2.inCache = true → p.2.key = q.2.key → p.1 = q.1) ∧
  (∀ id ∈ s.freed, ∀ p ∈ s.entries, p.1 ≠ id) ∧
  (∀ f ∈ s.freed, f < s.nextId)

instance (s : CacheState) : Decidable (Inv s) := by
  unfold Inv
  infer_instance

theorem nodup_append_one {l : List Nat} {a : Nat} (h : l.Nodup) (ha : a ∉ l) :
    (l ++ [a]).Nodup := by
  rw [List.nodup_append]
  refine ⟨h, List.nodup_singleton a, ?_⟩
  intro x hx hmem
  simp only [List.mem_singleton] at hmem
  subst hmem
  exact ha hx

theorem mem_removeId {l : List Nat} {x id : Nat} :
    x ∈ removeId l id ↔ x ∈ l ∧ x ≠ id := by
  simp [removeId, List.mem_filter]

theorem removeId_nodup {l : List Nat} (h : l.Nodup) (id : Nat) :
    (removeId l id).Nodup :=
  h.filter _

theorem removeId_cons_self {id : Nat} {rest : List Nat} (h : id ∉ rest) :
    removeId (id :: rest) id = rest := by
  unfold removeId
  rw [List.filter_cons]
  simp only [bne_self_eq_false, Bool.false_eq_true, if_false]
  exact List.filter_eq_self.mpr (fun x hx => bne_iff_ne.mpr (fun hxx => h (hxx ▸ hx)))

theorem ids_setEntry (l : List (Nat × LRUEntry)) (id : Nat) (e : LRUEntry) :
    (setEntry l id e).map Prod.fst = l.map Prod.fst := by
  induction l with
  | nil => rfl
  | cons p t ih =>
    show ((if p.1 = id then (id, e) else p) :: setEntry t id e).map Prod.fst = _
    rw [List.map_cons, List.map_cons, ih]
    congr 1
    by_cases hp : p.1 = id
    · rw [if_pos hp]
      exact hp.symm
    · rw [if_neg hp]

theorem mem_setEntry {l : List (Nat × LRUEntry)} {id : Nat} {e : LRUEntry}
    {q : Nat × LRUEntry} (h : q ∈ setEntry l id e) :
    (q ∈ l ∧ q.1 ≠ id) ∨ q = (id, e) := by
  unfold setEntry at h
  rcases List.mem_map.mp h with ⟨p, hp, hq⟩
  by_cases hpid : p.1 = id
  · rw [if_pos hpid] at hq
    exact Or.inr hq.symm
  · rw [if_neg hpid] at hq
    exact Or.inl ⟨hq ▸ hp, hq ▸ hpid⟩

theorem setEntry_mem_self {l : List (Nat × LRUEntry)} {id : Nat} {e0 : LRUEntry}
    (h : (id, e0) ∈ l) (e : LRUEntry) : (id, e) ∈ setEntry l id e := by
  unfold setEntry
  refine List.mem_map.mpr ⟨(id, e0), h, ?_⟩
  rw [if_pos rfl]

theorem entriesFind_cons_self {p : Nat × LRUEntry} {t : List (Nat × LRUEntry)}
    {id : Nat} (h : p.1 = id) : entriesFind (p :: t) id = some p.2 := by
  unfold entriesFind
  rw [List.find?_cons_of_pos _ (by simp [h])]
  rfl

theorem entriesFind_cons_ne {p : Nat × LRUEntry} {t : List (Nat × LRUEntry)}
    {id : Nat} (h : p.1 ≠ id) : entriesFind (p :: t) id = entriesFind t id := by
  unfold entriesFind
  rw [List.find?_cons_of_neg _ (by simp [h])]

theorem entriesFind_eq_none {l : List (Nat × LRUEntry)} {id : Nat} :
    entriesFind l id = none ↔ id ∉ l.map Prod.fst := by
  induction l with
  | nil => simp [entriesFind]
  | cons p t ih =>
    by_cases hp : p.1 = id
    · rw [entriesFind_cons_self hp]
      simp [hp]
    · rw [entriesFind_cons_ne hp, List.map_cons, List.mem_cons, ih]
      constructor
      · intro h hmem
        rcases hmem with h1 | h1
        · exact hp h1.symm
        · exact h h1
      · intro h h1
        exact h (Or.inr h1)

theorem entriesFind_mem {l : List (Nat × LRUEntry)} {id : Nat} {e : LRUEntry}
    (h : entriesFind l id = some e) : (id, e) ∈ l := by
  induction l with
  | nil => simp [entriesFind] at h
  | cons p t ih =>
    by_cases hp : p.1 = id
    · rw [entriesFind_cons_self hp] at h
      have : p = (id, e) := by
        obtain ⟨p1, p2⟩ := p
        simp only at hp
        simp only [Option.some.injEq] at h
        rw [hp, h]
      exact this ▸ List.mem_cons_self p t
    · rw [entriesFind_cons_ne hp] at h
      exact List.mem_cons_of_mem p (ih h)

theorem entriesFind_eq_some {l : List (Nat × LRUEntry)}
    (hnd : (l.map Prod.fst).Nodup) (id : Nat) (e : LRUEntry) :
    entriesFind l id = some e ↔ (id, e) ∈ l := by
  constructor
  · exact entriesFind_mem
  · intro hmem
    induction l with
    | nil => simp at hmem
    | cons p t ih =>
      rw [List.map_cons, List.nodup_cons] at hnd
      rcases List.mem_cons.mp hmem with h1 | h1
      · rw [entriesFind_cons_self (by rw [← h1])]
        rw [← h1]
      · have hp : p.1 ≠ id := by
          intro hpe
          exact hnd.1 (hpe ▸ List.mem_map.mpr ⟨(id, e), h1, rfl⟩)
        rw [entriesFind_cons_ne hp]
        exact ih hnd.2 h1

theorem entries_pair_eq {l : List (Nat × LRUEntry)}
    (hnd : (l.map Prod.fst).Nodup) {id : Nat} {e1 e2 : LRUEntry}
    (h1 : (id, e1) ∈ l) (h2 : (id, e2) ∈ l) : e1 = e2 := by
  have a1 := (entriesFind_eq_some hnd id e1).mpr h1
  have a2 := (entriesFind_eq_some hnd id e2).mpr h2
  rw [a1] at a2
  exact Option.some.inj a2

theorem mem_ids_entriesFind {l : List (Nat × LRUEntry)} {id : Nat}
    (h : id ∈ l.map Prod.fst) : ∃ e, entriesFind l id = some e := by
  cases hfind : entriesFind l id with
  | none => exact absurd h (entriesFind_eq_none.mp hfind)
  | some e => exact ⟨e, rfl⟩

theorem entriesFind_setEntry_self {l : List (Nat × LRUEntry)} {id : Nat}
    (hmem : id ∈ l.map Prod.fst) (e : LRUEntry) :
    entriesFind (setEntry l id e) id = some e := by
  induction l with
  | nil => simp at hmem
  | cons p t ih =>
    show entriesFind ((if p.1 = id then (id, e) else p) :: setEntry t id e) id = some e
    by_cases hp : p.1 = id
    · rw [if_pos hp, entriesFind_cons_self rfl]
    · rw [if_neg hp, entriesFind_cons_ne hp]
      rw [List.map_cons] at hmem
      rcases List.mem_cons.mp hmem with h1 | h1
      · exact absurd h1.symm hp
      · exact ih h1

theorem entriesFind_setEntry_ne {l : List (Nat × LRUEntry)} {id id2 : Nat}
    (h : id2 ≠ id) (e : LRUEntry) :
    entriesFind (setEntry l id e) id2 = entriesFind l id2 := by
  induction l with
  | nil => rfl
  | cons p t ih =>
    show entriesFind ((if p.1 = id then (id, e) else p) :: setEntry t id e) id2 = _
    by_cases hp : p.1 = id
    · rw [if_pos hp, entriesFind_cons_ne (fun hh => h hh.symm),
        entriesFind_cons_ne (by rw [hp]; exact fun hh => h hh.symm)]
      exact ih
    · by_cases hq : p.1 = id2
      · rw [if_neg hp, entriesFind_cons_self hq, entriesFind_cons_self hq]
      · rw [if_neg hp, entriesFind_cons_ne hq, entriesFind_cons_ne hq]
        exact ih

theorem entriesFind_filter_self (l : List (Nat × LRUEntry)) (id : Nat) :
    entriesFind (l.filter (fun p => p.1 != id)) id = none := by
  apply entriesFind_eq_none.mpr
  intro hmem
  rcases List.mem_map.mp hmem with ⟨p, hp, hfst⟩
  have := (List.mem_filter.mp hp).2
  rw [hfst] at this
  simp at this

theorem entriesFind_filter_ne {l : List (Nat × LRUEntry)} {id id2 : Nat}
    (h : id2 ≠ id) :
    entriesFind (l.filter (fun p => p.1 != id)) id2 = entriesFind l id2 := by
  induction l with
  | nil => rfl
  | cons p t ih =>
    rw [List.filter_cons]
    by_cases hp : p.1 = id
    · have hcond : (p.1 != id) = false := by simp [hp]
      rw [hcond]
      simp only [Bool.false_eq_true, if_false]
      rw [entriesFind_cons_ne (by rw [hp]; exact fun hh => h hh.symm)]
      exact ih
    · have hcond : (p.1 != id) = true := by simp [hp]
      rw [hcond]
      simp only [if_true]
      by_cases hq : p.1 = id2
      · rw [entriesFind_cons_self hq, entriesFind_cons_self hq]
      · rw [entriesFind_cons_ne hq, entriesFind_cons_ne hq]
        exact ih

theorem ids_filter_ne (l : List (Nat × LRUEntry)) (id : Nat) :
    (l.filter (fun p => p.1 != id)).map Prod.fst =
      (l.map Prod.fst).filter (fun x => x != id) := by
  induction l with
  | nil => rfl
  | cons p t ih =>
    rw [List.filter_cons, List.map_cons, List.filter_cons]
    by_cases hp : p.1 = id
    · have hcond : (p.1 != id) = false := by simp [hp]
      rw [hcond]
      simp only [Bool.false_eq_true, if_false]
      exact ih
    · have hcond : (p.1 != id) = true := by simp [hp]
      rw [hcond]
      simp only [if_true, List.map_cons]
      rw [ih]

theorem entriesFind_append_of_none {l m : List (Nat × LRUEntry)} {id : Nat}
    (h : entriesFind l id = none) :
    entriesFind (l ++ m) id = entriesFind m id := by
  induction l with
  | nil => rfl
  | cons p t ih =>
    by_cases hp : p.1 = id
    · rw [entriesFind_cons_self hp] at h
      exact absurd h (by simp)
    · rw [entriesFind_cons_ne hp] at h
      rw [List.cons_append, entriesFind_cons_ne hp]
      exact ih h

theorem entriesFind_append_of_some {l m : List (Nat × LRUEntry)} {id : Nat}
    {e : LRUEntry} (h : entriesFind l id = some e) :
    entriesFind (l ++ m) id = some e := by
  induction l with
  | nil => simp [entriesFind] at h
  | cons p t ih =>
    by_cases hp : p.1 = id
    · rw [entriesFind_cons_self hp] at h
      rw [List.cons_append, entriesFind_cons_self hp]
      exact h
    · rw [entriesFind_cons_ne hp] at h
      rw [List.cons_append, entriesFind_cons_ne hp]
      exact ih h

theorem find_eq_of_unique {α : Type} {l : List α} {pred : α → Bool} {a : α}
    (ha : a ∈ l) (hpa : pred a = true)
    (huniq : ∀ b ∈ l, pred b = true → b = a) :
    l.find? pred = some a := by
  induction l with
  | nil => simp at ha
  | cons x t ih =>
    by_cases hx : pred x = true
    · rw [List.find?_cons_of_pos _ hx]
      rw [huniq x (List.mem_cons_self x t) hx]
    · rw [List.find?_cons_of_neg _ (by simp [hx])]
      rcases List.mem_cons.mp ha with h1 | h1
      · exact absurd (h1 ▸ hpa) hx
      · exact ih h1 (fun b hb hpb => huniq b (List.mem_cons_of_mem x hb) hpb)

theorem cacheRef_inv (s : CacheState) (hInv : Inv s) (id : Nat) :
    Inv (cacheRef s id) := by
  obtain ⟨hnd, hlnd, hund, hent, hllive, hulive, huniq, hfreed, hfnx⟩ := hInv
  unfold cacheRef
  cases he : entryOf s id with
  | none => exact ⟨hnd, hlnd, hund, hent, hllive, hulive, huniq, hfreed, hfnx⟩
  | some e =>
    have hmem : (id, e) ∈ s.entries := entriesFind_mem he
    have hid : id ∈ s.entries.map Prod.fst := List.mem_map.mpr ⟨(id, e), hmem, rfl⟩
    obtain ⟨hrefs1, hiu, hlu, hnx⟩ := hent (id, e) hmem
    dsimp only at hrefs1 hiu hlu hnx
    have korig : ∀ q ∈ setEntry s.entries id { e with refs := e.refs + 1 },
        ∃ q0 ∈ s.entries, q0.1 = q.1 ∧ q0.2.key = q.2.key ∧
          q0.2.inCache = q.2.inCache := by
      intro q hq
      rcases mem_setEntry hq with ⟨hql, _⟩ | hqe
      · exact ⟨q, hql, rfl, rfl, rfl⟩
      · exact ⟨(id, e), hmem, by rw [hqe], by rw [hqe], by rw [hqe]⟩
    by_cases hcase : e.refs = 1 ∧ e.inCache = true
    · simp only [if_pos hcase]
      have hidlru : id ∈ s.lru := hlu.mpr hcase
      have hidiu : id ∉ s.inUse := fun hx => by
        have h2 := hiu.mp hx
        omega
      refine ⟨?_, ?_, ?_, ?_, ?_, ?_, ?_, ?_⟩
      · rw [ids_setEntry]
        exact hnd
      · exact removeId_nodup hlnd id
      · exact nodup_append_one hund hidiu
      · intro q hq
        rcases mem_setEntry hq with ⟨hql, hqne⟩ | hqe
        · obtain ⟨r1, r2, r3, r4⟩ := hent q hql
          refine ⟨r1, ?_, ?_, r4⟩
          · rw [List.mem_append, List.mem_singleton, or_iff_left hqne]
            exact r2
          · rw [show (q.1 ∈ removeId s.lru id) = (q.1 ∈ s.lru ∧ q.1 ≠ id) from
              propext mem_removeId, and_iff_left hqne]
            exact r3
        · subst hqe
          dsimp only
          refine ⟨by omega, ?_, ?_, hnx⟩
          · exact iff_of_true (by rw [List.mem_append, List.mem_singleton]; right; rfl)
              ⟨by omega, hcase.2⟩
          · refine iff_of_false (fun hx => (mem_removeId.mp hx).2 rfl) ?_
            intro hx
            obtain ⟨hx1, _⟩ := hx
            omega
      · intro x hx
        rw [ids_setEntry]
        exact hllive x (mem_removeId.mp hx).1
      · intro x hx
        rw [ids_setEntry]
        rcases List.mem_append.mp hx with h1 | h1
        · exact hulive x h1
        · rw [List.mem_singleton] at h1
          exact h1 ▸ hid
      · intro q hq r hr hqc hrc hk
        obtain ⟨q0, hq0, hq01, hq0k, hq0c⟩ := korig q hq
        obtain ⟨r0, hr0, hr01, hr0k, hr0c⟩ := korig r hr
        rw [← hq01, ← hr01]
        exact huniq q0 hq0 r0 hr0 (hq0c.trans hqc) (hr0c.trans hrc)
          ((hq0k.trans hk).trans hr0k.symm)
      · refine ⟨?_, hfnx⟩
        intro f hf q hq
        rcases mem_setEntry hq with ⟨hql, _⟩ | hqe
        · exact hfreed f hf q hql
        · rw [hqe]
          exact hfreed f hf (id, e) hmem
    · simp only [if_neg hcase]
      have hne1 : ¬(e.refs = 1 ∧ e.inCache = true) := hcase
      refine ⟨?_, hlnd, hund, ?_, ?_, ?_, ?_, ?_⟩
      · rw [ids_setEntry]
        exact hnd
      · intro q hq
        rcases mem_setEntry hq with ⟨hql, hqne⟩ | hqe
        · exact hent q hql
        · subst hqe
          dsimp only
          refine ⟨by omega, ?_, ?_, hnx⟩
          · rw [hiu]
            by_cases hc : e.inCache = true
            · simp only [hc, and_true]
              constructor
              · intro h2
                omega
              · intro h2
                rcases Nat.lt_or_ge e.refs 2 with hlt | hge
                · exact absurd ⟨by omega, hc⟩ hne1
                · omega
            · simp [hc]
          · rw [hlu]
            by_cases hc : e.inCache = true
            · simp only [hc, and_true]
              constructor
              · intro h2
                exact absurd ⟨h2, hc⟩ hne1
              · intro h2
                omega
            · simp [hc]
      · intro x hx
        rw [ids_setEntry]
        exact hllive x hx
      · intro x hx
        rw [ids_setEntry]
        exact hulive x hx
      · intro q hq r hr hqc hrc hk
        obtain ⟨q0, hq0, hq01, hq0k, hq0c⟩ := korig q hq
        obtain ⟨r0, hr0, hr01, hr0k, hr0c⟩ := korig r hr
        rw [← hq01, ← hr01]
        exact huniq q0 hq0 r0 hr0 (hq0c.trans hqc) (hr0c.trans hrc)
          ((hq0k.trans hk).trans hr0k.symm)
      · refine ⟨?_, hfnx⟩
        intro f hf q hq
        rcases mem_setEntry hq with ⟨hql, _⟩ | hqe
        · exact hfreed f hf q hql
        · rw [hqe]
          exact hfreed f hf (id, e) hmem

theorem cacheUnref_inv (s : CacheState) (hInv : Inv s) (id : Nat)
    (hpre : ∀ e, entryOf s id = some e → 2 ≤ e.refs ∨ e.inCache = false) :
    Inv (cacheUnref s id) := by
  obtain ⟨hnd, hlnd, hund, hent, hllive, hulive, huniq, hfreed, hfnx⟩ := hInv
  unfold cacheUnref
  cases he : entryOf s id with
  | none => exact ⟨hnd, hlnd, hund, hent, hllive, hulive, huniq, hfreed, hfnx⟩
  | some e =>
    have hmem : (id, e) ∈ s.entries := entriesFind_mem he
    have hid : id ∈ s.entries.map Prod.fst := List.mem_map.mpr ⟨(id, e), hmem, rfl⟩
    obtain ⟨hrefs1, hiu, hlu, hnx⟩ := hent (id, e) hmem
    dsimp only at hrefs1 hiu hlu hnx
    by_cases hz : e.refs - 1 = 0
    · simp only [if_pos hz]
      have hr1 : e.refs = 1 := by omega
      have hci : e.inCache = false := by
        rcases hpre e he with h2 | h2
        · omega
        · exact h2
      have hcit : ¬e.inCache = true := by rw [hci]; exact fun h => nomatch h
      have hnl : id ∉ s.lru := fun hx => hcit (hlu.mp hx).2
      have hni : id ∉ s.inUse := fun hx => hcit (hiu.mp hx).2
      refine ⟨?_, hlnd, hund, ?_, ?_, ?_, ?_, ?_⟩
      · rw [ids_filter_ne]
        exact hnd.filter _
      · intro q hq
        exact hent q (List.mem_filter.mp hq).1
      · intro x hx
        rw [ids_filter_ne]
        refine List.mem_filter.mpr ⟨hllive x hx, ?_⟩
        exact bne_iff_ne.mpr (fun hxx => hnl (hxx ▸ hx))
      · intro x hx
        rw [ids_filter_ne]
        refine List.mem_filter.mpr ⟨hulive x hx, ?_⟩
        exact bne_iff_ne.mpr (fun hxx => hni (hxx ▸ hx))
      · intro q hq r hr
        exact huniq q (List.mem_filter.mp hq).1 r (List.mem_filter.mp hr).1
      · refine ⟨?_, ?_⟩
        · intro f hf q hq
          rcases List.mem_append.mp hf with h1 | h1
          · exact hfreed f h1 q (List.mem_filter.mp hq).1
          · rw [List.mem_singleton] at h1
            subst h1
            have := (List.mem_filter.mp hq).2
            exact bne_iff_ne.mp this
        · intro f hf
          rcases List.mem_append.mp hf with h1 | h1
          · exact hfnx f h1
          · rw [List.mem_singleton] at h1
            subst h1
            exact hnx
    · simp only [if_neg hz]
      have hr2 : 2 ≤ e.refs := by omega
      have korig : ∀ q ∈ setEntry s.entries id { e with refs := e.refs - 1 },
          ∃ q0 ∈ s.entries, q0.1 = q.1 ∧ q0.2.key = q.2.key ∧
            q0.2.inCache = q.2.inCache := by
        intro q hq
        rcases mem_setEntry hq with ⟨hql, _⟩ | hqe
        · exact ⟨q, hql, rfl, rfl, rfl⟩
        · exact ⟨(id, e), hmem, by rw [hqe], by rw [hqe], by rw [hqe]⟩
      by_cases hmv : e.inCache = true ∧ e.refs - 1 = 1
      · simp only [if_pos hmv]
        have hidiu : id ∈ s.inUse := hiu.mpr ⟨hr2, hmv.1⟩
        have hidlru : id ∉ s.lru := fun hx => by
          have h2 := (hlu.mp hx).1
          omega
        refine ⟨?_, ?_, ?_, ?_, ?_, ?_, ?_, ?_⟩
        · rw [ids_setEntry]
          exact hnd
        · exact nodup_append_one hlnd hidlru
        · exact removeId_nodup hund id
        · intro q hq
          rcases mem_setEntry hq with ⟨hql, hqne⟩ | hqe
          · obtain ⟨r1, r2, r3, r4⟩ := hent q hql
            refine ⟨r1, ?_, ?_, r4⟩
            · rw [show (q.1 ∈ removeId s.inUse id) = (q.1 ∈ s.inUse ∧ q.1 ≠ id) from
                propext mem_removeId, and_iff_left hqne]
              exact r2
            · rw [List.mem_append, List.mem_singleton, or_iff_left hqne]
              exact r3
          · subst hqe
            dsimp only
            refine ⟨by omega, ?_, ?_, hnx⟩
            · refine iff_of_false (fun hx => (mem_removeId.mp hx).2 rfl) ?_
              intro hx
              obtain ⟨hx1, _⟩ := hx
              omega
            · exact iff_of_true (by rw [List.mem_append, List.mem_singleton]; right; rfl)
                ⟨hmv.2, hmv.1⟩
        · intro x hx
          rw [ids_setEntry]
          rcases List.mem_append.mp hx with h1 | h1
          · exact hllive x h1
          · rw [List.mem_singleton] at h1
            exact h1 ▸ hid
        · intro x hx
          rw [ids_setEntry]
          exact hulive x (mem_removeId.mp hx).1
        · intro q hq r hr hqc hrc hk
          obtain ⟨q0, hq0, hq01, hq0k, hq0c⟩ := korig q hq
          obtain ⟨r0, hr0, hr01, hr0k, hr0c⟩ := korig r hr
          rw [← hq01, ← hr01]
          exact huniq q0 hq0 r0 hr0 (hq0c.trans hqc) (hr0c.trans hrc)
            ((hq0k.trans hk).trans hr0k.symm)
        · refine ⟨?_, hfnx⟩
          intro f hf q hq
          rcases mem_setEntry hq with ⟨hql, _⟩ | hqe
          · exact hfreed f hf q hql
          · rw [hqe]
            exact hfreed f hf (id, e) hmem
      · simp only [if_neg hmv]
        refine ⟨?_, hlnd, hund, ?_, ?_, ?_, ?_, ?_⟩
        · rw [ids_setEntry]
          exact hnd
        · intro q hq
          rcases mem_setEntry hq with ⟨hql, hqne⟩ | hqe
          · exact hent q hql
          · subst hqe
            dsimp only
            refine ⟨by omega, ?_, ?_, hnx⟩
            · rw [hiu]
              by_cases hc : e.inCache = true
              · simp only [hc, and_true]
                have hne2 : e.refs - 1 ≠ 1 := fun hh => hmv ⟨hc, hh⟩
                constructor
                · intro h2
                  omega
                · intro h2
                  omega
              · simp [hc]
            · rw [hlu]
              by_cases hc : e.inCache = true
              · simp only [hc, and_true]
                have hne2 : e.refs - 1 ≠ 1 := fun hh => hmv ⟨hc, hh⟩
                constructor
                · intro h2
                  omega
                · intro h2
                  omega
              · simp [hc]
        · intro x hx
          rw [ids_setEntry]
          exact hllive x hx
        · intro x hx
          rw [ids_setEntry]
          exact hulive x hx
        · intro q hq r hr hqc hrc hk
          obtain ⟨q0, hq0, hq01, hq0k, hq0c⟩ := korig q hq
          obtain ⟨r0, hr0, hr01, hr0k, hr0c⟩ := korig r hr
          rw [← hq01, ← hr01]
          exact huniq q0 hq0 r0 hr0 (hq0c.trans hqc) (hr0c.trans hrc)
            ((hq0k.trans hk).trans hr0k.symm)
        · refine ⟨?_, hfnx⟩
          intro f hf q hq
          rcases mem_setEntry hq with ⟨hql, _⟩ | hqe
          · exact hfreed f hf q hql
          · rw [hqe]
            exact hfreed f hf (id, e) hmem

theorem finishErase_inv_of (s : CacheState) (id : Nat)
    (hnd : (s.entries.map Prod.fst).Nodup)
    (hlnd : s.lru.Nodup) (hund : s.inUse.Nodup)
    (hent : ∀ p ∈ s.entries,
      1 ≤ p.2.refs ∧
      (p.1 ∈ s.inUse ↔ (2 ≤ p.2.refs ∧ p.2.inCache = true)) ∧
      (p.1 ∈ s.lru ↔ (p.2.refs = 1 ∧ p.2.inCache = true)) ∧
      p.1 < s.nextId)
    (hllive : ∀ x ∈ s.lru, x ∈ s.entries.map Prod.fst)
    (hulive : ∀ x ∈ s.inUse, x ∈ s.entries.map Prod.fst)
    (huniqW : ∀ p ∈ s.entries, ∀ q ∈ s.entries, p.2.inCache = true →
      q.2.inCache = true → p.2.key = q.2.key → p.1 = q.1 ∨ p.1 = id ∨ q.1 = id)
    (hfreed : ∀ f ∈ s.freed, ∀ p ∈ s.entries, p.1 ≠ f)
    (hfnx : ∀ f ∈ s.freed, f < s.nextId) :
    Inv (finishErase s id) := by
  unfold finishErase
  cases he : entryOf s id with
  | none =>
    have hnin : id ∉ s.entries.map Prod.fst := entriesFind_eq_none.mp he
    refine ⟨hnd, hlnd, hund, hent, hllive, hulive, ?_, hfreed, hfnx⟩
    intro p hp q hq hpc hqc hk
    rcases huniqW p hp q hq hpc hqc hk with h1 | h1 | h1
    · exact h1
    · exact absurd (h1 ▸ List.mem_map.mpr ⟨p, hp, rfl⟩) hnin
    · exact absurd (h1 ▸ List.mem_map.mpr ⟨q, hq, rfl⟩) hnin
  | some e =>
    have hmem : (id, e) ∈ s.entries := entriesFind_mem he
    have hid : id ∈ s.entries.map Prod.fst := List.mem_map.mpr ⟨(id, e), hmem, rfl⟩
    obtain ⟨hrefs1, hiu, hlu, hnx⟩ := hent (id, e) hmem
    dsimp only at hrefs1 hiu hlu hnx
    apply cacheUnref_inv
    · refine ⟨?_, ?_, ?_, ?_, ?_, ?_, ?_, ?_⟩
      · rw [ids_setEntry]
        exact hnd
      · exact removeId_nodup hlnd id
      · exact removeId_nodup hund id
      · intro q hq
        rcases mem_setEntry hq with ⟨hql, hqne⟩ | hqe
        · obtain ⟨r1, r2, r3, r4⟩ := hent q hql
          refine ⟨r1, ?_, ?_, r4⟩
          · rw [show (q.1 ∈ removeId s.inUse id) = (q.1 ∈ s.inUse ∧ q.1 ≠ id) from
              propext mem_removeId, and_iff_left hqne]
            exact r2
          · rw [show (q.1 ∈ removeId s.lru id) = (q.1 ∈ s.lru ∧ q.1 ≠ id) from
              propext mem_removeId, and_iff_left hqne]
            exact r3
        · subst hqe
          dsimp only
          refine ⟨by omega, ?_, ?_, hnx⟩
          · refine iff_of_false (fun hx => (mem_removeId.mp hx).2 rfl) ?_
            intro hx
            exact nomatch hx.2
          · refine iff_of_false (fun hx => (mem_removeId.mp hx).2 rfl) ?_
            intro hx
            exact nomatch hx.2
      · intro x hx
        rw [ids_setEntry]
        exact hllive x (mem_removeId.mp hx).1
      · intro x hx
        rw [ids_setEntry]
        exact hulive x (mem_removeId.mp hx).1
      · intro q hq r hr hqc hrc hk
        rcases mem_setEntry hq with ⟨hql, hqne⟩ | hqe
        · rcases mem_setEntry hr with ⟨hrl, hrne⟩ | hre
          · rcases huniqW q hql r hrl hqc hrc hk with h1 | h1 | h1
            · exact h1
            · exact absurd h1 hqne
            · exact absurd h1 hrne
          · rw [hre] at hrc
            exact nomatch hrc
        · rw [hqe] at hqc
          exact nomatch hqc
      · refine ⟨?_, hfnx⟩
        intro f hf q hq
        rcases mem_setEntry hq with ⟨hql, _⟩ | hqe
        · exact hfreed f hf q hql
        · rw [hqe]
          exact hfreed f hf (id, e) hmem
    · intro e2 he2
      have : entryOf { s with
          lru := removeId s.lru id,
          inUse := removeId s.inUse id,
          usage := s.usage - e.charge,
          entries := setEntry s.entries id { e with inCache := false } } id =
          some { e with inCache := false } := by
        unfold entryOf
        exact entriesFind_setEntry_self hid _
      rw [this] at he2
      right
      rw [← Option.some.inj he2]

theorem finishErase_inv (s : CacheState) (hInv : Inv s) (id : Nat) :
    Inv (finishErase s id) := by
  obtain ⟨hnd, hlnd, hund, hent, hllive, hulive, huniq, hfreed, hfnx⟩ := hInv
  exact finishErase_inv_of s id hnd hlnd hund hent hllive hulive
    (fun p hp q hq hpc hqc hk => Or.inl (huniq p hp q hq hpc hqc hk)) hfreed hfnx

theorem tableLookup_some {s : CacheState} {key : List Nat} {id : Nat}
    (h : tableLookup s key = some id) :
    ∃ e, (id, e) ∈ s.entries ∧ e.inCache = true ∧ e.key = key := by
  unfold tableLookup at h
  cases hf : s.entries.find? (fun p => p.2.inCache && decide (p.2.key = key)) with
  | none =>
    rw [hf] at h
    exact absurd h (by simp)
  | some p =>
    rw [hf] at h
    have hmem := List.mem_of_find?_eq_some hf
    have hpred := List.find?_some hf
    simp only [Bool.and_eq_true, decide_eq_true_eq] at hpred
    have h1 : p.1 = id := by simpa using h
    exact ⟨p.2, by rw [← h1]; exact hmem, hpred.1, hpred.2⟩

theorem tableLookup_of_entry (s : CacheState) (hnd : (s.entries.map Prod.fst).Nodup)
    (huniq : ∀ p ∈ s.entries, ∀ q ∈ s.entries, p.2.inCache = true →
      q.2.inCache = true → p.2.key = q.2.key → p.1 = q.1)
    {id : Nat} {e : LRUEntry} (hmem : (id, e) ∈ s.entries)
    (hc : e.inCache = true) : tableLookup s e.key = some id := by
  unfold tableLookup
  rw [find_eq_of_unique hmem (by simp [hc])]
  · rfl
  intro b hb hpb
  simp only [Bool.and_eq_true, decide_eq_true_eq] at hpb
  have h1 : b.1 = id := huniq b hb (id, e) hmem hpb.1 hc hpb.2
  have h2 : b = (b.1, b.2) := rfl
  rw [h2, h1]
  congr 1
  exact entries_pair_eq hnd (h1 ▸ (h2 ▸ hb)) hmem

theorem tableLookup_eq_none {s : CacheState} {key : List Nat}
    (h : ∀ p ∈ s.entries, p.2.inCache = true → p.2.key ≠ key) :
    tableLookup s key = none := by
  unfold tableLookup
  rw [List.find?_eq_none.mpr]
  · rfl
  intro p hp
  simp only [Bool.and_eq_true, decide_eq_true_eq, not_and]
  exact h p hp

theorem keyOfId_eq {s : CacheState} {id : Nat} {e : LRUEntry}
    (he : entryOf s id = some e) : keyOfId s id = e.key := by
  unfold keyOfId
  rw [he]

theorem finishErase_effect (s : CacheState) (hnd : (s.entries.map Prod.fst).Nodup)
    (id : Nat) (e : LRUEntry) (he : entryOf s id = some e) :
    (finishErase s id).capacity = s.capacity ∧
    (finishErase s id).nextId = s.nextId ∧
    (finishErase s id).lru = removeId s.lru id ∧
    (finishErase s id).inUse = removeId s.inUse id ∧
    (∀ id2, id2 ≠ id → entryOf (finishErase s id) id2 = entryOf s id2) ∧
    (e.refs = 1 →
      entryOf (finishErase s id) id = none ∧
      (finishErase s id).freed = s.freed ++ [id]) ∧
    (2 ≤ e.refs →
      entryOf (finishErase s id) id = some ⟨e.key, e.charge, false, e.refs - 1⟩ ∧
      (finishErase s id).freed = s.freed) ∧
    (∀ p ∈ (finishErase s id).entries,
      (p ∈ s.entries ∧ p.1 ≠ id) ∨ (p.1 = id ∧ p.2.inCache = false)) := by
  have hid : id ∈ s.entries.map Prod.fst :=
    List.mem_map.mpr ⟨(id, e), entriesFind_mem he, rfl⟩
  have hids1 : id ∈ (setEntry s.entries id { e with inCache := false }).map Prod.fst := by
    rw [ids_setEntry]
    exact hid
  have he1 : entriesFind (setEntry s.entries id { e with inCache := false }) id =
      some { e with inCache := false } := entriesFind_setEntry_self hid _
  unfold finishErase
  rw [he]
  unfold cacheUnref entryOf
  dsimp only
  rw [he1]
  dsimp only
  by_cases hz : e.refs - 1 = 0
  · have hcond : ({ e with inCache := false } : LRUEntry).refs - 1 = 0 := hz
    rw [if_pos hcond]
    refine ⟨rfl, rfl, rfl, rfl, ?_, ?_, ?_, ?_⟩
    · intro id2 h2
      show entriesFind _ id2 = _
      rw [entriesFind_filter_ne h2, entriesFind_setEntry_ne h2]
    · intro _
      exact ⟨entriesFind_filter_self _ id, rfl⟩
    · intro h2
      omega
    · intro p hp
      have hp2 := List.mem_filter.mp hp
      have hpne : p.1 ≠ id := by simpa using hp2.2
      rcases mem_setEntry hp2.1 with ⟨hql, _⟩ | hqe
      · exact Or.inl ⟨hql, hpne⟩
      · exact absurd (by rw [hqe]) hpne
  · have hcond : ¬(({ e with inCache := false } : LRUEntry).refs - 1 = 0) := hz
    rw [if_neg hcond]
    have hcond2 : ¬(({ e with inCache := false } : LRUEntry).inCache = true ∧
        ({ e with inCache := false } : LRUEntry).refs - 1 = 1) := by
      intro hx
      exact nomatch hx.1
    rw [if_neg hcond2]
    refine ⟨rfl, rfl, rfl, rfl, ?_, ?_, ?_, ?_⟩
    · intro id2 h2
      show entriesFind _ id2 = _
      rw [entriesFind_setEntry_ne h2, entriesFind_setEntry_ne h2]
    · intro h2
      omega
    · intro _
      refine ⟨?_, rfl⟩
      show entriesFind _ id = _
      rw [entriesFind_setEntry_self hids1]
    · intro p hp
      rcases mem_setEntry hp with ⟨hq, hpne⟩ | hqe
      · rcases mem_setEntry hq with ⟨hql, _⟩ | hqe2
        · exact Or.inl ⟨hql, hpne⟩
        · exact absurd (by rw [hqe2]) hpne
      · exact Or.inr ⟨by rw [hqe], by rw [hqe]⟩

theorem cacheErase_inv (s : CacheState) (hInv : Inv s) (key : List Nat) :
    Inv (cacheErase s key) := by
  unfold cacheErase
  cases tableLookup s key with
  | none => exact hInv
  | some id => exact finishErase_inv s hInv id

theorem cacheLookup_inv (s : CacheState) (hInv : Inv s) (key : List Nat) :
    Inv (cacheLookup s key) := by
  unfold cacheLookup
  cases tableLookup s key with
  | none => exact hInv
  | some id => exact cacheRef_inv s hInv id

theorem tableLookup_after_finishErase (s : CacheState) (hInv : Inv s)
    {key : List Nat} {id : Nat} {e : LRUEntry}
    (he : entryOf s id = some e) (hkey : e.key = key) (hc : e.inCache = true) :
    tableLookup (finishErase s id) key = none := by
  obtain ⟨hnd, hlnd, hund, hent, hllive, hulive, huniq, hfreed, hfnx⟩ := hInv
  have heff := finishErase_effect s hnd id e he
  apply tableLookup_eq_none
  intro p hp hpc hpk
  rcases heff.2.2.2.2.2.2.2 p hp with ⟨hpl, hpne⟩ | ⟨hpid, hpcf⟩
  · exact hpne (huniq p hpl (id, e) (entriesFind_mem he) hpc hc
      (by rw [hpk, hkey]))
  · rw [hpcf] at hpc
    exact nomatch hpc

theorem cacheErase_lru_head (s : CacheState) (hInv : Inv s) (id : Nat)
    (rest : List Nat) (hlru : s.lru = id :: rest) :
    cacheErase s (keyOfId s id) = finishErase s id ∧
    (finishErase s id).lru = rest ∧
    (finishErase s id).freed = s.freed ++ [id] ∧
    (finishErase s id).capacity = s.capacity := by
  obtain ⟨hnd, hlnd, hund, hent, hllive, hulive, huniq, hfreed, hfnx⟩ := hInv
  have hidlru : id ∈ s.lru := by rw [hlru]; exact List.mem_cons_self id rest
  obtain ⟨e, he⟩ := mem_ids_entriesFind (hllive id hidlru)
  have hmem : (id, e) ∈ s.entries := entriesFind_mem he
  obtain ⟨hrefs1, hiu, hlu, hnx⟩ := hent (id, e) hmem
  dsimp only at hrefs1 hiu hlu hnx
  obtain ⟨hr1, hc⟩ := hlu.mp hidlru
  have hkey : keyOfId s id = e.key := keyOfId_eq he
  have ht : tableLookup s (keyOfId s id) = some id := by
    rw [hkey]
    exact tableLookup_of_entry s hnd huniq hmem hc
  have heq : cacheErase s (keyOfId s id) = finishErase s id := by
    unfold cacheErase
    rw [ht]
  have heff := finishErase_effect s hnd id e he
  refine ⟨heq, ?_, (heff.2.2.2.2.2.1 hr1).2, heff.1⟩
  rw [heff.2.2.1, hlru]
  rw [hlru, List.nodup_cons] at hlnd
  exact removeId_cons_self hlnd.1

theorem evictLoop_spec (fuel : Nat) : ∀ s : CacheState, Inv s →
    Inv (evictLoop fuel s) ∧
    (∃ k, (evictLoop fuel s).freed = s.freed ++ s.lru.take k) ∧
    (evictLoop fuel s).capacity = s.capacity ∧
    (s.lru.length ≤ fuel →
      (evictLoop fuel s).usage ≤ s.capacity ∨ (evictLoop fuel s).lru = []) := by
  induction fuel with
  | zero =>
    intro s hInv
    refine ⟨hInv, ⟨0, by simp [evictLoop]⟩, rfl, ?_⟩
    intro hlen
    right
    exact List.eq_nil_of_length_eq_zero (Nat.le_zero.mp hlen)
  | succ fuel ih =>
    intro s hInv
    rw [evictLoop]
    by_cases hu : s.capacity < s.usage
    · rw [if_pos hu]
      cases hlru : s.lru with
      | nil =>
        dsimp only
        refine ⟨hInv, ⟨0, by simp⟩, rfl, ?_⟩
        intro _
        right
        exact hlru
      | cons id rest =>
        dsimp only
        obtain ⟨hce, hlru2, hfr2, hcap2⟩ := cacheErase_lru_head s hInv id rest hlru
        rw [hce]
        have hInv2 : Inv (finishErase s id) := finishErase_inv s hInv id
        obtain ⟨ih1, ⟨k, ihk⟩, ihcap, ih3⟩ := ih (finishErase s id) hInv2
        refine ⟨ih1, ⟨k + 1, ?_⟩, ihcap.trans hcap2, ?_⟩
        · rw [ihk, hfr2, hlru2, List.take_succ_cons, List.append_assoc,
            List.singleton_append]
        · intro hlen
          have hlen2 : (finishErase s id).lru.length ≤ fuel := by
            rw [hlru2]
            simpa using hlen
          rcases ih3 hlen2 with h1 | h1
          · left
            rw [← hcap2]
            exact h1
          · right
            exact h1
    · rw [if_neg hu]
      refine ⟨hInv, ⟨0, by simp⟩, rfl, ?_⟩
      intro _
      left
      omega

theorem pruneLoop_inv (fuel : Nat) : ∀ s : CacheState, Inv s →
    Inv (pruneLoop fuel s) := by
  induction fuel with
  | zero => exact fun s hInv => hInv
  | succ fuel ih =>
    intro s hInv
    rw [pruneLoop]
    cases hlru : s.lru with
    | nil => exact hInv
    | cons id rest =>
      dsimp only
      obtain ⟨hce, _, _, _⟩ := cacheErase_lru_head s hInv id rest hlru
      rw [hce]
      exact ih (finishErase s id) (finishErase_inv s hInv id)

theorem tableLookup_none_unmatched {s : CacheState} {key : List Nat}
    (h : tableLookup s key = none) :
    ∀ p ∈ s.entries, p.2.inCache = true → p.2.key ≠ key := by
  unfold tableLookup at h
  have h2 : s.entries.find? (fun p => p.2.inCache && decide (p.2.key = key)) = none := by
    cases hf : s.entries.find? (fun p => p.2.inCache && decide (p.2.key = key)) with
    | none => rfl
    | some p =>
      rw [hf] at h
      exact absurd h (by simp)
  intro p hp hpc hpk
  have h3 := List.find?_eq_none.mp h2 p hp
  simp [hpc, hpk] at h3

theorem cacheInsert_mid_parts (s : CacheState) (hInv : Inv s) (key : List Nat)
    (charge : Nat) (b : Bool) (r : Nat) :
    ((s.entries ++ [(s.nextId, (⟨key, charge, b, r⟩ : LRUEntry))]).map
      Prod.fst).Nodup ∧
    (∀ p ∈ s.entries ++ [(s.nextId, (⟨key, charge, b, r⟩ : LRUEntry))],
      p ∈ s.entries ∧ p.1 ≠ s.nextId ∨ p = (s.nextId, ⟨key, charge, b, r⟩)) := by
  obtain ⟨hnd, hlnd, hund, hent, hllive, hulive, huniq, hfreed, hfnx⟩ := hInv
  have hfresh : s.nextId ∉ s.entries.map Prod.fst := by
    intro hmem
    rcases List.mem_map.mp hmem with ⟨p, hp, hp1⟩
    have := (hent p hp).2.2.2
    omega
  constructor
  · rw [List.map_append]
    exact nodup_append_one hnd (by simpa using hfresh)
  · intro p hp
    rcases List.mem_append.mp hp with h1 | h1
    · refine Or.inl ⟨h1, ?_⟩
      intro hpe
      exact hfresh (hpe ▸ List.mem_map.mpr ⟨p, h1, rfl⟩)
    · rw [List.mem_singleton] at h1
      exact Or.inr h1

theorem cacheInsert_mid_maps (s : CacheState) (hInv : Inv s) (key : List Nat)
    (charge : Nat) :
    (∀ p ∈ s.entries ++ [(s.nextId, (⟨key, charge, true, 2⟩ : LRUEntry))],
      1 ≤ p.2.refs ∧
      (p.1 ∈ s.inUse ++ [s.nextId] ↔ (2 ≤ p.2.refs ∧ p.2.inCache = true)) ∧
      (p.1 ∈ s.lru ↔ (p.2.refs = 1 ∧ p.2.inCache = true)) ∧
      p.1 < s.nextId + 1) ∧
    (∀ x ∈ s.lru, x ∈ (s.entries ++
      [(s.nextId, (⟨key, charge, true, 2⟩ : LRUEntry))]).map Prod.fst) ∧
    (∀ x ∈ s.inUse ++ [s.nextId], x ∈ (s.entries ++
      [(s.nextId, (⟨key, charge, true, 2⟩ : LRUEntry))]).map Prod.fst) ∧
    (∀ f ∈ s.freed, ∀ p ∈ s.entries ++
      [(s.nextId, (⟨key, charge, true, 2⟩ : LRUEntry))], p.1 ≠ f) ∧
    (s.inUse ++ [s.nextId]).Nodup := by
  have hmidParts := cacheInsert_mid_parts s hInv key charge true 2
  obtain ⟨hnd, hlnd, hund, hent, hllive, hulive, huniq, hfreed, hfnx⟩ := hInv
  have hfresh : s.nextId ∉ s.entries.map Prod.fst := by
    intro hmem
    rcases List.mem_map.mp hmem with ⟨p, hp, hp1⟩
    have := (hent p hp).2.2.2
    omega
  have hnlru : s.nextId ∉ s.lru := fun hx => hfresh (hllive _ hx)
  have hniu : s.nextId ∉ s.inUse := fun hx => hfresh (hulive _ hx)
  refine ⟨?_, ?_, ?_, ?_, nodup_append_one hund hniu⟩
  · intro p hp
    rcases hmidParts.2 p hp with ⟨h1, hne⟩ | h1
    · obtain ⟨r1, r2, r3, r4⟩ := hent p h1
      refine ⟨r1, ?_, r3, by omega⟩
      rw [List.mem_append, List.mem_singleton, or_iff_left hne]
      exact r2
    · subst h1
      dsimp only
      refine ⟨by omega, ?_, ?_, by omega⟩
      · exact iff_of_true (by rw [List.mem_append, List.mem_singleton]; right; rfl)
          ⟨by omega, rfl⟩
      · exact iff_of_false hnlru (fun hx => by omega)
  · intro x hx
    rw [List.map_append]
    exact List.mem_append_left _ (hllive x hx)
  · intro x hx
    rw [List.map_append]
    rcases List.mem_append.mp hx with h1 | h1
    · exact List.mem_append_left _ (hulive x h1)
    · rw [List.mem_singleton] at h1
      subst h1
      refine List.mem_append_right _ ?_
      simp
  · intro f hf p hp
    rcases hmidParts.2 p hp with ⟨h1, _⟩ | h1
    · exact hfreed f hf p h1
    · rw [h1]
      intro hpe
      have := hfnx f hf
      dsimp only at hpe
      omega

theorem cacheInsert_mid_inv (s : CacheState) (hInv : Inv s) (key : List Nat)
    (charge : Nat) (htl : tableLookup s key = none) :
    Inv { s with
            nextId := s.nextId + 1,
            entries := s.entries ++ [(s.nextId, ⟨key, charge, true, 2⟩)],
            inUse := s.inUse ++ [s.nextId],
            usage := s.usage + charge } := by
  have hmidParts := cacheInsert_mid_parts s hInv key charge true 2
  obtain ⟨hmidEnt, hmidLru, hmidIu, hmidFreed, hmidIuNd⟩ :=
    cacheInsert_mid_maps s hInv key charge
  obtain ⟨hnd, hlnd, hund, hent, hllive, hulive, huniq, hfreed, hfnx⟩ := hInv
  refine ⟨hmidParts.1, hlnd, hmidIuNd, hmidEnt, hmidLru, hmidIu, ?_, hmidFreed,
    fun f hf => by have := hfnx f hf; dsimp only; omega⟩
  intro p hp q hq hpc hqc hk
  rcases hmidParts.2 p hp with ⟨hp1, hpne⟩ | hp1 <;>
    rcases hmidParts.2 q hq with ⟨hq1, hqne⟩ | hq1
  · exact huniq p hp1 q hq1 hpc hqc hk
  · exfalso
    refine tableLookup_none_unmatched htl p hp1 hpc ?_
    rw [hk, hq1]
  · exfalso
    refine tableLookup_none_unmatched htl q hq1 hqc ?_
    rw [← hk, hp1]
  · rw [hp1, hq1]

theorem cacheInsert_dup_inv (s : CacheState) (hInv : Inv s) (key : List Nat)
    (charge : Nat) (old : Nat) (htl : tableLookup s key = some old) :
    Inv (finishErase
      { s with
          nextId := s.nextId + 1,
          entries := s.entries ++ [(s.nextId, ⟨key, charge, true, 2⟩)],
          inUse := s.inUse ++ [s.nextId],
          usage := s.usage + charge } old) := by
  have hmidParts := cacheInsert_mid_parts s hInv key charge true 2
  obtain ⟨hmidEnt, hmidLru, hmidIu, hmidFreed, hmidIuNd⟩ :=
    cacheInsert_mid_maps s hInv key charge
  obtain ⟨eOld, hOldMem, hOldC, hOldKey⟩ := tableLookup_some htl
  obtain ⟨hnd, hlnd, hund, hent, hllive, hulive, huniq, hfreed, hfnx⟩ := hInv
  refine finishErase_inv_of _ old hmidParts.1 hlnd hmidIuNd hmidEnt hmidLru
    hmidIu ?_ hmidFreed (fun f hf => by have := hfnx f hf; dsimp only; omega)
  intro p hp q hq hpc hqc hk
  rcases hmidParts.2 p hp with ⟨hp1, hpne⟩ | hp1 <;>
    rcases hmidParts.2 q hq with ⟨hq1, hqne⟩ | hq1
  · exact Or.inl (huniq p hp1 q hq1 hpc hqc hk)
  · refine Or.inr (Or.inl ?_)
    refine huniq p hp1 (old, eOld) hOldMem hpc hOldC ?_
    rw [hk, hq1, hOldKey]
  · refine Or.inr (Or.inr ?_)
    refine huniq q hq1 (old, eOld) hOldMem hqc hOldC ?_
    rw [← hk, hp1, hOldKey]
  · rw [hp1, hq1]
    exact Or.inl rfl

theorem cacheInsert_inv (s : CacheState) (hInv : Inv s) (key : List Nat)
    (charge : Nat) : Inv (cacheInsert s key charge) := by
  unfold cacheInsert
  dsimp only
  by_cases hc : 0 < s.capacity
  · rw [if_pos hc]
    cases htl : tableLookup s key with
    | none =>
      dsimp only
      exact (evictLoop_spec _ _ (cacheInsert_mid_inv s hInv key charge htl)).1
    | some old =>
      dsimp only
      exact (evictLoop_spec _ _ (cacheInsert_dup_inv s hInv key charge old htl)).1
  · rw [if_neg hc]
    have hmidParts := cacheInsert_mid_parts s hInv key charge false 1
    obtain ⟨hnd, hlnd, hund, hent, hllive, hulive, huniq, hfreed, hfnx⟩ := hInv
    have hfresh : s.nextId ∉ s.entries.map Prod.fst := by
      intro hmem
      rcases List.mem_map.mp hmem with ⟨p, hp, hp1⟩
      have := (hent p hp).2.2.2
      omega
    have hnlru : s.nextId ∉ s.lru := fun hx => hfresh (hllive _ hx)
    have hniu : s.nextId ∉ s.inUse := fun hx => hfresh (hulive _ hx)
    refine ⟨hmidParts.1, hlnd, hund, ?_, ?_, ?_, ?_, ?_,
      fun f hf => by have := hfnx f hf; dsimp only; omega⟩
    · intro p hp
      rcases hmidParts.2 p hp with ⟨h1, hne⟩ | h1
      · obtain ⟨r1, r2, r3, r4⟩ := hent p h1
        exact ⟨r1, r2, r3, by dsimp only; omega⟩
      · subst h1
        dsimp only
        refine ⟨by omega, ?_, ?_, by omega⟩
        · exact iff_of_false hniu (fun hx => nomatch hx.2)
        · exact iff_of_false hnlru (fun hx => nomatch hx.2)
    · intro x hx
      rw [List.map_append]
      exact List.mem_append_left _ (hllive x hx)
    · intro x hx
      rw [List.map_append]
      exact List.mem_append_left _ (hulive x hx)
    · intro p hp q hq hpc hqc hk
      rcases hmidParts.2 p hp with ⟨hp1, hpne⟩ | hp1
      · rcases hmidParts.2 q hq with ⟨hq1, hqne⟩ | hq1
        · exact huniq p hp1 q hq1 hpc hqc hk
        · exfalso
          rw [hq1] at hqc
          exact nomatch hqc
      · exfalso
        rw [hp1] at hpc
        exact nomatch hpc
    · intro f hf p hp
      rcases hmidParts.2 p hp with ⟨h1, _⟩ | h1
      · exact hfreed f hf p h1
      · rw [h1]
        intro hpe
        have := hfnx f hf
        dsimp only at hpe
        omega

theorem cachePrune_inv (s : CacheState) (hInv : Inv s) : Inv (cachePrune s) :=
  pruneLoop_inv s.lru.length s hInv

theorem cacheErase_spec (s : CacheState) (hInv : Inv s) (key : List Nat)
    (id : Nat) (ht : tableLookup s key = some id) :
    tableLookup (cacheErase s key) key = none ∧
    ∀ e, entryOf s id = some e →
      (2 ≤ e.refs →
        entryOf (cacheErase s key) id = some ⟨e.key, e.charge, false, e.refs - 1⟩ ∧
        id ∉ (cacheErase s key).freed) ∧
      (e.refs = 1 →
        id ∈ (cacheErase s key).freed ∧ entryOf (cacheErase s key) id = none) := by
  obtain ⟨hnd, hlnd, hund, hent, hllive, hulive, huniq, hfreed, hfnx⟩ := hInv
  obtain ⟨eT, hTmem, hTc, hTkey⟩ := tableLookup_some ht
  have heT : entryOf s id = some eT := (entriesFind_eq_some hnd id eT).mpr hTmem
  have heq : cacheErase s key = finishErase s id := by
    unfold cacheErase
    rw [ht]
  have heff := finishErase_effect s hnd id eT heT
  rw [heq]
  constructor
  · exact tableLookup_after_finishErase s
      ⟨hnd, hlnd, hund, hent, hllive, hulive, huniq, hfreed, hfnx⟩ heT hTkey hTc
  · intro e he
    have hee : e = eT := by
      rw [heT] at he
      exact (Option.some.inj he).symm
    subst hee
    constructor
    · intro h2
      obtain ⟨h1, h2f⟩ := heff.2.2.2.2.2.2.1 h2
      refine ⟨h1, ?_⟩
      rw [h2f]
      intro hmemf
      exact hfreed id hmemf (id, e) (entriesFind_mem heT) rfl
    · intro h1
      obtain ⟨h2, h3⟩ := heff.2.2.2.2.2.1 h1
      refine ⟨?_, h2⟩
      rw [h3, List.mem_append, List.mem_singleton]
      right
      rfl

theorem cacheRelease_frees (s : CacheState) (id : Nat) (e : LRUEntry)
    (he : entryOf s id = some e) (h1 : e.refs = 1) :
    id ∈ (cacheRelease s id).freed := by
  unfold cacheRelease cacheUnref
  rw [he]
  dsimp only
  rw [if_pos (by omega)]
  dsimp only
  rw [List.mem_append, List.mem_singleton]
  right
  rfl

theorem evict_freed_sub (t : CacheState) (hInvT : Inv t) (fuel x : Nat)
    (hx : x ∈ (evictLoop fuel t).freed) : x ∈ t.freed ∨ x ∈ t.lru := by
  obtain ⟨_, ⟨k, hk⟩, _, _⟩ := evictLoop_spec fuel t hInvT
  rw [hk] at hx
  rcases List.mem_append.mp hx with h1 | h1
  · exact Or.inl h1
  · exact Or.inr (List.take_subset _ _ h1)

theorem finishErase_freed_sub (t : CacheState)
    (hndT : (t.entries.map Prod.fst).Nodup)
    (hrefsT : ∀ p ∈ t.entries, 1 ≤ p.2.refs) (old : Nat) {x : Nat}
    (hx : x ∈ (finishErase t old).freed) :
    x ∈ t.freed ∨ (x = old ∧ ∃ e2, entryOf t old = some e2 ∧ e2.refs = 1) := by
  cases he2 : entryOf t old with
  | none =>
    have hfe : finishErase t old = t := by
      unfold finishErase
      rw [he2]
    rw [hfe] at hx
    exact Or.inl hx
  | some e2 =>
    have heff := finishErase_effect t hndT old e2 he2
    have hr1 : 1 ≤ e2.refs := hrefsT (old, e2) (entriesFind_mem he2)
    rcases Nat.lt_or_ge e2.refs 2 with hlt | hge
    · have hre : e2.refs = 1 := by omega
      rw [(heff.2.2.2.2.2.1 hre).2] at hx
      rcases List.mem_append.mp hx with h1 | h1
      · exact Or.inl h1
      · rw [List.mem_singleton] at h1
        exact Or.inr ⟨h1, e2, rfl, hre⟩
    · rw [(heff.2.2.2.2.2.2.1 hge).2] at hx
      exact Or.inl hx

theorem finishErase_lru_sub (t : CacheState)
    (hndT : (t.entries.map Prod.fst).Nodup) (old : Nat) {x : Nat}
    (hx : x ∈ (finishErase t old).lru) : x ∈ t.lru := by
  cases he2 : entryOf t old with
  | none =>
    have hfe : finishErase t old = t := by
      unfold finishErase
      rw [he2]
    rw [hfe] at hx
    exact hx
  | some e2 =>
    have heff := finishErase_effect t hndT old e2 he2
    rw [heff.2.2.1] at hx
    exact (mem_removeId.mp hx).1

theorem cacheInsert_no_evict_pinned (s : CacheState) (hInv : Inv s) (id : Nat)
    (e : LRUEntry) (he : entryOf s id = some e) (h2 : 2 ≤ e.refs)
    (key : List Nat) (charge : Nat) :
    id ∉ (cacheInsert s key charge).freed := by
  obtain ⟨hnd, hlnd, hund, hent, hllive, hulive, huniq, hfreed, hfnx⟩ := hInv
  have hInv2 : Inv s := ⟨hnd, hlnd, hund, hent, hllive, hulive, huniq, hfreed, hfnx⟩
  have hmem : (id, e) ∈ s.entries := entriesFind_mem he
  have hnotfree : id ∉ s.freed := fun hx => hfreed id hx (id, e) hmem rfl
  have hnotlru : id ∉ s.lru := by
    intro hx
    have := ((hent (id, e) hmem).2.2.1).mp hx
    dsimp only at this
    omega
  unfold cacheInsert
  dsimp only
  by_cases hc : 0 < s.capacity
  · rw [if_pos hc]
    cases htl : tableLookup s key with
    | none =>
      dsimp only
      intro hmemf
      rcases evict_freed_sub _ (cacheInsert_mid_inv s hInv2 key charge htl) _ id
          hmemf with h1 | h1
      · exact hnotfree h1
      · exact hnotlru h1
    | some old =>
      dsimp only
      intro hmemf
      obtain ⟨eOld, hOldMem, hOldC, hOldKey⟩ := tableLookup_some htl
      have heOld : entryOf s old = some eOld :=
        (entriesFind_eq_some hnd old eOld).mpr hOldMem
      have hndMid := (cacheInsert_mid_parts s hInv2 key charge true 2).1
      have hrefsMid := fun p hp =>
        ((cacheInsert_mid_maps s hInv2 key charge).1 p hp).1
      rcases evict_freed_sub _ (cacheInsert_dup_inv s hInv2 key charge old htl)
          _ id hmemf with h1 | h1
      · rcases finishErase_freed_sub _ hndMid hrefsMid old h1 with h3 | h3
        · exact hnotfree h3
        · obtain ⟨hio, e2, he2, hr2⟩ := h3
          subst hio
          have hmide : entriesFind
              (s.entries ++ [(s.nextId, (⟨key, charge, true, 2⟩ : LRUEntry))]) id =
              some eOld := entriesFind_append_of_some heOld
          have hee : e2 = eOld := by
            have h4 : some e2 = some eOld := by
              rw [← he2, ← hmide]
              rfl
            exact Option.some.inj h4
          have heeq : e = eOld := by
            rw [heOld] at he
            exact (Option.some.inj he).symm
          rw [hee] at hr2
          rw [heeq] at h2
          omega
      · refine hnotlru (finishErase_lru_sub
          { s with
              nextId := s.nextId + 1,
              entries := s.entries ++ [(s.nextId, ⟨key, charge, true, 2⟩)],
              inUse := s.inUse ++ [s.nextId],
              usage := s.usage + charge } hndMid old h1)
  · rw [if_neg hc]
    exact hnotfree

/-- C6: LRUCache shard operations (Insert, Lookup, Release with a
client-held handle, Erase, Prune) preserve the entry-state invariant: an
entry is on the in-use list iff `refs >= 2` and in cache, on the lru list
iff `refs = 1` and in cache, and live entries always have a reference (an
entry reaching `refs = 0` is deallocated onto `freed`).  The eviction loop
of Insert frees an oldest-first prefix of the lru list and, given enough
fuel, stops only once usage fits the capacity or the lru list is empty;
entries with `refs >= 2` are never evicted by Insert.  Erase removes the
key from the table at once, but a client-pinned entry survives with its
cache reference dropped and `in_cache` cleared, and is deallocated only
when the last reference is released. -/
theorem c6_lru_cache_invariants (s : CacheState) (hInv : Inv s) :
    (∀ key charge, Inv (cacheInsert s key charge)) ∧
    (∀ key, Inv (cacheLookup s key)) ∧
    (∀ id e, entryOf s id = some e → 2 ≤ e.refs ∨ e.inCache = false →
      Inv (cacheRelease s id)) ∧
    (∀ key, Inv (cacheErase s key)) ∧
    Inv (cachePrune s) ∧
    (∀ p ∈ s.entries,
      1 ≤ p.2.refs ∧
      (p.1 ∈ s.inUse ↔ (2 ≤ p.2.refs ∧ p.2.inCache = true)) ∧
      (p.1 ∈ s.lru ↔ (p.2.refs = 1 ∧ p.2.inCache = true))) ∧
    (∀ fuel, ∃ k, (evictLoop fuel s).freed = s.freed ++ s.lru.take k) ∧
    (∀ fuel, s.lru.length ≤ fuel →
      (evictLoop fuel s).usage ≤ s.capacity ∨ (evictLoop fuel s).lru = []) ∧
    (∀ id e, entryOf s id = some e → 2 ≤ e.refs →
      ∀ key charge, id ∉ (cacheInsert s key charge).freed) ∧
    (∀ key id, tableLookup s key = some id →
      tableLookup (cacheErase s key) key = none ∧
      ∀ e, entryOf s id = some e →
        (2 ≤ e.refs →
          entryOf (cacheErase s key) id =
            some ⟨e.key, e.charge, false, e.refs - 1⟩ ∧
          id ∉ (cacheErase s key).freed) ∧
        (e.refs = 1 →
          id ∈ (cacheErase s key).freed ∧
          entryOf (cacheErase s key) id = none)) ∧
    (∀ id e, entryOf s id = some e → e.refs = 1 →
      id ∈ (cacheRelease s id).freed) := by
  refine ⟨fun key charge => cacheInsert_inv s hInv key charge,
    fun key => cacheLookup_inv s hInv key,
    ?_,
    fun key => cacheErase_inv s hInv key,
    cachePrune_inv s hInv,
    ?_,
    fun fuel => (evictLoop_spec fuel s hInv).2.1,
    fun fuel hf => (evictLoop_spec fuel s hInv).2.2.2 hf,
    fun id e he h2 key charge =>
      cacheInsert_no_evict_pinned s hInv id e he h2 key charge,
    fun key id ht => cacheErase_spec s hInv key id ht,
    fun id e he h1 => cacheRelease_frees s id e he h1⟩
  · intro id e he hd
    refine cacheUnref_inv s hInv id ?_
    intro e2 he2
    rw [he] at he2
    rw [← Option.some.inj he2]
    exact hd
  · intro p hp
    obtain ⟨r1, r2, r3, _⟩ := hInv.2.2.2.1 p hp
    exact ⟨r1, r2, r3⟩

theorem c6_witness :
    Inv (⟨10, 1, 1, [(0, ⟨[1], 1, true, 1⟩)], [0], [], []⟩ : CacheState) ∧
    Inv (cacheInsert
      (⟨10, 1, 1, [(0, ⟨[1], 1, true, 1⟩)], [0], [], []⟩ : CacheState) [2] 5) :=
  ⟨by decide,
    (c6_lru_cache_invariants
      (⟨10, 1, 1, [(0, ⟨[1], 1, true, 1⟩)], [0], [], []⟩ : CacheState)
      (by decide)).1 [2] 5⟩

/-! ### C3 — log Reader with initial_offset (db/log_reader.cc)

The WAL file is the byte rendering of the physical items the Writer emits
(C4's `addRecordLoop`, chained over the records with `addRecords`).  The
Reader is embedded as a state machine over the byte list; `crc32c` is not
in src/, so the four checksum bytes are produced by an abstract `crcFn`
and the Reader is run with `checksum_ = false` (the constructor's flag),
which the code never consults then. -/

/-- `kMaxRecordType` (db/log_format.h). -/
def kMaxRecordType : Nat := kLastType

/-- Modelled from the spec: db/log_reader.h (not in src/) defines the
internal return codes `kEof = kMaxRecordType + 1` and
`kBadRecord = kMaxRecordType + 2`. -/
def kEofCode : Nat := kMaxRecordType + 1

/-- Modelled from the spec: see `kEofCode`. -/
def kBadCode : Nat := kMaxRecordType + 2

/-- Writer::EmitPhysicalRecord (db/log_writer.cc lines 102-134) header and
payload bytes: 4 crc bytes, `buf[4] = n & 0xff`, `buf[5] = n >> 8`,
`buf[6] = t`, then the payload.  `crcFn` abstracts
`Mask(Extend(type_crc_[t], ptr, n))`. -/
def renderItem (crcFn : Nat → List Nat → Nat) : PhysItem → List Nat
  | .pad n => List.replicate n 0
  | .record t p =>
    encodeFixed32 (crcFn t p) ++ [p.length % 256, p.length / 256 % 256, t] ++ p

def renderItems (crcFn : Nat → List Nat → Nat) (items : List PhysItem) : List Nat :=
  (items.map (renderItem crcFn)).flatten

/-- Byte length of a rendered item (crc-independent). -/
def renderLenItem : PhysItem → Nat
  | .pad n => n
  | .record _ p => kHeaderSize + p.length

def renderLen (items : List PhysItem) : Nat :=
  (items.map renderLenItem).sum

/-- A sequence of Writer::AddRecord calls threading the block offset. -/
def addRecords (fuel : Nat) : List (List Nat) → Nat → Option (List PhysItem × Nat)
  | [], bo => some ([], bo)
  | r :: rs, bo =>
    match addRecordLoop fuel bo r true with
    | none => none
    | some (items, bo2) =>
      match addRecords fuel rs bo2 with
      | none => none
      | some (items2, bo3) => some (items ++ items2, bo3)

/-- Byte length of the padding `AddRecord` emits before its first fragment
at block offset `bo` (the rendered length of `padOf bo`). -/
def padLen (bo : Nat) : Nat :=
  if kBlockSize - bo < kHeaderSize ∧ 0 < kBlockSize - bo then kBlockSize - bo else 0

/-- Reader state (db/log_reader.cc): the unconsumed tail of the current
block (`buffer_`), the unread file suffix, the `eof_` flag, the absolute
offset one past the buffered bytes (`end_of_buffer_offset_`), and the
`resyncing_` flag. -/
structure ReaderState where
  buffer : List Nat
  fileRest : List Nat
  eof : Bool
  endOfBufferOffset : Nat
  resyncing : Bool
  deriving DecidableEq

/-- One `file_->Read(kBlockSize, ...)` call of ReadPhysicalRecord: replace
the buffer by the next block, advance `end_of_buffer_offset_`, and set
`eof_` when the read came back short. -/
def fillBuffer (st : ReaderState) : ReaderState :=
  let chunk := st.fileRest.take kBlockSize
  { st with
    buffer := chunk,
    fileRest := st.fileRest.drop kBlockSize,
    endOfBufferOffset := st.endOfBufferOffset + chunk.length,
    eof := decide (chunk.length < kBlockSize) }

/-- The parsing part of Reader::ReadPhysicalRecord (db/log_reader.cc lines
255-319) once the buffer holds at least a header: decode the length from
bytes 4-5 and the type from byte 6, drop malformed lengths and zero-type
zero-length records, consume the record, and turn a record whose physical
start lies before `initial_offset_` into `kBadRecord` (lines 313-319).
With `checksum_ = false` the crc comparison is skipped.  Returns the new
state, the type code and the fragment. -/
def parseStep (io : Nat) (st : ReaderState) : ReaderState × Nat × List Nat :=
  let a := st.buffer.getD 4 0
  let b := st.buffer.getD 5 0
  let t := st.buffer.getD 6 0
  let length := a ||| (b <<< 8)
  if st.buffer.length < kHeaderSize + length then
    if st.eof = false then ({ st with buffer := [] }, kBadCode, [])
    else ({ st with buffer := [] }, kEofCode, [])
  else if t = kZeroType ∧ length = 0 then
    ({ st with buffer := [] }, kBadCode, [])
  else
    let st2 := { st with buffer := st.buffer.drop (kHeaderSize + length) }
    if st2.endOfBufferOffset - st2.buffer.length - kHeaderSize - length < io then
      (st2, kBadCode, [])
    else
      (st2, t, (st.buffer.drop kHeaderSize).take length)

/-- Reader::ReadPhysicalRecord (db/log_reader.cc lines 226-320).  The
`while (true)` loop runs its refill branch at most once per call: a full
refill leaves at least a header in the buffer, and a short refill sets
`eof_`, so the unrolled form below is the loop's exact behaviour (read
errors cannot occur on our pure byte-list file). -/
def readPhysical (io : Nat) (st : ReaderState) : ReaderState × Nat × List Nat :=
  if st.buffer.length < kHeaderSize then
    if st.eof = false then
      let st2 := fillBuffer st
      if st2.buffer.length < kHeaderSize then ({ st2 with buffer := [] }, kEofCode, [])
      else parseStep io st2
    else ({ st with buffer := [] }, kEofCode, [])
  else parseStep io st

/-- Result of one Reader::ReadRecord call. -/
inductive RRResult where
  | record (st : ReaderState) (bytes : List Nat) (off : Nat)
  | eofEnd (st : ReaderState)
  | outOfFuel
  deriving DecidableEq

/-- Reader::ReadRecord (db/log_reader.cc lines 70-209): repeatedly read a
physical record; while resyncing skip `Middle` fragments and the closing
`Last`; then dispatch on the type, assembling `First`/`Middle`/`Last`
fragments through `scratch` and returning on `Full` or `Last`.  `fuel`
bounds the loop (one unit per physical read). -/
def readRecordLoop (io : Nat) :
    Nat → ReaderState → Bool → List Nat → Nat → RRResult
  | 0, _, _, _, _ => .outOfFuel
  | fuel + 1, st, inFrag, scratch, prospective =>
    let res := readPhysical io st
    let ty := res.2.1
    let frag := res.2.2
    let st2 := res.1
    let physOff := st2.endOfBufferOffset - st2.buffer.length - kHeaderSize -
      frag.length
    let st3 := if st2.resyncing = true ∧ ty ≠ kMiddleType then
      { st2 with resyncing := false } else st2
    if st2.resyncing = true ∧ (ty = kMiddleType ∨ ty = kLastType) then
      readRecordLoop io fuel st3 inFrag scratch prospective
    else
      if ty = kFullType then
        .record st3 frag physOff
      else if ty = kFirstType then
        readRecordLoop io fuel st3 true frag physOff
      else if ty = kMiddleType then
        if inFrag then readRecordLoop io fuel st3 true (scratch ++ frag) prospective
        else readRecordLoop io fuel st3 inFrag scratch prospective
      else if ty = kLastType then
        if inFrag then .record st3 (scratch ++ frag) prospective
        else readRecordLoop io fuel st3 inFrag scratch prospective
      else if ty = kEofCode then
        .eofEnd st3
      else if ty = kBadCode then
        if inFrag then readRecordLoop io fuel st3 false [] prospective
        else readRecordLoop io fuel st3 inFrag scratch prospective
      else
        readRecordLoop io fuel st3 false [] prospective

/-- The Reader after construction and the first ReadRecord's
SkipToInitialBlock (db/log_reader.cc lines 18-30 and 37-63): round
`initial_offset_` down to its block and advance a block if it lies in the
6 trailer bytes; `resyncing_ = initial_offset_ > 0`. -/
def initReader (io : Nat) (file : List Nat) : ReaderState :=
  if 0 < io then
    let offsetInBlock := io % kBlockSize
    let blockStart :=
      if kBlockSize - 6 < offsetInBlock then io - offsetInBlock + kBlockSize
      else io - offsetInBlock
    { buffer := [], fileRest := file.drop blockStart, eof := false,
      endOfBufferOffset := blockStart, resyncing := true }
  else
    { buffer := [], fileRest := file, eof := false,
      endOfBufferOffset := 0, resyncing := false }

/-- Successive ReadRecord calls until false, collecting (offset, record). -/
def readAll (io recFuel : Nat) : Nat → ReaderState → List (Nat × List Nat)
  | 0, _ => []
  | calls + 1, st =>
    match readRecordLoop io recFuel st false [] 0 with
    | .record st2 bytes off => (off, bytes) :: readAll io recFuel calls st2
    | _ => []

/-- The records the spec says the Reader must yield: each logical record
paired with the physical start of its first fragment, keeping exactly
those whose start is at least `initial_offset`, in file order. -/
def expectedRecords (io fuel : Nat) :
    List (List Nat) → Nat → Nat → List (Nat × List Nat)
  | [], _, _ => []
  | r :: rs, abs, bo =>
    match addRecordLoop fuel bo r true with
    | none => []
    | some (items, bo2) =>
      (if io ≤ abs + padLen bo then [(abs + padLen bo, r)] else []) ++
        expectedRecords io fuel rs (abs + renderLen items) bo2

theorem renderItem_length (crcFn : Nat → List Nat → Nat) (it : PhysItem) :
    (renderItem crcFn it).length = renderLenItem it := by
  cases it with
  | pad n => simp [renderItem, renderLenItem]
  | record t p =>
    simp only [renderItem, renderLenItem, encodeFixed32, kHeaderSize,
      List.length_append, List.length_cons, List.length_nil]
    try omega

theorem renderItems_nil (crcFn : Nat → List Nat → Nat) :
    renderItems crcFn [] = [] := rfl

theorem renderItems_cons (crcFn : Nat → List Nat → Nat) (it : PhysItem)
    (l : List PhysItem) :
    renderItems crcFn (it :: l) = renderItem crcFn it ++ renderItems crcFn l := by
  simp [renderItems]

theorem renderItems_append (crcFn : Nat → List Nat → Nat) (a b : List PhysItem) :
    renderItems crcFn (a ++ b) = renderItems crcFn a ++ renderItems crcFn b := by
  simp [renderItems]

theorem renderItems_length (crcFn : Nat → List Nat → Nat) (l : List PhysItem) :
    (renderItems crcFn l).length = renderLen l := by
  induction l with
  | nil => rfl
  | cons it l ih =>
    rw [renderItems_cons, List.length_append, renderItem_length, ih]
    simp [renderLen]

theorem renderLen_append (a b : List PhysItem) :
    renderLen (a ++ b) = renderLen a + renderLen b := by
  simp [renderLen]

theorem renderLen_padOf (bo : Nat) : renderLen (padOf bo) = padLen bo := by
  unfold padOf padLen
  split_ifs <;> simp [renderLen, renderLenItem]

theorem header_len_roundtrip (n : Nat) (h : n < 65536) :
    (n % 256) ||| ((n / 256 % 256) <<< 8) = n := by
  have h2 : n / 256 % 256 = n / 256 := Nat.mod_eq_of_lt (by omega)
  rw [h2, Nat.shiftLeft_eq, Nat.mul_comm]
  have h3 := lor_small_eq_add 8 (n / 256) (n % 256) (by omega)
  norm_num at h3 ⊢
  rw [h3]
  omega

theorem getD_take_lt (l : List Nat) (m i d : Nat) (h : i < m) :
    (l.take m).getD i d = l.getD i d := by
  induction l generalizing m i with
  | nil => simp
  | cons a t ih =>
    cases m with
    | zero => omega
    | succ m2 =>
      rw [List.take_succ_cons]
      cases i with
      | zero => rfl
      | succ i2 =>
        rw [List.getD_cons_succ, List.getD_cons_succ]
        exact ih m2 i2 (by omega)

/-- The record header bytes of a rendered record, positionally. -/
theorem renderItem_record_cons (crcFn : Nat → List Nat → Nat) (t : Nat)
    (p : List Nat) :
    renderItem crcFn (.record t p) =
      crcFn t p % 256 :: crcFn t p / 2 ^ 8 % 256 :: crcFn t p / 2 ^ 16 % 256 ::
      crcFn t p / 2 ^ 24 % 256 :: p.length % 256 :: p.length / 256 % 256 ::
      t :: p := by
  rfl

/-- The Reader state with the current block loaded: the buffer holds the
stream from `pos` to the end of `pos`\'s block (clipped to the stream),
`eof` reflects whether that block is the short final one. -/
def loadedAt (D : Nat) (S : List Nat) (pos : Nat) (resy : Bool) : ReaderState :=
  { buffer := (S.drop (pos - D)).take
      (min (pos - D - (pos - D) % kBlockSize + kBlockSize) S.length - (pos - D)),
    fileRest := S.drop (min (pos - D - (pos - D) % kBlockSize + kBlockSize) S.length),
    eof := decide (S.length < pos - D - (pos - D) % kBlockSize + kBlockSize),
    endOfBufferOffset :=
      D + min (pos - D - (pos - D) % kBlockSize + kBlockSize) S.length,
    resyncing := resy }

/-- The Reader state with the stream `S` starting at absolute offset `D`
(a block multiple), positioned at absolute offset `pos`: at an exact block
boundary the next block is not yet loaded; otherwise the current block is
loaded and consumed up to `pos`. -/
def stateAt (D : Nat) (S : List Nat) (pos : Nat) (resy : Bool) : ReaderState :=
  if (pos - D) % kBlockSize = 0 then
    { buffer := [], fileRest := S.drop (pos - D), eof := false,
      endOfBufferOffset := pos, resyncing := resy }
  else loadedAt D S pos resy

theorem fillBuffer_boundary (D : Nat) (S : List Nat) (pos : Nat) (resy : Bool)
    (hq : (pos - D) % kBlockSize = 0) (hD : D ≤ pos) (hlen : pos - D ≤ S.length) :
    fillBuffer (stateAt D S pos resy) = loadedAt D S pos resy := by
  unfold stateAt
  rw [if_pos hq]
  unfold fillBuffer loadedAt
  simp only [ReaderState.mk.injEq]
  have h1 : pos - D - (pos - D) % kBlockSize = pos - D := by omega
  rw [h1]
  have h2 : (List.take kBlockSize (S.drop (pos - D))).length =
      min kBlockSize (S.length - (pos - D)) := by
    rw [List.length_take, List.length_drop]
  refine ⟨?_, ?_, ?_, ?_, trivial⟩
  · apply List.take_eq_take.mpr
    rw [List.length_drop]
    omega
  · rw [List.drop_drop]
    rcases Nat.le_total (pos - D + kBlockSize) S.length with h3 | h3
    · rw [min_eq_left h3]
    · rw [min_eq_right h3]
      rw [List.drop_eq_nil_of_le (by omega), List.drop_eq_nil_of_le (by omega)]
  · rw [h2]
    exact decide_eq_decide.mpr (by omega)
  · rw [h2]
    omega

theorem parseStep_record (crcFn : Nat → List Nat → Nat) (io D : Nat)
    (S : List Nat) (pos : Nat) (resy : Bool) (t : Nat) (p : List Nat)
    (tail : List Nat)
    (hD : D % kBlockSize = 0) (hDpos : D ≤ pos)
    (hS : S.drop (pos - D) = renderItem crcFn (.record t p) ++ tail)
    (hfit : pos % kBlockSize + kHeaderSize + p.length ≤ kBlockSize)
    (ht1 : 1 ≤ t) :
    parseStep io (loadedAt D S pos resy) =
      (stateAt D S (pos + kHeaderSize + p.length) resy,
       (if pos < io then kBadCode else t),
       (if pos < io then ([] : List Nat) else p)) := by
  have hq : pos % kBlockSize = (pos - D) % kBlockSize := by
    conv_lhs => rw [show pos = D + (pos - D) from by omega]
    rw [Nat.add_mod, hD, Nat.zero_add]
    exact Nat.mod_mod_of_dvd _ dvd_rfl
  have hlen7 : (renderItem crcFn (.record t p)).length = kHeaderSize + p.length := by
    rw [renderItem_length]
    rfl
  have hSlen : pos - D + (kHeaderSize + p.length) ≤ S.length := by
    have h2 := congrArg List.length hS
    rw [List.length_drop, List.length_append, hlen7] at h2
    unfold kHeaderSize at h2 ⊢
    omega
  have hmod : pos - D - (pos - D) % kBlockSize + kBlockSize ≥
      pos - D + (kHeaderSize + p.length) := by
    have h3 := Nat.mod_le (pos - D) kBlockSize
    rw [hq] at hfit
    omega
  have hEge : pos - D + (kHeaderSize + p.length) ≤
      min (pos - D - (pos - D) % kBlockSize + kBlockSize) S.length :=
    le_min hmod hSlen
  have hbl : ((S.drop (pos - D)).take
      (min (pos - D - (pos - D) % kBlockSize + kBlockSize) S.length - (pos - D))).length =
      min (pos - D - (pos - D) % kBlockSize + kBlockSize) S.length - (pos - D) := by
    rw [List.length_take, List.length_drop]
    omega
  have hg4 : ((S.drop (pos - D)).take
      (min (pos - D - (pos - D) % kBlockSize + kBlockSize) S.length - (pos - D))).getD
        4 0 = p.length % 256 := by
    rw [getD_take_lt _ _ _ _ (by unfold kHeaderSize at hEge; omega), hS,
      renderItem_record_cons]
    rfl
  have hg5 : ((S.drop (pos - D)).take
      (min (pos - D - (pos - D) % kBlockSize + kBlockSize) S.length - (pos - D))).getD
        5 0 = p.length / 256 % 256 := by
    rw [getD_take_lt _ _ _ _ (by unfold kHeaderSize at hEge; omega), hS,
      renderItem_record_cons]
    rfl
  have hg6 : ((S.drop (pos - D)).take
      (min (pos - D - (pos - D) % kBlockSize + kBlockSize) S.length - (pos - D))).getD
        6 0 = t := by
    rw [getD_take_lt _ _ _ _ (by unfold kHeaderSize at hEge; omega), hS,
      renderItem_record_cons]
    rfl
  have hlr : p.length % 256 ||| ((p.length / 256 % 256) <<< 8) = p.length := by
    refine header_len_roundtrip p.length ?_
    unfold kHeaderSize kBlockSize at hfit
    omega
  have hq2 := hq
  have hstate :
      ({ buffer := ((S.drop (pos - D)).take
             (min (pos - D - (pos - D) % kBlockSize + kBlockSize) S.length -
               (pos - D))).drop (kHeaderSize + p.length),
         fileRest := S.drop
           (min (pos - D - (pos - D) % kBlockSize + kBlockSize) S.length),
         eof := decide (S.length < pos - D - (pos - D) % kBlockSize + kBlockSize),
         endOfBufferOffset :=
           D + min (pos - D - (pos - D) % kBlockSize + kBlockSize) S.length,
         resyncing := resy } : ReaderState) =
      stateAt D S (pos + kHeaderSize + p.length) resy := by
    by_cases hful : (pos - D) % kBlockSize + kHeaderSize + p.length = kBlockSize
    · have hq0 : (pos + kHeaderSize + p.length - D) % kBlockSize = 0 := by
        unfold kBlockSize kHeaderSize at *
        omega
      have hEeq : min (pos - D - (pos - D) % kBlockSize + kBlockSize) S.length =
          pos - D + (kHeaderSize + p.length) := by
        have h3 := Nat.mod_le (pos - D) kBlockSize
        unfold kBlockSize kHeaderSize at *
        omega
      unfold stateAt
      rw [if_pos hq0]
      simp only [ReaderState.mk.injEq]
      refine ⟨?_, ?_, ?_, ?_, trivial⟩
      · apply List.drop_eq_nil_of_le
        rw [hbl]
        omega
      · rw [hEeq]
        congr 1
        omega
      · exact decide_eq_false (by unfold kBlockSize kHeaderSize at *; omega)
      · rw [hEeq]
        omega
    · have hlt : (pos - D) % kBlockSize + kHeaderSize + p.length < kBlockSize := by
        rw [hq] at hfit
        omega
      have hq1 : (pos + kHeaderSize + p.length - D) % kBlockSize =
          (pos - D) % kBlockSize + kHeaderSize + p.length := by
        unfold kBlockSize kHeaderSize at *
        omega
      unfold stateAt
      rw [if_neg (by rw [hq1]; unfold kHeaderSize; omega)]
      unfold loadedAt
      simp only [ReaderState.mk.injEq]
      have hsame : pos + kHeaderSize + p.length - D -
          (pos + kHeaderSize + p.length - D) % kBlockSize =
          pos - D - (pos - D) % kBlockSize := by
        rw [hq1]
        unfold kBlockSize kHeaderSize at *
        omega
      refine ⟨?_, ?_, ?_, ?_, trivial⟩
      · rw [hsame, List.drop_take, List.drop_drop]
        have hidx : pos - D + (kHeaderSize + p.length) =
            pos + kHeaderSize + p.length - D := by omega
        rw [hidx]
        apply List.take_eq_take.mpr
        rw [List.length_drop]
        omega
      · rw [hsame]
      · rw [hsame]
      · rw [hsame]
  have hfrag : ((((S.drop (pos - D)).take
      (min (pos - D - (pos - D) % kBlockSize + kBlockSize) S.length -
        (pos - D))).drop kHeaderSize).take p.length) = p := by
    rw [List.drop_take, List.take_take]
    have hmin : min p.length
        (min (pos - D - (pos - D) % kBlockSize + kBlockSize) S.length -
          (pos - D) - kHeaderSize) = p.length := by
      omega
    rw [hmin, hS, renderItem_record_cons]
    show ((p ++ tail).take p.length) = p
    rw [List.take_left' rfl]
  unfold parseStep loadedAt
  try dsimp only
  rw [hg4, hg5, hg6, hlr, hbl]
  rw [if_neg (show ¬(min (pos - D - (pos - D) % kBlockSize + kBlockSize) S.length -
    (pos - D) < kHeaderSize + p.length) from by omega)]
  rw [if_neg (show ¬(t = kZeroType ∧ p.length = 0) from
    fun hx => absurd hx.1 (by unfold kZeroType; omega))]
  try dsimp only
  have hioeq : D + min (pos - D - (pos - D) % kBlockSize + kBlockSize) S.length -
      (((S.drop (pos - D)).take
        (min (pos - D - (pos - D) % kBlockSize + kBlockSize) S.length -
          (pos - D))).drop (kHeaderSize + p.length)).length -
      kHeaderSize - p.length = pos := by
    rw [List.length_drop, hbl]
    omega
  rw [hioeq]
  by_cases hio : pos < io
  · rw [if_pos hio, if_pos hio, if_pos hio, hstate]
  · rw [if_neg hio, if_neg hio, if_neg hio, hstate, hfrag]

theorem readPhysical_record (crcFn : Nat → List Nat → Nat) (io D : Nat)
    (S : List Nat) (pos : Nat) (resy : Bool) (t : Nat) (p : List Nat)
    (tail : List Nat)
    (hD : D % kBlockSize = 0) (hDpos : D ≤ pos)
    (hS : S.drop (pos - D) = renderItem crcFn (.record t p) ++ tail)
    (hfit : pos % kBlockSize + kHeaderSize + p.length ≤ kBlockSize)
    (ht1 : 1 ≤ t) :
    readPhysical io (stateAt D S pos resy) =
      (stateAt D S (pos + kHeaderSize + p.length) resy,
       (if pos < io then kBadCode else t),
       (if pos < io then ([] : List Nat) else p)) := by
  have hlen7 : (renderItem crcFn (.record t p)).length = kHeaderSize + p.length := by
    rw [renderItem_length]
    rfl
  have hSlen : pos - D + (kHeaderSize + p.length) ≤ S.length := by
    have h2 := congrArg List.length hS
    rw [List.length_drop, List.length_append, hlen7] at h2
    unfold kHeaderSize at h2 ⊢
    omega
  have hq : pos % kBlockSize = (pos - D) % kBlockSize := by
    conv_lhs => rw [show pos = D + (pos - D) from by omega]
    rw [Nat.add_mod, hD, Nat.zero_add]
    exact Nat.mod_mod_of_dvd _ dvd_rfl
  have hblen : ((S.drop (pos - D)).take
      (min (pos - D - (pos - D) % kBlockSize + kBlockSize) S.length -
        (pos - D))).length =
      min (pos - D - (pos - D) % kBlockSize + kBlockSize) S.length - (pos - D) := by
    rw [List.length_take, List.length_drop]
    omega
  have hbge : ¬((loadedAt D S pos resy).buffer.length < kHeaderSize) := by
    unfold loadedAt
    dsimp only
    rw [hblen]
    have h3 := Nat.mod_le (pos - D) kBlockSize
    rw [hq] at hfit
    unfold kHeaderSize kBlockSize at *
    omega
  unfold readPhysical
  by_cases hq0 : (pos - D) % kBlockSize = 0
  · have hsa : stateAt D S pos resy =
        { buffer := [], fileRest := S.drop (pos - D), eof := false,
          endOfBufferOffset := pos, resyncing := resy } := by
      unfold stateAt
      rw [if_pos hq0]
    rw [hsa]
    rw [if_pos (by simp [kHeaderSize])]
    rw [if_pos rfl]
    rw [← hsa, fillBuffer_boundary D S pos resy hq0 hDpos (by omega)]
    rw [if_neg hbge]
    exact parseStep_record crcFn io D S pos resy t p tail hD hDpos hS hfit ht1
  · have hsa : stateAt D S pos resy = loadedAt D S pos resy := by
      unfold stateAt
      rw [if_neg hq0]
    rw [hsa, if_neg hbge]
    exact parseStep_record crcFn io D S pos resy t p tail hD hDpos hS hfit ht1

theorem readPhysical_pad (io D : Nat) (S : List Nat) (pos : Nat) (resy : Bool)
    (n : Nat) (tail : List Nat)
    (hD : D % kBlockSize = 0) (hDpos : D ≤ pos)
    (hS : S.drop (pos - D) = List.replicate n 0 ++ tail)
    (hn : n = kBlockSize - pos % kBlockSize) (hn0 : 0 < n)
    (hn7 : n < kHeaderSize) :
    readPhysical io (stateAt D S pos resy) =
      readPhysical io (stateAt D S (pos + n) resy) := by
  have hq : pos % kBlockSize = (pos - D) % kBlockSize := by
    conv_lhs => rw [show pos = D + (pos - D) from by omega]
    rw [Nat.add_mod, hD, Nat.zero_add]
    exact Nat.mod_mod_of_dvd _ dvd_rfl
  have hSlen : pos - D + n ≤ S.length := by
    have h2 := congrArg List.length hS
    rw [List.length_drop, List.length_append, List.length_replicate] at h2
    omega
  have hq0 : ¬((pos - D) % kBlockSize = 0) := by
    rw [← hq]
    unfold kBlockSize kHeaderSize at *
    omega
  have hqn0 : (pos + n - D) % kBlockSize = 0 := by
    rw [hq] at hn
    have h3 : pos + n - D = pos - D + n := by omega
    rw [h3]
    unfold kBlockSize kHeaderSize at *
    omega
  have hE : min (pos - D - (pos - D) % kBlockSize + kBlockSize) S.length =
      pos - D + n := by
    rw [hq] at hn
    have h3 := Nat.mod_le (pos - D) kBlockSize
    unfold kBlockSize kHeaderSize at *
    omega
  have hsa : stateAt D S pos resy = loadedAt D S pos resy := by
    unfold stateAt
    rw [if_neg hq0]
  have hsb : stateAt D S (pos + n) resy =
      { buffer := [], fileRest := S.drop (pos + n - D), eof := false,
        endOfBufferOffset := pos + n, resyncing := resy } := by
    unfold stateAt
    rw [if_pos hqn0]
  have hbl : (loadedAt D S pos resy).buffer.length = n := by
    unfold loadedAt
    dsimp only
    rw [List.length_take, List.length_drop, hE]
    omega
  have heof : (loadedAt D S pos resy).eof = false := by
    unfold loadedAt
    dsimp only
    refine decide_eq_false ?_
    rw [hq] at hn
    have h3 := Nat.mod_le (pos - D) kBlockSize
    unfold kBlockSize kHeaderSize at *
    omega
  have hfb : fillBuffer (loadedAt D S pos resy) =
      fillBuffer
        { buffer := [], fileRest := S.drop (pos + n - D), eof := false,
          endOfBufferOffset := pos + n, resyncing := resy } := by
    unfold fillBuffer loadedAt
    dsimp only
    rw [hE]
    simp only [ReaderState.mk.injEq]
    have h4 : pos - D + n = pos + n - D := by omega
    rw [h4]
    refine ⟨rfl, rfl, rfl, ?_, trivial⟩
    omega
  rw [hsa, hsb]
  unfold readPhysical
  rw [if_pos (show (loadedAt D S pos resy).buffer.length < kHeaderSize from by
    rw [hbl]; exact hn7)]
  rw [if_pos heof]
  rw [if_pos (show ([] : List Nat).length < kHeaderSize from by
    simp [kHeaderSize])]
  rw [if_pos rfl]
  rw [hfb]

theorem readPhysical_eof (io D : Nat) (S : List Nat) (pos : Nat) (resy : Bool)
    (hEnd : S.length ≤ pos - D) :
    ∃ st2, readPhysical io (stateAt D S pos resy) = (st2, kEofCode, []) := by
  unfold readPhysical
  by_cases hq0 : (pos - D) % kBlockSize = 0
  · have hsa : stateAt D S pos resy =
        { buffer := [], fileRest := S.drop (pos - D), eof := false,
          endOfBufferOffset := pos, resyncing := resy } := by
      unfold stateAt
      rw [if_pos hq0]
    rw [hsa]
    rw [if_pos (show ([] : List Nat).length < kHeaderSize from by simp [kHeaderSize])]
    rw [if_pos rfl]
    have hrest : S.drop (pos - D) = [] := List.drop_eq_nil_of_le (by omega)
    have hfb : fillBuffer
        { buffer := [], fileRest := S.drop (pos - D), eof := false,
          endOfBufferOffset := pos, resyncing := resy } =
        { buffer := [], fileRest := [], eof := true,
          endOfBufferOffset := pos, resyncing := resy } := by
      unfold fillBuffer
      rw [hrest]
      simp only [ReaderState.mk.injEq]
      refine ⟨rfl, rfl, ?_, rfl, trivial⟩
      refine decide_eq_true ?_
      rw [List.take_nil, List.length_nil]
      unfold kBlockSize
      omega
    rw [hfb]
    rw [if_pos (show ([] : List Nat).length < kHeaderSize from by simp [kHeaderSize])]
    exact ⟨_, rfl⟩
  · have hsa : stateAt D S pos resy = loadedAt D S pos resy := by
      unfold stateAt
      rw [if_neg hq0]
    rw [hsa]
    have hE : min (pos - D - (pos - D) % kBlockSize + kBlockSize) S.length =
        S.length := by
      have h3 := Nat.mod_le (pos - D) kBlockSize
      unfold kBlockSize at *
      omega
    have hbl : (loadedAt D S pos resy).buffer.length = 0 := by
      unfold loadedAt
      dsimp only
      rw [List.length_take, List.length_drop, hE]
      omega
    rw [if_pos (show (loadedAt D S pos resy).buffer.length < kHeaderSize from by
      rw [hbl]; simp [kHeaderSize])]
    have heof : (loadedAt D S pos resy).eof = true := by
      unfold loadedAt
      dsimp only
      refine decide_eq_true ?_
      have h3 := Nat.mod_le (pos - D) kBlockSize
      unfold kBlockSize at *
      omega
    rw [if_neg (by rw [heof]; exact fun h => nomatch h)]
    exact ⟨_, rfl⟩

theorem padLen_eq (bo : Nat) : padLen bo = renderLen (padOf bo) :=
  (renderLen_padOf bo).symm

theorem readPhysical_padRecord (crcFn : Nat → List Nat → Nat) (io D : Nat)
    (S : List Nat) (pos : Nat) (resy : Bool) (bo t : Nat) (p : List Nat)
    (rest : List PhysItem) (tail : List Nat)
    (hbo : bo ≤ kBlockSize) (hpos : pos % kBlockSize = bo % kBlockSize)
    (hD : D % kBlockSize = 0) (hDpos : D ≤ pos)
    (hS : S.drop (pos - D) =
      renderItems crcFn (padOf bo ++ (.record t p :: rest)) ++ tail)
    (hfit : boAfterPad bo + kHeaderSize + p.length ≤ kBlockSize)
    (ht1 : 1 ≤ t) :
    readPhysical io (stateAt D S pos resy) =
      (stateAt D S (pos + padLen bo + kHeaderSize + p.length) resy,
       (if pos + padLen bo < io then kBadCode else t),
       (if pos + padLen bo < io then ([] : List Nat) else p)) := by
  by_cases hc : kBlockSize - bo < kHeaderSize ∧ 0 < kBlockSize - bo
  · have hpadOf : padOf bo = [PhysItem.pad (kBlockSize - bo)] := by
      unfold padOf
      rw [if_pos hc]
    have hpadLen : padLen bo = kBlockSize - bo := by
      unfold padLen
      rw [if_pos hc]
    have hbolt : bo < kBlockSize := by omega
    have hbomod : bo % kBlockSize = bo := Nat.mod_eq_of_lt hbolt
    have hbap : boAfterPad bo = 0 := by
      unfold boAfterPad
      rw [if_pos hc.1]
    rw [hpadOf, List.singleton_append, renderItems_cons, renderItems_cons] at hS
    rw [show renderItem crcFn (.pad (kBlockSize - bo)) =
      List.replicate (kBlockSize - bo) 0 from rfl] at hS
    rw [List.append_assoc, List.append_assoc] at hS
    have hpad := readPhysical_pad io D S pos resy (kBlockSize - bo)
      (renderItem crcFn (.record t p) ++ (renderItems crcFn rest ++ tail))
      hD hDpos hS (by rw [hpos, hbomod]) hc.2 hc.1
    rw [hpadLen]
    rw [hpad]
    have hS2 : S.drop (pos + (kBlockSize - bo) - D) =
        renderItem crcFn (.record t p) ++ (renderItems crcFn rest ++ tail) := by
      rw [show pos + (kBlockSize - bo) - D = (pos - D) + (kBlockSize - bo) from
        by omega]
      rw [← List.drop_drop, hS]
      rw [List.drop_left' (by rw [List.length_replicate])]
    have hmod0 : (pos + (kBlockSize - bo)) % kBlockSize = 0 := by
      rw [hbomod] at hpos
      unfold kBlockSize at *
      omega
    have hfit2 : (pos + (kBlockSize - bo)) % kBlockSize + kHeaderSize +
        p.length ≤ kBlockSize := by
      rw [hmod0]
      rw [hbap] at hfit
      omega
    exact readPhysical_record crcFn io D S (pos + (kBlockSize - bo)) resy t p
      (renderItems crcFn rest ++ tail) hD (by omega) hS2 hfit2 ht1
  · have hpadOf : padOf bo = [] := by
      unfold padOf
      rw [if_neg hc]
    have hpadLen : padLen bo = 0 := by
      unfold padLen
      rw [if_neg hc]
    have hbap : pos % kBlockSize = boAfterPad bo := by
      unfold boAfterPad
      split_ifs with h
      · unfold kBlockSize kHeaderSize at *
        omega
      · unfold kBlockSize kHeaderSize at *
        omega
    rw [hpadOf, List.nil_append, renderItems_cons, List.append_assoc] at hS
    rw [hpadLen, Nat.add_zero]
    exact readPhysical_record crcFn io D S pos resy t p
      (renderItems crcFn rest ++ tail) hD hDpos hS (by omega) ht1

theorem stateAt_resy (D : Nat) (S : List Nat) (pos : Nat) (r : Bool) :
    (stateAt D S pos r).resyncing = r := by
  unfold stateAt loadedAt
  split_ifs <;> rfl

theorem stateAt_set_resy (D : Nat) (S : List Nat) (pos : Nat) (r b : Bool) :
    { stateAt D S pos r with resyncing := b } = stateAt D S pos b := by
  unfold stateAt loadedAt
  split_ifs <;> rfl

theorem stateAt_off (D : Nat) (S : List Nat) (pos : Nat) (r : Bool)
    (hDpos : D ≤ pos) (hlen : pos - D ≤ S.length) :
    (stateAt D S pos r).endOfBufferOffset - (stateAt D S pos r).buffer.length =
      pos := by
  unfold stateAt loadedAt
  split_ifs with h
  · dsimp only
    rw [List.length_nil]
    omega
  · dsimp only
    rw [List.length_take, List.length_drop]
    have h3 := Nat.mod_le (pos - D) kBlockSize
    have h4 : (pos - D) % kBlockSize < kBlockSize :=
      Nat.mod_lt _ (by unfold kBlockSize; omega)
    have hq2 : pos - D ≤
        min (pos - D - (pos - D) % kBlockSize + kBlockSize) S.length :=
      le_min (by omega) hlen
    have hES : min (pos - D - (pos - D) % kBlockSize + kBlockSize) S.length ≤
        S.length := min_le_right _ _
    generalize hE : min (pos - D - (pos - D) % kBlockSize + kBlockSize) S.length
      = E at hq2 hES ⊢
    omega

theorem drop_shift {S pre X : List Nat} {q c : Nat}
    (h1 : S.drop q = pre ++ X) (h2 : pre.length = c) :
    S.drop (q + c) = X := by
  rw [← List.drop_drop, h1, List.drop_left' h2]

theorem loop_full (io f D : Nat) (S : List Nat) (pos2 : Nat) (r : Bool)
    (st1 : ReaderState) (inFrag : Bool) (scratch frag : List Nat) (pros : Nat)
    (hphys : readPhysical io st1 = (stateAt D S pos2 r, kFullType, frag)) :
    readRecordLoop io (f + 1) st1 inFrag scratch pros =
      .record (stateAt D S pos2 false) frag
        ((stateAt D S pos2 r).endOfBufferOffset -
          (stateAt D S pos2 r).buffer.length - kHeaderSize - frag.length) := by
  rw [readRecordLoop]
  rw [hphys]
  dsimp only
  rw [stateAt_resy]
  rw [if_neg (fun hx =>
    (by decide : ¬(kFullType = kMiddleType ∨ kFullType = kLastType)) hx.2)]
  cases r with
  | true =>
    rw [if_pos (show true = true ∧ kFullType ≠ kMiddleType from ⟨rfl, by decide⟩)]
    rw [stateAt_set_resy]
    rw [if_pos (show kFullType = kFullType from rfl)]
  | false =>
    rw [if_neg (show ¬(false = true ∧ kFullType ≠ kMiddleType) from
      fun hx => nomatch hx.1)]
    rw [if_pos (show kFullType = kFullType from rfl)]

theorem loop_first (io f D : Nat) (S : List Nat) (pos2 : Nat) (r : Bool)
    (st1 : ReaderState) (inFrag : Bool) (scratch frag : List Nat) (pros : Nat)
    (hphys : readPhysical io st1 = (stateAt D S pos2 r, kFirstType, frag)) :
    readRecordLoop io (f + 1) st1 inFrag scratch pros =
      readRecordLoop io f (stateAt D S pos2 false) true frag
        ((stateAt D S pos2 r).endOfBufferOffset -
          (stateAt D S pos2 r).buffer.length - kHeaderSize - frag.length) := by
  rw [readRecordLoop]
  rw [hphys]
  dsimp only
  rw [stateAt_resy]
  rw [if_neg (fun hx =>
    (by decide : ¬(kFirstType = kMiddleType ∨ kFirstType = kLastType)) hx.2)]
  cases r with
  | true =>
    rw [if_pos (show true = true ∧ kFirstType ≠ kMiddleType from ⟨rfl, by decide⟩)]
    rw [stateAt_set_resy]
    rw [if_neg (show ¬(kFirstType = kFullType) from by decide)]
    rw [if_pos (show kFirstType = kFirstType from rfl)]
  | false =>
    rw [if_neg (show ¬(false = true ∧ kFirstType ≠ kMiddleType) from
      fun hx => nomatch hx.1)]
    rw [if_neg (show ¬(kFirstType = kFullType) from by decide)]
    rw [if_pos (show kFirstType = kFirstType from rfl)]

theorem loop_middle_resync (io f D : Nat) (S : List Nat) (pos2 : Nat)
    (st1 : ReaderState) (inFrag : Bool) (scratch frag : List Nat) (pros : Nat)
    (hphys : readPhysical io st1 = (stateAt D S pos2 true, kMiddleType, frag)) :
    readRecordLoop io (f + 1) st1 inFrag scratch pros =
      readRecordLoop io f (stateAt D S pos2 true) inFrag scratch pros := by
  rw [readRecordLoop]
  rw [hphys]
  dsimp only
  rw [stateAt_resy]
  rw [if_neg (show ¬(true = true ∧ kMiddleType ≠ kMiddleType) from
    fun hx => hx.2 rfl)]
  rw [if_pos (show true = true ∧ (kMiddleType = kMiddleType ∨ kMiddleType = kLastType)
    from ⟨rfl, Or.inl rfl⟩)]

theorem loop_middle_infrag (io f D : Nat) (S : List Nat) (pos2 : Nat)
    (st1 : ReaderState) (scratch frag : List Nat) (pros : Nat)
    (hphys : readPhysical io st1 = (stateAt D S pos2 false, kMiddleType, frag)) :
    readRecordLoop io (f + 1) st1 true scratch pros =
      readRecordLoop io f (stateAt D S pos2 false) true (scratch ++ frag) pros := by
  rw [readRecordLoop]
  rw [hphys]
  dsimp only
  rw [stateAt_resy]
  rw [if_neg (show ¬(false = true ∧ (kMiddleType = kMiddleType ∨
    kMiddleType = kLastType)) from fun hx => nomatch hx.1)]
  rw [if_neg (show ¬(false = true ∧ kMiddleType ≠ kMiddleType) from
    fun hx => nomatch hx.1)]
  rw [if_neg (show ¬(kMiddleType = kFullType) from by decide)]
  rw [if_neg (show ¬(kMiddleType = kFirstType) from by decide)]
  rw [if_pos (show kMiddleType = kMiddleType from rfl)]
  rw [if_pos (show (true = true) from rfl)]

theorem loop_middle_orphan (io f D : Nat) (S : List Nat) (pos2 : Nat)
    (st1 : ReaderState) (scratch frag : List Nat) (pros : Nat)
    (hphys : readPhysical io st1 = (stateAt D S pos2 false, kMiddleType, frag)) :
    readRecordLoop io (f + 1) st1 false scratch pros =
      readRecordLoop io f (stateAt D S pos2 false) false scratch pros := by
  rw [readRecordLoop]
  rw [hphys]
  dsimp only
  rw [stateAt_resy]
  rw [if_neg (show ¬(false = true ∧ (kMiddleType = kMiddleType ∨
    kMiddleType = kLastType)) from fun hx => nomatch hx.1)]
  rw [if_neg (show ¬(false = true ∧ kMiddleType ≠ kMiddleType) from
    fun hx => nomatch hx.1)]
  rw [if_neg (show ¬(kMiddleType = kFullType) from by decide)]
  rw [if_neg (show ¬(kMiddleType = kFirstType) from by decide)]
  rw [if_pos (show kMiddleType = kMiddleType from rfl)]
  rw [if_neg (show ¬(false = true) from fun hx => nomatch hx)]

theorem loop_last_resync (io f D : Nat) (S : List Nat) (pos2 : Nat)
    (st1 : ReaderState) (inFrag : Bool) (scratch frag : List Nat) (pros : Nat)
    (hphys : readPhysical io st1 = (stateAt D S pos2 true, kLastType, frag)) :
    readRecordLoop io (f + 1) st1 inFrag scratch pros =
      readRecordLoop io f (stateAt D S pos2 false) inFrag scratch pros := by
  rw [readRecordLoop]
  rw [hphys]
  dsimp only
  rw [stateAt_resy]
  rw [if_pos (show true = true ∧ kLastType ≠ kMiddleType from ⟨rfl, by decide⟩)]
  rw [stateAt_set_resy]
  rw [if_pos (show true = true ∧ (kLastType = kMiddleType ∨ kLastType = kLastType)
    from ⟨rfl, Or.inr rfl⟩)]

theorem loop_last_infrag (io f D : Nat) (S : List Nat) (pos2 : Nat)
    (st1 : ReaderState) (scratch frag : List Nat) (pros : Nat)
    (hphys : readPhysical io st1 = (stateAt D S pos2 false, kLastType, frag)) :
    readRecordLoop io (f + 1) st1 true scratch pros =
      .record (stateAt D S pos2 false) (scratch ++ frag) pros := by
  rw [readRecordLoop]
  rw [hphys]
  dsimp only
  rw [stateAt_resy]
  rw [if_neg (show ¬(false = true ∧ (kLastType = kMiddleType ∨
    kLastType = kLastType)) from fun hx => nomatch hx.1)]
  rw [if_neg (show ¬(false = true ∧ kLastType ≠ kMiddleType) from
    fun hx => nomatch hx.1)]
  rw [if_neg (show ¬(kLastType = kFullType) from by decide)]
  rw [if_neg (show ¬(kLastType = kFirstType) from by decide)]
  rw [if_neg (show ¬(kLastType = kMiddleType) from by decide)]
  rw [if_pos (show kLastType = kLastType from rfl)]
  rw [if_pos (show (true = true) from rfl)]

theorem loop_last_orphan (io f D : Nat) (S : List Nat) (pos2 : Nat)
    (st1 : ReaderState) (scratch frag : List Nat) (pros : Nat)
    (hphys : readPhysical io st1 = (stateAt D S pos2 false, kLastType, frag)) :
    readRecordLoop io (f + 1) st1 false scratch pros =
      readRecordLoop io f (stateAt D S pos2 false) false scratch pros := by
  rw [readRecordLoop]
  rw [hphys]
  dsimp only
  rw [stateAt_resy]
  rw [if_neg (show ¬(false = true ∧ (kLastType = kMiddleType ∨
    kLastType = kLastType)) from fun hx => nomatch hx.1)]
  rw [if_neg (show ¬(false = true ∧ kLastType ≠ kMiddleType) from
    fun hx => nomatch hx.1)]
  rw [if_neg (show ¬(kLastType = kFullType) from by decide)]
  rw [if_neg (show ¬(kLastType = kFirstType) from by decide)]
  rw [if_neg (show ¬(kLastType = kMiddleType) from by decide)]
  rw [if_pos (show kLastType = kLastType from rfl)]
  rw [if_neg (show ¬(false = true) from fun hx => nomatch hx)]

theorem loop_bad_clean (io f D : Nat) (S : List Nat) (pos2 : Nat) (r : Bool)
    (st1 : ReaderState) (scratch frag : List Nat) (pros : Nat)
    (hphys : readPhysical io st1 = (stateAt D S pos2 r, kBadCode, frag)) :
    readRecordLoop io (f + 1) st1 false scratch pros =
      readRecordLoop io f (stateAt D S pos2 false) false scratch pros := by
  rw [readRecordLoop]
  rw [hphys]
  dsimp only
  rw [stateAt_resy]
  rw [if_neg (fun hx =>
    (by decide : ¬(kBadCode = kMiddleType ∨ kBadCode = kLastType)) hx.2)]
  cases r with
  | true =>
    rw [if_pos (show true = true ∧ kBadCode ≠ kMiddleType from ⟨rfl, by decide⟩)]
    rw [stateAt_set_resy]
    rw [if_neg (show ¬(kBadCode = kFullType) from by decide)]
    rw [if_neg (show ¬(kBadCode = kFirstType) from by decide)]
    rw [if_neg (show ¬(kBadCode = kMiddleType) from by decide)]
    rw [if_neg (show ¬(kBadCode = kLastType) from by decide)]
    rw [if_neg (show ¬(kBadCode = kEofCode) from by decide)]
    rw [if_pos (show kBadCode = kBadCode from rfl)]
    rw [if_neg (show ¬(false = true) from fun hx => nomatch hx)]
  | false =>
    rw [if_neg (show ¬(false = true ∧ kBadCode ≠ kMiddleType) from
      fun hx => nomatch hx.1)]
    rw [if_neg (show ¬(kBadCode = kFullType) from by decide)]
    rw [if_neg (show ¬(kBadCode = kFirstType) from by decide)]
    rw [if_neg (show ¬(kBadCode = kMiddleType) from by decide)]
    rw [if_neg (show ¬(kBadCode = kLastType) from by decide)]
    rw [if_neg (show ¬(kBadCode = kEofCode) from by decide)]
    rw [if_pos (show kBadCode = kBadCode from rfl)]
    rw [if_neg (show ¬(false = true) from fun hx => nomatch hx)]

theorem loop_eofRes (io f : Nat) (st1 st2 : ReaderState) (inFrag : Bool)
    (scratch frag : List Nat) (pros : Nat)
    (hphys : readPhysical io st1 = (st2, kEofCode, frag)) :
    ∃ st3, readRecordLoop io (f + 1) st1 inFrag scratch pros = .eofEnd st3 := by
  rw [readRecordLoop]
  rw [hphys]
  dsimp only
  rw [if_neg (fun hx =>
    (by decide : ¬(kEofCode = kMiddleType ∨ kEofCode = kLastType)) hx.2)]
  rw [if_neg (show ¬(kEofCode = kFullType) from by decide)]
  rw [if_neg (show ¬(kEofCode = kFirstType) from by decide)]
  rw [if_neg (show ¬(kEofCode = kMiddleType) from by decide)]
  rw [if_neg (show ¬(kEofCode = kLastType) from by decide)]
  rw [if_pos (show kEofCode = kEofCode from rfl)]
  exact ⟨_, rfl⟩

theorem pos_padLen_mod (bo pos : Nat) (hbo : bo ≤ kBlockSize)
    (hpos : pos % kBlockSize = bo % kBlockSize) :
    (pos + padLen bo) % kBlockSize = boAfterPad bo := by
  unfold padLen boAfterPad
  split_ifs with h1 h2 h3 <;> unfold kBlockSize kHeaderSize at * <;> omega

theorem renderLen_rec_cons (t : Nat) (p : List Nat) (l : List PhysItem) :
    renderLen (.record t p :: l) = kHeaderSize + p.length + renderLen l := by
  simp [renderLen, renderLenItem]

theorem renderLen_rec_single (t : Nat) (p : List Nat) :
    renderLen [PhysItem.record t p] = kHeaderSize + p.length := by
  simp [renderLen, renderLenItem]

/-- ReadRecord delivers the record a single AddRecord call wrote: if the
reader sits at the byte position where `addRecordLoop` began emitting and
`initial_offset_` does not exceed the first fragment's start, the loop
returns exactly the written payload, at the first fragment's physical
offset, leaving the reader just past the record with `resyncing_` off.
Stated over an arbitrary writer suffix (`bgn = false` resumes a partly
consumed record through `scratch`). -/
theorem readRecord_emit (crcFn : Nat → List Nat → Nat) (io : Nat) :
    ∀ fuelW : Nat, ∀ (bo : Nat) (data : List Nat) (items : List PhysItem)
      (bo2 D : Nat) (S : List Nat) (pos : Nat) (tail : List Nat)
      (bgn resy inFrag : Bool) (scratch : List Nat) (pros fuelR : Nat),
      addRecordLoop fuelW bo data bgn = some (items, bo2) →
      bo ≤ kBlockSize →
      pos % kBlockSize = bo % kBlockSize →
      D % kBlockSize = 0 → D ≤ pos →
      S.drop (pos - D) = renderItems crcFn items ++ tail →
      io ≤ pos + padLen bo →
      (bgn = false → resy = false ∧ inFrag = true) →
      (recsOf items).length ≤ fuelR →
      readRecordLoop io fuelR (stateAt D S pos resy) inFrag scratch pros =
        .record (stateAt D S (pos + renderLen items) false)
          (if bgn then data else scratch ++ data)
          (if bgn then pos + padLen bo else pros) := by
  intro fuelW
  induction fuelW with
  | zero =>
    intro bo data items bo2 D S pos tail bgn resy inFrag scratch pros fuelR
      h hbo hpos hD hDpos hS hio hbf hfuel
    exact absurd h (by simp [addRecordLoop])
  | succ fw ih =>
    intro bo data items bo2 D S pos tail bgn resy inFrag scratch pros fuelR
      h hbo hpos hD hDpos hS hio hbf hfuel
    rw [addRecordLoop] at h
    have hB := boAfterPad_le bo hbo
    by_cases hend : data.length ≤ kBlockSize - boAfterPad bo - kHeaderSize
    · rw [if_pos hend] at h
      simp only [Option.some.injEq, Prod.mk.injEq] at h
      obtain ⟨hitems, hbo2⟩ := h
      have htake : data.take (kBlockSize - boAfterPad bo - kHeaderSize) = data :=
        List.take_of_length_le hend
      rw [htake] at hitems
      subst hitems
      have hrlen : (recsOf (padOf bo ++
          [PhysItem.record (fragType bgn true) data])).length = 1 := by
        rw [recsOf_append, recsOf_padOf]
        rfl
      have hrl : renderLen (padOf bo ++
          [PhysItem.record (fragType bgn true) data]) =
          padLen bo + (kHeaderSize + data.length) := by
        rw [renderLen_append, renderLen_padOf, renderLen_rec_single]
      have hSlen := congrArg List.length hS
      rw [List.length_drop, List.length_append, renderItems_length, hrl] at hSlen
      cases fuelR with
      | zero =>
        rw [hrlen] at hfuel
        omega
      | succ f =>
        have hphys := readPhysical_padRecord crcFn io D S pos resy bo
          (fragType bgn true) data [] tail hbo hpos hD hDpos hS
          (by unfold kBlockSize kHeaderSize at hB hend ⊢; omega)
          (by cases bgn <;> decide)
        rw [if_neg (show ¬(pos + padLen bo < io) from by omega),
          if_neg (show ¬(pos + padLen bo < io) from by omega)] at hphys
        have hlen2 : pos + padLen bo + kHeaderSize + data.length - D ≤
            S.length := by
          unfold kHeaderSize at hSlen ⊢
          omega
        cases bgn with
        | true =>
          rw [show fragType true true = kFullType from by decide] at hphys
          rw [loop_full io f D S (pos + padLen bo + kHeaderSize + data.length)
            resy (stateAt D S pos resy) inFrag scratch data pros hphys]
          rw [stateAt_off D S (pos + padLen bo + kHeaderSize + data.length)
            resy (by omega) hlen2]
          rw [show pos + padLen bo + kHeaderSize + data.length - kHeaderSize -
            data.length = pos + padLen bo from by omega]
          rw [hrl]
          rw [show pos + (padLen bo + (kHeaderSize + data.length)) =
            pos + padLen bo + kHeaderSize + data.length from by omega]
          simp only [eq_self_iff_true, if_true]
        | false =>
          obtain ⟨hresy, hinf⟩ := hbf rfl
          subst hresy
          subst hinf
          rw [show fragType false true = kLastType from by decide] at hphys
          rw [loop_last_infrag io f D S
            (pos + padLen bo + kHeaderSize + data.length)
            (stateAt D S pos false) scratch data pros hphys]
          rw [hrl]
          rw [show pos + (padLen bo + (kHeaderSize + data.length)) =
            pos + padLen bo + kHeaderSize + data.length from by omega]
          simp only [if_neg (show ¬(false = true) from fun hx => nomatch hx)]
    · rw [if_neg hend] at h
      cases hrec : addRecordLoop fw (boAfterPad bo + kHeaderSize +
          (kBlockSize - boAfterPad bo - kHeaderSize))
          (data.drop (kBlockSize - boAfterPad bo - kHeaderSize)) false with
      | none =>
        rw [hrec] at h
        exact nomatch h
      | some pr =>
        obtain ⟨items2, boEnd2⟩ := pr
        rw [hrec] at h
        simp only [Option.some.injEq, Prod.mk.injEq] at h
        obtain ⟨hitems, hbo2⟩ := h
        subst hitems
        have hlenp1 : (data.take (kBlockSize - boAfterPad bo -
            kHeaderSize)).length = kBlockSize - boAfterPad bo - kHeaderSize := by
          rw [List.length_take]
          unfold kBlockSize kHeaderSize at hend hB ⊢
          omega
        have hrlen2 : (recsOf (padOf bo ++ PhysItem.record (fragType bgn false)
            (data.take (kBlockSize - boAfterPad bo - kHeaderSize)) ::
            items2)).length = (recsOf items2).length + 1 := by
          rw [recsOf_append, recsOf_padOf, List.nil_append, recsOf_cons_rec,
            List.length_cons]
        cases fuelR with
        | zero =>
          rw [hrlen2] at hfuel
          omega
        | succ f =>
          have hphys := readPhysical_padRecord crcFn io D S pos resy bo
            (fragType bgn false)
            (data.take (kBlockSize - boAfterPad bo - kHeaderSize)) items2 tail
            hbo hpos hD hDpos hS
            (by rw [hlenp1]; unfold kBlockSize kHeaderSize at hB ⊢; omega)
            (by cases bgn <;> decide)
          rw [if_neg (show ¬(pos + padLen bo < io) from by omega),
            if_neg (show ¬(pos + padLen bo < io) from by omega)] at hphys
          have hrec2 : addRecordLoop fw kBlockSize
              (data.drop (kBlockSize - boAfterPad bo - kHeaderSize)) false =
              some (items2, boEnd2) := by
            rw [show boAfterPad bo + kHeaderSize +
              (kBlockSize - boAfterPad bo - kHeaderSize) = kBlockSize from by
                unfold kBlockSize kHeaderSize at hB ⊢; omega] at hrec
            exact hrec
          have hpl := pos_padLen_mod bo pos hbo hpos
          have hrlitems : renderLen (padOf bo ++
              PhysItem.record (fragType bgn false)
                (data.take (kBlockSize - boAfterPad bo - kHeaderSize)) ::
                items2) =
              padLen bo + (kHeaderSize +
                (data.take (kBlockSize - boAfterPad bo -
                  kHeaderSize)).length + renderLen items2) := by
            rw [renderLen_append, renderLen_padOf, renderLen_rec_cons]
          have hSlen := congrArg List.length hS
          rw [List.length_drop, List.length_append, renderItems_length,
            hrlitems] at hSlen
          generalize hgp : data.take (kBlockSize - boAfterPad bo -
            kHeaderSize) = p1 at hphys hlenp1 hSlen hS hrlitems ⊢
          generalize hgd : data.drop (kBlockSize - boAfterPad bo -
            kHeaderSize) = d1 at hrec2
          have hsplit : p1 ++ d1 = data := by
            rw [← hgp, ← hgd]
            exact List.take_append_drop _ data
          have hpos2 : (pos + padLen bo + kHeaderSize + p1.length) %
              kBlockSize = kBlockSize % kBlockSize := by
            rw [hlenp1]
            unfold kBlockSize at hpl
            unfold kBlockSize kHeaderSize at hB ⊢
            omega
          have hS2 : S.drop (pos + padLen bo + kHeaderSize + p1.length - D) =
              renderItems crcFn items2 ++ tail := by
            have hS3 : S.drop (pos - D) = (renderItems crcFn (padOf bo) ++
                renderItem crcFn (PhysItem.record (fragType bgn false) p1)) ++
                (renderItems crcFn items2 ++ tail) := by
              rw [hS, renderItems_append, renderItems_cons]
              simp only [List.append_assoc]
            have hpre : (renderItems crcFn (padOf bo) ++
                renderItem crcFn (PhysItem.record (fragType bgn false)
                  p1)).length = padLen bo + (kHeaderSize + p1.length) := by
              rw [List.length_append, renderItems_length, renderLen_padOf,
                renderItem_length]
              rfl
            have hd := drop_shift hS3 hpre
            rw [show pos + padLen bo + kHeaderSize + p1.length - D =
              pos - D + (padLen bo + (kHeaderSize + p1.length)) from by omega]
            exact hd
          have hplk : padLen kBlockSize = 0 := by decide
          have hio2 : io ≤ pos + padLen bo + kHeaderSize + p1.length +
              padLen kBlockSize := by
            rw [hplk]
            omega
          have hlen2 : pos + padLen bo + kHeaderSize + p1.length - D ≤
              S.length := by
            unfold kHeaderSize at hSlen ⊢
            omega
          cases bgn with
          | true =>
            rw [show fragType true false = kFirstType from by decide] at hphys
            rw [loop_first io f D S
              (pos + padLen bo + kHeaderSize + p1.length) resy
              (stateAt D S pos resy) inFrag scratch p1 pros hphys]
            rw [stateAt_off D S (pos + padLen bo + kHeaderSize + p1.length)
              resy (by omega) hlen2]
            rw [show pos + padLen bo + kHeaderSize + p1.length - kHeaderSize -
              p1.length = pos + padLen bo from by omega]
            rw [ih kBlockSize d1 items2 boEnd2 D S
              (pos + padLen bo + kHeaderSize + p1.length) tail false false
              true p1 (pos + padLen bo) f hrec2 (le_refl kBlockSize) hpos2 hD
              (by omega) hS2 hio2 (fun _ => ⟨rfl, rfl⟩)
              (by rw [hrlen2] at hfuel; omega)]
            rw [hrlitems]
            rw [show pos + (padLen bo + (kHeaderSize + p1.length +
              renderLen items2)) = pos + padLen bo + kHeaderSize + p1.length +
              renderLen items2 from by omega]
            simp only [if_neg (show ¬(false = true) from fun hx => nomatch hx),
              eq_self_iff_true, if_true]
            rw [hsplit]
          | false =>
            obtain ⟨hresy, hinf⟩ := hbf rfl
            subst hresy
            subst hinf
            rw [show fragType false false = kMiddleType from by decide] at hphys
            rw [loop_middle_infrag io f D S
              (pos + padLen bo + kHeaderSize + p1.length)
              (stateAt D S pos false) scratch p1 pros hphys]
            rw [ih kBlockSize d1 items2 boEnd2 D S
              (pos + padLen bo + kHeaderSize + p1.length) tail false false
              true (scratch ++ p1) pros f hrec2 (le_refl kBlockSize) hpos2 hD
              (by omega) hS2 hio2 (fun _ => ⟨rfl, rfl⟩)
              (by rw [hrlen2] at hfuel; omega)]
            rw [hrlitems]
            rw [show pos + (padLen bo + (kHeaderSize + p1.length +
              renderLen items2)) = pos + padLen bo + kHeaderSize + p1.length +
              renderLen items2 from by omega]
            simp only [if_neg (show ¬(false = true) from fun hx => nomatch hx)]
            rw [List.append_assoc, hsplit]

/-- ReadRecord skips a record whose first fragment starts before
`initial_offset_`: every fragment beginning before the cut comes back as
`kBadRecord` and is dropped, and the continuation fragments at or past the
cut are `Middle`/`Last` fragments dropped either by resyncing or as orphans
by the `in_fragmented_record` logic, so the loop passes over the whole
record, spending one fuel unit per fragment and clearing `resyncing_`.
With `bgn = false` the same holds for the continuation fragments of a
record cut by SkipToInitialBlock, whatever their relation to the cut. -/
theorem readRecord_skip (crcFn : Nat → List Nat → Nat) (io : Nat) :
    ∀ fuelW : Nat, ∀ (bo : Nat) (data : List Nat) (items : List PhysItem)
      (bo2 D : Nat) (S : List Nat) (pos : Nat) (tail : List Nat)
      (bgn resy : Bool) (scratch : List Nat) (pros fuelR : Nat),
      addRecordLoop fuelW bo data bgn = some (items, bo2) →
      bo ≤ kBlockSize →
      pos % kBlockSize = bo % kBlockSize →
      D % kBlockSize = 0 → D ≤ pos →
      S.drop (pos - D) = renderItems crcFn items ++ tail →
      (bgn = true → pos + padLen bo < io) →
      readRecordLoop io (fuelR + (recsOf items).length) (stateAt D S pos resy)
          false scratch pros =
        readRecordLoop io fuelR (stateAt D S (pos + renderLen items) false)
          false scratch pros := by
  intro fuelW
  induction fuelW with
  | zero =>
    intro bo data items bo2 D S pos tail bgn resy scratch pros fuelR
      h hbo hpos hD hDpos hS hlt
    exact absurd h (by simp [addRecordLoop])
  | succ fw ih =>
    intro bo data items bo2 D S pos tail bgn resy scratch pros fuelR
      h hbo hpos hD hDpos hS hlt
    rw [addRecordLoop] at h
    have hB := boAfterPad_le bo hbo
    by_cases hend : data.length ≤ kBlockSize - boAfterPad bo - kHeaderSize
    · rw [if_pos hend] at h
      simp only [Option.some.injEq, Prod.mk.injEq] at h
      obtain ⟨hitems, hbo2⟩ := h
      have htake : data.take (kBlockSize - boAfterPad bo - kHeaderSize) = data :=
        List.take_of_length_le hend
      rw [htake] at hitems
      subst hitems
      have hrlen : (recsOf (padOf bo ++
          [PhysItem.record (fragType bgn true) data])).length = 1 := by
        rw [recsOf_append, recsOf_padOf]
        rfl
      have hrl : renderLen (padOf bo ++
          [PhysItem.record (fragType bgn true) data]) =
          padLen bo + (kHeaderSize + data.length) := by
        rw [renderLen_append, renderLen_padOf, renderLen_rec_single]
      have hphys := readPhysical_padRecord crcFn io D S pos resy bo
        (fragType bgn true) data [] tail hbo hpos hD hDpos hS
        (by unfold kBlockSize kHeaderSize at hB hend ⊢; omega)
        (by cases bgn <;> decide)
      rw [hrlen]
      have hposEnd : pos + (padLen bo + (kHeaderSize + data.length)) =
          pos + padLen bo + kHeaderSize + data.length := by omega
      cases bgn with
      | true =>
        have hstart := hlt rfl
        rw [if_pos hstart, if_pos hstart] at hphys
        rw [loop_bad_clean io fuelR D S
          (pos + padLen bo + kHeaderSize + data.length) resy
          (stateAt D S pos resy) scratch [] pros hphys]
        rw [hrl, hposEnd]
      | false =>
        by_cases hio1 : pos + padLen bo < io
        · rw [if_pos hio1, if_pos hio1] at hphys
          rw [loop_bad_clean io fuelR D S
            (pos + padLen bo + kHeaderSize + data.length) resy
            (stateAt D S pos resy) scratch [] pros hphys]
          rw [hrl, hposEnd]
        · rw [if_neg hio1, if_neg hio1] at hphys
          rw [show fragType false true = kLastType from by decide] at hphys
          cases resy with
          | true =>
            rw [loop_last_resync io fuelR D S
              (pos + padLen bo + kHeaderSize + data.length)
              (stateAt D S pos true) false scratch data pros hphys]
            rw [hrl, hposEnd]
          | false =>
            rw [loop_last_orphan io fuelR D S
              (pos + padLen bo + kHeaderSize + data.length)
              (stateAt D S pos false) scratch data pros hphys]
            rw [hrl, hposEnd]
    · rw [if_neg hend] at h
      cases hrec : addRecordLoop fw (boAfterPad bo + kHeaderSize +
          (kBlockSize - boAfterPad bo - kHeaderSize))
          (data.drop (kBlockSize - boAfterPad bo - kHeaderSize)) false with
      | none =>
        rw [hrec] at h
        exact nomatch h
      | some pr =>
        obtain ⟨items2, boEnd2⟩ := pr
        rw [hrec] at h
        simp only [Option.some.injEq, Prod.mk.injEq] at h
        obtain ⟨hitems, hbo2⟩ := h
        subst hitems
        have hlenp1 : (data.take (kBlockSize - boAfterPad bo -
            kHeaderSize)).length = kBlockSize - boAfterPad bo - kHeaderSize := by
          rw [List.length_take]
          unfold kBlockSize kHeaderSize at hend hB ⊢
          omega
        have hrlen2 : (recsOf (padOf bo ++ PhysItem.record (fragType bgn false)
            (data.take (kBlockSize - boAfterPad bo - kHeaderSize)) ::
            items2)).length = (recsOf items2).length + 1 := by
          rw [recsOf_append, recsOf_padOf, List.nil_append, recsOf_cons_rec,
            List.length_cons]
        have hphys := readPhysical_padRecord crcFn io D S pos resy bo
          (fragType bgn false)
          (data.take (kBlockSize - boAfterPad bo - kHeaderSize)) items2 tail
          hbo hpos hD hDpos hS
          (by rw [hlenp1]; unfold kBlockSize kHeaderSize at hB ⊢; omega)
          (by cases bgn <;> decide)
        have hrec2 : addRecordLoop fw kBlockSize
            (data.drop (kBlockSize - boAfterPad bo - kHeaderSize)) false =
            some (items2, boEnd2) := by
          rw [show boAfterPad bo + kHeaderSize +
            (kBlockSize - boAfterPad bo - kHeaderSize) = kBlockSize from by
              unfold kBlockSize kHeaderSize at hB ⊢; omega] at hrec
          exact hrec
        have hpl := pos_padLen_mod bo pos hbo hpos
        have hrlitems : renderLen (padOf bo ++
            PhysItem.record (fragType bgn false)
              (data.take (kBlockSize - boAfterPad bo - kHeaderSize)) ::
              items2) =
            padLen bo + (kHeaderSize +
              (data.take (kBlockSize - boAfterPad bo -
                kHeaderSize)).length + renderLen items2) := by
          rw [renderLen_append, renderLen_padOf, renderLen_rec_cons]
        have hSlen := congrArg List.length hS
        rw [List.length_drop, List.length_append, renderItems_length,
          hrlitems] at hSlen
        generalize hgp : data.take (kBlockSize - boAfterPad bo -
          kHeaderSize) = p1 at hphys hlenp1 hSlen hS hrlitems hrlen2 ⊢
        generalize hgd : data.drop (kBlockSize - boAfterPad bo -
          kHeaderSize) = d1 at hrec2
        have hpos2 : (pos + padLen bo + kHeaderSize + p1.length) %
            kBlockSize = kBlockSize % kBlockSize := by
          rw [hlenp1]
          unfold kBlockSize at hpl
          unfold kBlockSize kHeaderSize at hB ⊢
          omega
        have hS2 : S.drop (pos + padLen bo + kHeaderSize + p1.length - D) =
            renderItems crcFn items2 ++ tail := by
          have hS3 : S.drop (pos - D) = (renderItems crcFn (padOf bo) ++
              renderItem crcFn (PhysItem.record (fragType bgn false) p1)) ++
              (renderItems crcFn items2 ++ tail) := by
            rw [hS, renderItems_append, renderItems_cons]
            simp only [List.append_assoc]
          have hpre : (renderItems crcFn (padOf bo) ++
              renderItem crcFn (PhysItem.record (fragType bgn false)
                p1)).length = padLen bo + (kHeaderSize + p1.length) := by
            rw [List.length_append, renderItems_length, renderLen_padOf,
              renderItem_length]
            rfl
          have hd := drop_shift hS3 hpre
          rw [show pos + padLen bo + kHeaderSize + p1.length - D =
            pos - D + (padLen bo + (kHeaderSize + p1.length)) from by omega]
          exact hd
        rw [hrlen2, Nat.add_succ]
        have hposEnd : pos + (padLen bo + (kHeaderSize + p1.length +
            renderLen items2)) = pos + padLen bo + kHeaderSize + p1.length +
            renderLen items2 := by omega
        cases bgn with
        | true =>
          have hstart := hlt rfl
          rw [if_pos hstart, if_pos hstart] at hphys
          rw [loop_bad_clean io (fuelR + (recsOf items2).length) D S
            (pos + padLen bo + kHeaderSize + p1.length) resy
            (stateAt D S pos resy) scratch [] pros hphys]
          rw [ih kBlockSize d1 items2 boEnd2 D S
            (pos + padLen bo + kHeaderSize + p1.length) tail false false
            scratch pros fuelR hrec2 (le_refl kBlockSize) hpos2 hD (by omega)
            hS2 (fun hx => nomatch hx)]
          rw [hrlitems, hposEnd]
        | false =>
          by_cases hio1 : pos + padLen bo < io
          · rw [if_pos hio1, if_pos hio1] at hphys
            rw [loop_bad_clean io (fuelR + (recsOf items2).length) D S
              (pos + padLen bo + kHeaderSize + p1.length) resy
              (stateAt D S pos resy) scratch [] pros hphys]
            rw [ih kBlockSize d1 items2 boEnd2 D S
              (pos + padLen bo + kHeaderSize + p1.length) tail false false
              scratch pros fuelR hrec2 (le_refl kBlockSize) hpos2 hD (by omega)
              hS2 (fun hx => nomatch hx)]
            rw [hrlitems, hposEnd]
          · rw [if_neg hio1, if_neg hio1] at hphys
            rw [show fragType false false = kMiddleType from by decide] at hphys
            cases resy with
            | true =>
              rw [loop_middle_resync io (fuelR + (recsOf items2).length) D S
                (pos + padLen bo + kHeaderSize + p1.length)
                (stateAt D S pos true) false scratch p1 pros hphys]
              rw [ih kBlockSize d1 items2 boEnd2 D S
                (pos + padLen bo + kHeaderSize + p1.length) tail false true
                scratch pros fuelR hrec2 (le_refl kBlockSize) hpos2 hD
                (by omega) hS2 (fun hx => nomatch hx)]
              rw [hrlitems, hposEnd]
            | false =>
              rw [loop_middle_orphan io (fuelR + (recsOf items2).length) D S
                (pos + padLen bo + kHeaderSize + p1.length)
                (stateAt D S pos false) scratch p1 pros hphys]
              rw [ih kBlockSize d1 items2 boEnd2 D S
                (pos + padLen bo + kHeaderSize + p1.length) tail false false
                scratch pros fuelR hrec2 (le_refl kBlockSize) hpos2 hD
                (by omega) hS2 (fun hx => nomatch hx)]
              rw [hrlitems, hposEnd]

theorem addRecordLoop_boEnd_mod (fuelW : Nat) :
    ∀ (bo : Nat) (data : List Nat) (bgn : Bool) (items : List PhysItem)
      (bo2 pos : Nat),
      addRecordLoop fuelW bo data bgn = some (items, bo2) →
      bo ≤ kBlockSize → pos % kBlockSize = bo % kBlockSize →
      (pos + renderLen items) % kBlockSize = bo2 % kBlockSize := by
  induction fuelW with
  | zero =>
    intro bo data bgn items bo2 pos h hbo hpos
    exact absurd h (by simp [addRecordLoop])
  | succ fw ih =>
    intro bo data bgn items bo2 pos h hbo hpos
    rw [addRecordLoop] at h
    have hB := boAfterPad_le bo hbo
    have hpl := pos_padLen_mod bo pos hbo hpos
    by_cases hend : data.length ≤ kBlockSize - boAfterPad bo - kHeaderSize
    · rw [if_pos hend] at h
      simp only [Option.some.injEq, Prod.mk.injEq] at h
      obtain ⟨hitems, hbo2⟩ := h
      have htake : data.take (kBlockSize - boAfterPad bo - kHeaderSize) = data :=
        List.take_of_length_le hend
      rw [htake] at hitems
      subst hitems
      subst hbo2
      rw [renderLen_append, renderLen_padOf, renderLen_rec_single]
      unfold kBlockSize at hpl
      unfold kBlockSize kHeaderSize at hB ⊢
      omega
    · rw [if_neg hend] at h
      cases hrec : addRecordLoop fw (boAfterPad bo + kHeaderSize +
          (kBlockSize - boAfterPad bo - kHeaderSize))
          (data.drop (kBlockSize - boAfterPad bo - kHeaderSize)) false with
      | none =>
        rw [hrec] at h
        exact nomatch h
      | some pr =>
        obtain ⟨items2, boEnd2⟩ := pr
        rw [hrec] at h
        simp only [Option.some.injEq, Prod.mk.injEq] at h
        obtain ⟨hitems, hbo2⟩ := h
        subst hitems
        subst hbo2
        have hlenp1 : (data.take (kBlockSize - boAfterPad bo -
            kHeaderSize)).length = kBlockSize - boAfterPad bo - kHeaderSize := by
          rw [List.length_take]
          unfold kBlockSize kHeaderSize at hend hB ⊢
          omega
        have hrec2 : addRecordLoop fw kBlockSize
            (data.drop (kBlockSize - boAfterPad bo - kHeaderSize)) false =
            some (items2, boEnd2) := by
          rw [show boAfterPad bo + kHeaderSize +
            (kBlockSize - boAfterPad bo - kHeaderSize) = kBlockSize from by
              unfold kBlockSize kHeaderSize at hB ⊢; omega] at hrec
          exact hrec
        have hrlitems : renderLen (padOf bo ++
            PhysItem.record (fragType bgn false)
              (data.take (kBlockSize - boAfterPad bo - kHeaderSize)) ::
              items2) =
            padLen bo + (kHeaderSize +
              (data.take (kBlockSize - boAfterPad bo -
                kHeaderSize)).length + renderLen items2) := by
          rw [renderLen_append, renderLen_padOf, renderLen_rec_cons]
        generalize hgp : data.take (kBlockSize - boAfterPad bo -
          kHeaderSize) = p1 at hlenp1 hrlitems ⊢
        generalize hgd : data.drop (kBlockSize - boAfterPad bo -
          kHeaderSize) = d1 at hrec2
        have hpos2 : (pos + padLen bo + kHeaderSize + p1.length) %
            kBlockSize = kBlockSize % kBlockSize := by
          rw [hlenp1]
          unfold kBlockSize at hpl
          unfold kBlockSize kHeaderSize at hB ⊢
          omega
        have hIH := ih kBlockSize d1 false items2 boEnd2
          (pos + padLen bo + kHeaderSize + p1.length) hrec2
          (le_refl kBlockSize) hpos2
        rw [hrlitems]
        rw [show pos + (padLen bo + (kHeaderSize + p1.length +
          renderLen items2)) = pos + padLen bo + kHeaderSize + p1.length +
          renderLen items2 from by omega]
        exact hIH

theorem addRecordLoop_renderLen_lb (fuelW bo : Nat) (data : List Nat)
    (bgn : Bool) (items : List PhysItem) (bo2 : Nat)
    (h : addRecordLoop fuelW bo data bgn = some (items, bo2)) :
    padLen bo + kHeaderSize ≤ renderLen items := by
  cases fuelW with
  | zero => exact absurd h (by simp [addRecordLoop])
  | succ fw =>
    rw [addRecordLoop] at h
    by_cases hend : data.length ≤ kBlockSize - boAfterPad bo - kHeaderSize
    · rw [if_pos hend] at h
      simp only [Option.some.injEq, Prod.mk.injEq] at h
      obtain ⟨hitems, hbo2⟩ := h
      subst hitems
      rw [renderLen_append, renderLen_padOf, renderLen_rec_single]
      omega
    · rw [if_neg hend] at h
      cases hrec : addRecordLoop fw (boAfterPad bo + kHeaderSize +
          (kBlockSize - boAfterPad bo - kHeaderSize))
          (data.drop (kBlockSize - boAfterPad bo - kHeaderSize)) false with
      | none =>
        rw [hrec] at h
        exact nomatch h
      | some pr =>
        obtain ⟨items2, boEnd2⟩ := pr
        rw [hrec] at h
        simp only [Option.some.injEq, Prod.mk.injEq] at h
        obtain ⟨hitems, hbo2⟩ := h
        subst hitems
        rw [renderLen_append, renderLen_padOf, renderLen_rec_cons]
        omega

theorem addRecordLoop_norm (fw bo : Nat) (data : List Nat) (bgn : Bool)
    (h0 : boAfterPad bo = 0) :
    addRecordLoop (fw + 1) bo data bgn =
      Option.map (fun r => (padOf bo ++ r.1, r.2))
        (addRecordLoop (fw + 1) kBlockSize data bgn) := by
  have h1 : boAfterPad kBlockSize = 0 := by decide
  have h2 : padOf kBlockSize = [] := by decide
  rw [addRecordLoop, addRecordLoop, h0, h1, h2]
  by_cases hend : data.length ≤ kBlockSize - 0 - kHeaderSize
  · rw [if_pos hend, if_pos hend]
    simp
  · rw [if_neg hend, if_neg hend]
    cases hrec : addRecordLoop fw (0 + kHeaderSize +
        (kBlockSize - 0 - kHeaderSize))
        (data.drop (kBlockSize - 0 - kHeaderSize)) false with
    | none => rfl
    | some pr =>
      obtain ⟨items2, b2⟩ := pr
      simp

theorem expectedRecords_append (crcFn : Nat → List Nat → Nat) (io fuelW : Nat)
    (rs2 : List (List Nat)) :
    ∀ (rs1 : List (List Nat)) (pos bo : Nat) (items1 : List PhysItem)
      (boM : Nat),
      addRecords fuelW rs1 bo = some (items1, boM) →
      expectedRecords io fuelW (rs1 ++ rs2) pos bo =
        expectedRecords io fuelW rs1 pos bo ++
          expectedRecords io fuelW rs2 (pos + renderLen items1) boM := by
  intro rs1
  induction rs1 with
  | nil =>
    intro pos bo items1 boM h
    simp only [addRecords, Option.some.injEq, Prod.mk.injEq] at h
    obtain ⟨h1, h2⟩ := h
    subst h1
    subst h2
    simp [expectedRecords, renderLen]
  | cons r rs1x ih =>
    intro pos bo items1 boM h
    rw [addRecords] at h
    cases h1 : addRecordLoop fuelW bo r true with
    | none =>
      rw [h1] at h
      exact nomatch h
    | some pr1 =>
      obtain ⟨itemsA, boA⟩ := pr1
      rw [h1] at h
      dsimp only at h
      cases h2 : addRecords fuelW rs1x boA with
      | none =>
        rw [h2] at h
        exact nomatch h
      | some pr2 =>
        obtain ⟨itemsB, boB⟩ := pr2
        rw [h2] at h
        simp only [Option.some.injEq, Prod.mk.injEq] at h
        obtain ⟨hi, hb⟩ := h
        subst hi
        subst hb
        rw [show (r :: rs1x) ++ rs2 = r :: (rs1x ++ rs2) from rfl]
        rw [expectedRecords, h1]
        rw [expectedRecords, h1]
        dsimp only
        rw [ih (pos + renderLen itemsA) boA itemsB boB h2]
        rw [renderLen_append]
        rw [show pos + (renderLen itemsA + renderLen itemsB) =
          pos + renderLen itemsA + renderLen itemsB from by omega]
        rw [List.append_assoc]

theorem loop_eof_end (io f D : Nat) (S : List Nat) (pos : Nat)
    (resy inFrag : Bool) (scratch : List Nat) (pros : Nat)
    (hEnd : S.length ≤ pos - D) :
    ∃ st2, readRecordLoop io (f + 1) (stateAt D S pos resy) inFrag scratch
      pros = .eofEnd st2 := by
  obtain ⟨st2, hphys⟩ := readPhysical_eof io D S pos resy hEnd
  exact loop_eofRes io f (stateAt D S pos resy) st2 inFrag scratch [] pros hphys

theorem addRecordLoop_cut (crcFn : Nat → List Nat → Nat) :
    ∀ fuelW : Nat, ∀ (bo : Nat) (data : List Nat) (bgn : Bool)
      (items : List PhysItem) (bo2 D : Nat) (S : List Nat) (pos : Nat)
      (tail : List Nat) (B : Nat),
      addRecordLoop fuelW bo data bgn = some (items, bo2) →
      bo ≤ kBlockSize →
      pos % kBlockSize = bo % kBlockSize →
      D % kBlockSize = 0 → D ≤ pos →
      S.drop (pos - D) = renderItems crcFn items ++ tail →
      B % kBlockSize = 0 →
      pos + padLen bo < B →
      B < pos + renderLen items →
      ∃ fuelW2 d2 items2,
        addRecordLoop fuelW2 kBlockSize d2 false = some (items2, bo2) ∧
        pos + renderLen items = B + renderLen items2 ∧
        S.drop (B - D) = renderItems crcFn items2 ++ tail ∧
        (recsOf items2).length ≤ (recsOf items).length := by
  intro fuelW
  induction fuelW with
  | zero =>
    intro bo data bgn items bo2 D S pos tail B h
    exact absurd h (by simp [addRecordLoop])
  | succ fw ih =>
    intro bo data bgn items bo2 D S pos tail B
      h hbo hpos hD hDpos hS hBmod hlt1 hlt2
    rw [addRecordLoop] at h
    have hB := boAfterPad_le bo hbo
    have hpl := pos_padLen_mod bo pos hbo hpos
    by_cases hend : data.length ≤ kBlockSize - boAfterPad bo - kHeaderSize
    · rw [if_pos hend] at h
      simp only [Option.some.injEq, Prod.mk.injEq] at h
      obtain ⟨hitems, hbo2⟩ := h
      have htake : data.take (kBlockSize - boAfterPad bo - kHeaderSize) = data :=
        List.take_of_length_le hend
      rw [htake] at hitems
      subst hitems
      rw [renderLen_append, renderLen_padOf, renderLen_rec_single] at hlt2
      exact absurd hlt2 (by
        unfold kBlockSize at hpl hBmod
        unfold kBlockSize kHeaderSize at hB hend
        unfold kHeaderSize
        omega)
    · rw [if_neg hend] at h
      cases hrec : addRecordLoop fw (boAfterPad bo + kHeaderSize +
          (kBlockSize - boAfterPad bo - kHeaderSize))
          (data.drop (kBlockSize - boAfterPad bo - kHeaderSize)) false with
      | none =>
        rw [hrec] at h
        exact nomatch h
      | some pr =>
        obtain ⟨items2, boEnd2⟩ := pr
        rw [hrec] at h
        simp only [Option.some.injEq, Prod.mk.injEq] at h
        obtain ⟨hitems, hbo2⟩ := h
        subst hitems
        subst hbo2
        have hlenp1 : (data.take (kBlockSize - boAfterPad bo -
            kHeaderSize)).length = kBlockSize - boAfterPad bo - kHeaderSize := by
          rw [List.length_take]
          unfold kBlockSize kHeaderSize at hend hB ⊢
          omega
        have hrec2 : addRecordLoop fw kBlockSize
            (data.drop (kBlockSize - boAfterPad bo - kHeaderSize)) false =
            some (items2, boEnd2) := by
          rw [show boAfterPad bo + kHeaderSize +
            (kBlockSize - boAfterPad bo - kHeaderSize) = kBlockSize from by
              unfold kBlockSize kHeaderSize at hB ⊢; omega] at hrec
          exact hrec
        have hrlitems : renderLen (padOf bo ++
            PhysItem.record (fragType bgn false)
              (data.take (kBlockSize - boAfterPad bo - kHeaderSize)) ::
              items2) =
            padLen bo + (kHeaderSize +
              (data.take (kBlockSize - boAfterPad bo -
                kHeaderSize)).length + renderLen items2) := by
          rw [renderLen_append, renderLen_padOf, renderLen_rec_cons]
        have hrlen2 : (recsOf (padOf bo ++ PhysItem.record (fragType bgn false)
            (data.take (kBlockSize - boAfterPad bo - kHeaderSize)) ::
            items2)).length = (recsOf items2).length + 1 := by
          rw [recsOf_append, recsOf_padOf, List.nil_append, recsOf_cons_rec,
            List.length_cons]
        generalize hgp : data.take (kBlockSize - boAfterPad bo -
          kHeaderSize) = p1 at hlenp1 hrlitems hrlen2 hS hlt2 ⊢
        generalize hgd : data.drop (kBlockSize - boAfterPad bo -
          kHeaderSize) = d1 at hrec2
        have hpos2 : (pos + padLen bo + kHeaderSize + p1.length) %
            kBlockSize = kBlockSize % kBlockSize := by
          rw [hlenp1]
          unfold kBlockSize at hpl
          unfold kBlockSize kHeaderSize at hB ⊢
          omega
        have hS2 : S.drop (pos + padLen bo + kHeaderSize + p1.length - D) =
            renderItems crcFn items2 ++ tail := by
          have hS3 : S.drop (pos - D) = (renderItems crcFn (padOf bo) ++
              renderItem crcFn (PhysItem.record (fragType bgn false) p1)) ++
              (renderItems crcFn items2 ++ tail) := by
            rw [hS, renderItems_append, renderItems_cons]
            simp only [List.append_assoc]
          have hpre : (renderItems crcFn (padOf bo) ++
              renderItem crcFn (PhysItem.record (fragType bgn false)
                p1)).length = padLen bo + (kHeaderSize + p1.length) := by
            rw [List.length_append, renderItems_length, renderLen_padOf,
              renderItem_length]
            rfl
          have hd := drop_shift hS3 hpre
          rw [show pos + padLen bo + kHeaderSize + p1.length - D =
            pos - D + (padLen bo + (kHeaderSize + p1.length)) from by omega]
          exact hd
        rw [hrlitems] at hlt2
        by_cases hBeq : B = pos + padLen bo + kHeaderSize + p1.length
        · refine ⟨fw, d1, items2, hrec2, ?_, ?_, ?_⟩
          · rw [hrlitems, hBeq]
            omega
          · rw [hBeq]
            exact hS2
          · rw [hrlen2]
            omega
        · by_cases hBlt : B < pos + padLen bo + kHeaderSize + p1.length
          · exact absurd hBlt (by
              rw [hlenp1] at hBlt ⊢
              unfold kBlockSize at hpl hBmod
              unfold kBlockSize kHeaderSize at hB ⊢
              omega)
          · have hgt : pos + padLen bo + kHeaderSize + p1.length < B := by
              omega
            obtain ⟨fw2, d2, items3, hr3, hlen3, hS3, hrc3⟩ :=
              ih kBlockSize d1 false items2 boEnd2 D S
                (pos + padLen bo + kHeaderSize + p1.length) tail B hrec2
                (le_refl kBlockSize) hpos2 hD (by omega) hS2 hBmod
                (by rw [show padLen kBlockSize = 0 from by decide]; omega)
                (by omega)
            refine ⟨fw2, d2, items3, hr3, ?_, hS3, ?_⟩
            · rw [hrlitems]
              omega
            · rw [hrlen2]
              omega

theorem expectedRecords_skipped (io fuelW : Nat) :
    ∀ (rs : List (List Nat)) (bo pos : Nat) (allItems : List PhysItem)
      (bo2 : Nat),
      addRecords fuelW rs bo = some (allItems, bo2) →
      bo ≤ kBlockSize → pos % kBlockSize = bo % kBlockSize →
      (∀ s, s % kBlockSize ≤ kBlockSize - kHeaderSize →
        s < pos + renderLen allItems → s < io) →
      expectedRecords io fuelW rs pos bo = [] := by
  intro rs
  induction rs with
  | nil =>
    intro bo pos allItems bo2 h hbo hpos hcut
    rfl
  | cons r rsx ih =>
    intro bo pos allItems bo2 h hbo hpos hcut
    rw [addRecords] at h
    cases h1 : addRecordLoop fuelW bo r true with
    | none =>
      rw [h1] at h
      exact nomatch h
    | some pr1 =>
      obtain ⟨itemsA, boA⟩ := pr1
      rw [h1] at h
      dsimp only at h
      cases h2 : addRecords fuelW rsx boA with
      | none =>
        rw [h2] at h
        exact nomatch h
      | some pr2 =>
        obtain ⟨itemsB, boB⟩ := pr2
        rw [h2] at h
        simp only [Option.some.injEq, Prod.mk.injEq] at h
        obtain ⟨hi, hb⟩ := h
        subst hi
        subst hb
        have hlbA := addRecordLoop_renderLen_lb fuelW bo r true itemsA boA h1
        have hspecA := addRecordLoop_spec fuelW bo r true itemsA boA hbo h1
        have hboA : boA ≤ kBlockSize := hspecA.2.2.2.2.1
        have hmodA := addRecordLoop_boEnd_mod fuelW bo r true itemsA boA pos
          h1 hbo hpos
        have hstart : pos + padLen bo < io := by
          refine hcut (pos + padLen bo) ?_ ?_
          · rw [pos_padLen_mod bo pos hbo hpos]
            exact boAfterPad_le bo hbo
          · rw [renderLen_append]
            unfold kHeaderSize at hlbA
            omega
        rw [expectedRecords, h1]
        dsimp only
        rw [if_neg (by omega), List.nil_append]
        refine ih boA (pos + renderLen itemsA) itemsB boB h2 hboA hmodA ?_
        intro s hsm hslt
        refine hcut s hsm ?_
        rw [renderLen_append]
        omega

theorem loop_all_records (crcFn : Nat → List Nat → Nat) (io : Nat) :
    ∀ (rs : List (List Nat)) (fuelW bo : Nat) (allItems : List PhysItem)
      (bo2 D : Nat) (S : List Nat) (pos fuelR : Nat) (resy : Bool),
      addRecords fuelW rs bo = some (allItems, bo2) →
      bo ≤ kBlockSize → pos % kBlockSize = bo % kBlockSize →
      D % kBlockSize = 0 → D ≤ pos →
      S.drop (pos - D) = renderItems crcFn allItems →
      (recsOf allItems).length < fuelR →
      ((expectedRecords io fuelW rs pos bo = [] ∧
        ∃ st2, readRecordLoop io fuelR (stateAt D S pos resy) false [] 0 =
          .eofEnd st2) ∨
       (∃ start r erest fuelW2 rs2 pos2 bo3 allItems3 bo4,
        expectedRecords io fuelW rs pos bo = (start, r) :: erest ∧
        readRecordLoop io fuelR (stateAt D S pos resy) false [] 0 =
          .record (stateAt D S pos2 false) r start ∧
        addRecords fuelW2 rs2 bo3 = some (allItems3, bo4) ∧
        bo3 ≤ kBlockSize ∧ pos2 % kBlockSize = bo3 % kBlockSize ∧
        D ≤ pos2 ∧
        S.drop (pos2 - D) = renderItems crcFn allItems3 ∧
        (recsOf allItems3).length < fuelR ∧
        rs2.length < rs.length ∧
        erest = expectedRecords io fuelW2 rs2 pos2 bo3)) := by
  intro rs
  induction rs with
  | nil =>
    intro fuelW bo allItems bo2 D S pos fuelR resy h hbo hpos hD hDpos hS hfuel
    simp only [addRecords, Option.some.injEq, Prod.mk.injEq] at h
    obtain ⟨hi, hb⟩ := h
    subst hi
    have hlen : S.length ≤ pos - D := by
      have h2 := congrArg List.length hS
      rw [List.length_drop] at h2
      simp only [renderItems, List.map_nil, List.flatten_nil,
        List.length_nil] at h2
      omega
    left
    refine ⟨rfl, ?_⟩
    cases fuelR with
    | zero => omega
    | succ f => exact loop_eof_end io f D S pos resy false [] 0 hlen
  | cons r rsx ih =>
    intro fuelW bo allItems bo2 D S pos fuelR resy h hbo hpos hD hDpos hS hfuel
    rw [addRecords] at h
    cases h1 : addRecordLoop fuelW bo r true with
    | none =>
      rw [h1] at h
      exact nomatch h
    | some pr1 =>
      obtain ⟨itemsA, boA⟩ := pr1
      rw [h1] at h
      dsimp only at h
      cases h2 : addRecords fuelW rsx boA with
      | none =>
        rw [h2] at h
        exact nomatch h
      | some pr2 =>
        obtain ⟨itemsB, boB⟩ := pr2
        rw [h2] at h
        simp only [Option.some.injEq, Prod.mk.injEq] at h
        obtain ⟨hi, hb⟩ := h
        subst hi
        subst hb
        have hspecA := addRecordLoop_spec fuelW bo r true itemsA boA hbo h1
        have hboA : boA ≤ kBlockSize := hspecA.2.2.2.2.1
        have hmodA := addRecordLoop_boEnd_mod fuelW bo r true itemsA boA pos
          h1 hbo hpos
        have hrcl : (recsOf (itemsA ++ itemsB)).length =
            (recsOf itemsA).length + (recsOf itemsB).length := by
          rw [recsOf_append, List.length_append]
        have hSA : S.drop (pos - D) =
            renderItems crcFn itemsA ++ renderItems crcFn itemsB := by
          rw [hS, renderItems_append]
        have hS2 : S.drop (pos + renderLen itemsA - D) =
            renderItems crcFn itemsB := by
          have hd := drop_shift hSA (by rw [renderItems_length])
          rw [show pos + renderLen itemsA - D =
            pos - D + renderLen itemsA from by omega]
          exact hd
        by_cases hioc : io ≤ pos + padLen bo
        · right
          have hemit := readRecord_emit crcFn io fuelW bo r itemsA boA D S pos
            (renderItems crcFn itemsB) true resy false [] 0 fuelR h1 hbo hpos
            hD hDpos hSA hioc (fun hx => nomatch hx) (by omega)
          simp only [eq_self_iff_true, if_true] at hemit
          refine ⟨pos + padLen bo, r, expectedRecords io fuelW rsx
            (pos + renderLen itemsA) boA, fuelW, rsx, pos + renderLen itemsA,
            boA, itemsB, boB, ?_, hemit, h2, hboA, hmodA, by omega, hS2,
            by omega, by rw [List.length_cons]; omega, rfl⟩
          rw [expectedRecords, h1]
          dsimp only
          rw [if_pos hioc, List.singleton_append]
        · obtain ⟨F1, hF1⟩ : ∃ F1, fuelR = F1 + (recsOf itemsA).length :=
            ⟨fuelR - (recsOf itemsA).length, by omega⟩
          subst hF1
          have hskip := readRecord_skip crcFn io fuelW bo r itemsA boA D S pos
            (renderItems crcFn itemsB) true resy [] 0 F1 h1 hbo hpos hD hDpos
            hSA (fun hx => by omega)
          have hexphead : expectedRecords io fuelW (r :: rsx) pos bo =
              expectedRecords io fuelW rsx (pos + renderLen itemsA) boA := by
            rw [expectedRecords, h1]
            dsimp only
            rw [if_neg hioc, List.nil_append]
          have hIH := ih fuelW boA itemsB boB D S (pos + renderLen itemsA) F1
            false h2 hboA hmodA hD (by omega) hS2 (by omega)
          cases hIH with
          | inl hl =>
            obtain ⟨hexp2, st2, heof⟩ := hl
            left
            refine ⟨?_, st2, ?_⟩
            · rw [hexphead]
              exact hexp2
            · rw [hskip]
              exact heof
          | inr hr2 =>
            obtain ⟨start, r2, erest, fuelW2, rs2, pos2, bo3, allItems3, bo4,
              hexp2, hloop2, hrec3, hbo3, hmod3, hDp3, hS3, hfu3, hln3,
              herest⟩ := hr2
            right
            refine ⟨start, r2, erest, fuelW2, rs2, pos2, bo3, allItems3, bo4,
              ?_, ?_, hrec3, hbo3, hmod3, hDp3, hS3, by omega,
              by rw [List.length_cons]; omega, herest⟩
            · rw [hexphead]
              exact hexp2
            · rw [hskip]
              exact hloop2

theorem readAll_spec (crcFn : Nat → List Nat → Nat) (io : Nat) :
    ∀ (calls : Nat) (rs : List (List Nat)) (fuelW bo : Nat)
      (allItems : List PhysItem) (bo2 D : Nat) (S : List Nat)
      (pos fuelR : Nat) (resy : Bool),
      addRecords fuelW rs bo = some (allItems, bo2) →
      bo ≤ kBlockSize → pos % kBlockSize = bo % kBlockSize →
      D % kBlockSize = 0 → D ≤ pos →
      S.drop (pos - D) = renderItems crcFn allItems →
      (recsOf allItems).length < fuelR →
      rs.length < calls →
      readAll io fuelR calls (stateAt D S pos resy) =
        expectedRecords io fuelW rs pos bo := by
  intro calls
  induction calls with
  | zero =>
    intro rs fuelW bo allItems bo2 D S pos fuelR resy
      h hbo hpos hD hDpos hS hfuel hcalls
    omega
  | succ c ihc =>
    intro rs fuelW bo allItems bo2 D S pos fuelR resy
      h hbo hpos hD hDpos hS hfuel hcalls
    have hpack := loop_all_records crcFn io rs fuelW bo allItems bo2 D S pos
      fuelR resy h hbo hpos hD hDpos hS hfuel
    rw [readAll]
    cases hpack with
    | inl hl =>
      obtain ⟨hexp, st2, heof⟩ := hl
      rw [heof]
      dsimp only
      rw [hexp]
    | inr hr2 =>
      obtain ⟨start, r2, erest, fuelW2, rs2, pos2, bo3, allItems3, bo4,
        hexp, hloop, hrec3, hbo3, hmod3, hDp3, hS3, hfu3, hln3, herest⟩ := hr2
      rw [hloop]
      dsimp only
      rw [ihc rs2 fuelW2 bo3 allItems3 bo4 D S pos2 fuelR false hrec3 hbo3
        hmod3 hD hDp3 hS3 hfu3 (by omega)]
      rw [hexp, herest]

theorem padLen_lt (bo : Nat) : padLen bo < kHeaderSize := by
  unfold padLen kHeaderSize
  split_ifs with hx
  · omega
  · omega

theorem cut_file (crcFn : Nat → List Nat → Nat) :
    ∀ (rs : List (List Nat)) (fuelW bo : Nat) (allItems : List PhysItem)
      (bo2 D : Nat) (S : List Nat) (pos B : Nat),
      addRecords fuelW rs bo = some (allItems, bo2) →
      bo ≤ kBlockSize → pos % kBlockSize = bo % kBlockSize →
      D % kBlockSize = 0 → D ≤ pos →
      S.drop (pos - D) = renderItems crcFn allItems →
      B % kBlockSize = 0 → pos ≤ B →
      (pos + renderLen allItems ≤ B ∨
       (∃ rs1 rs2 items1 itemsR boM,
         rs = rs1 ++ rs2 ∧
         addRecords fuelW rs1 bo = some (items1, boM) ∧
         addRecords fuelW rs2 kBlockSize = some (itemsR, bo2) ∧
         B = pos + renderLen items1 + padLen boM ∧
         pos + renderLen allItems = B + renderLen itemsR ∧
         S.drop (B - D) = renderItems crcFn itemsR ∧
         (recsOf itemsR).length ≤ (recsOf allItems).length ∧
         (∀ io2 : Nat, expectedRecords io2 fuelW rs2 B kBlockSize =
           expectedRecords io2 fuelW rs2 (pos + renderLen items1) boM)) ∨
       (∃ rs1 r2 rs2 items1 boM itemsH boA fuelW2 d2 items2 itemsRest,
         rs = rs1 ++ r2 :: rs2 ∧
         addRecords fuelW rs1 bo = some (items1, boM) ∧
         addRecordLoop fuelW boM r2 true = some (itemsH, boA) ∧
         addRecords fuelW rs2 boA = some (itemsRest, bo2) ∧
         addRecordLoop fuelW2 kBlockSize d2 false = some (items2, boA) ∧
         boM ≤ kBlockSize ∧
         (pos + renderLen items1) % kBlockSize = boM % kBlockSize ∧
         pos + renderLen items1 + padLen boM < B ∧
         pos + renderLen items1 + renderLen itemsH = B + renderLen items2 ∧
         S.drop (B - D) = renderItems crcFn items2 ++
           renderItems crcFn itemsRest ∧
         (recsOf items2).length + (recsOf itemsRest).length ≤
           (recsOf allItems).length)) := by
  intro rs
  induction rs with
  | nil =>
    intro fuelW bo allItems bo2 D S pos B h hbo hpos hD hDpos hS hBmod hposB
    simp only [addRecords, Option.some.injEq, Prod.mk.injEq] at h
    obtain ⟨hi, hb⟩ := h
    subst hi
    left
    simp only [renderLen, List.map_nil, List.sum_nil]
    omega
  | cons r rsx ih =>
    intro fuelW bo allItems bo2 D S pos B h hbo hpos hD hDpos hS hBmod hposB
    rw [addRecords] at h
    cases h1 : addRecordLoop fuelW bo r true with
    | none =>
      rw [h1] at h
      exact nomatch h
    | some pr1 =>
      obtain ⟨itemsA, boA⟩ := pr1
      rw [h1] at h
      dsimp only at h
      cases h2 : addRecords fuelW rsx boA with
      | none =>
        rw [h2] at h
        exact nomatch h
      | some pr2 =>
        obtain ⟨itemsB, boB⟩ := pr2
        rw [h2] at h
        simp only [Option.some.injEq, Prod.mk.injEq] at h
        obtain ⟨hi, hb⟩ := h
        subst hi
        subst hb
        have hspecA := addRecordLoop_spec fuelW bo r true itemsA boA hbo h1
        have hboA : boA ≤ kBlockSize := hspecA.2.2.2.2.1
        have hmodA := addRecordLoop_boEnd_mod fuelW bo r true itemsA boA pos
          h1 hbo hpos
        have hrcl : (recsOf (itemsA ++ itemsB)).length =
            (recsOf itemsA).length + (recsOf itemsB).length := by
          rw [recsOf_append, List.length_append]
        have hSA : S.drop (pos - D) =
            renderItems crcFn itemsA ++ renderItems crcFn itemsB := by
          rw [hS, renderItems_append]
        have hS2 : S.drop (pos + renderLen itemsA - D) =
            renderItems crcFn itemsB := by
          have hd := drop_shift hSA (by rw [renderItems_length])
          rw [show pos + renderLen itemsA - D =
            pos - D + renderLen itemsA from by omega]
          exact hd
        by_cases hc1 : pos + renderLen itemsA ≤ B
        · have hres := ih fuelW boA itemsB boB D S (pos + renderLen itemsA) B
            h2 hboA hmodA hD (by omega) hS2 hBmod hc1
          cases hres with
          | inl h1x =>
            left
            rw [renderLen_append]
            omega
          | inr hrest =>
            cases hrest with
            | inl h2x =>
              obtain ⟨rs1, rs2, items1, itemsR, boM, heq, ha1, ha2, hBeq,
                htot, hSB, hrc, hexpeq⟩ := h2x
              right
              left
              refine ⟨r :: rs1, rs2, itemsA ++ items1, itemsR, boM,
                by rw [heq]; rfl, ?_, ha2, ?_, ?_, hSB, ?_, ?_⟩
              · rw [addRecords, h1]
                dsimp only
                rw [ha1]
              · rw [renderLen_append]
                omega
              · rw [renderLen_append]
                omega
              · rw [hrcl]
                omega
              · intro io2
                rw [show pos + renderLen (itemsA ++ items1) =
                  pos + renderLen itemsA + renderLen items1 from by
                    rw [renderLen_append]; omega]
                exact hexpeq io2
            | inr h3x =>
              obtain ⟨rs1, r2, rs2, items1, boM, itemsH, boA2, fuelW2, d2,
                items2, itemsRest, heq, ha1, hlp, ha2, hcl, hboM, hmodM,
                hlt, hleq, hSB, hrc⟩ := h3x
              right
              right
              refine ⟨r :: rs1, r2, rs2, itemsA ++ items1, boM, itemsH, boA2,
                fuelW2, d2, items2, itemsRest, by rw [heq]; rfl, ?_, hlp, ha2,
                hcl, hboM, ?_, ?_, ?_, hSB, ?_⟩
              · rw [addRecords, h1]
                dsimp only
                rw [ha1]
              · rw [renderLen_append]
                rw [show pos + (renderLen itemsA + renderLen items1) =
                  pos + renderLen itemsA + renderLen items1 from by omega]
                exact hmodM
              · rw [renderLen_append]
                omega
              · rw [renderLen_append]
                omega
              · rw [hrcl]
                omega
        · have hpl := pos_padLen_mod bo pos hbo hpos
          have hble := boAfterPad_le bo hbo
          have hpadlt := padLen_lt bo
          by_cases hc2 : B ≤ pos + padLen bo
          · have hb0 : boAfterPad bo = 0 := by
              rcases Nat.eq_zero_or_pos (padLen bo) with hz | hp
              · rw [hz] at hpl
                unfold kBlockSize at hBmod hpl
                unfold kBlockSize kHeaderSize at hble
                omega
              · unfold padLen at hp
                unfold boAfterPad
                split_ifs at hp ⊢ <;> omega
            have hBeq : B = pos + padLen bo := by
              rw [hb0] at hpl
              unfold kBlockSize at hBmod hpl
              unfold kHeaderSize at hpadlt
              omega
            cases fuelW with
            | zero => exact absurd h1 (by simp [addRecordLoop])
            | succ fwx =>
              have hnorm := addRecordLoop_norm fwx bo r true hb0
              rw [h1] at hnorm
              cases h1k : addRecordLoop (fwx + 1) kBlockSize r true with
              | none =>
                rw [h1k] at hnorm
                exact nomatch hnorm
              | some prk =>
                obtain ⟨itemsAp, boAp⟩ := prk
                rw [h1k] at hnorm
                simp only [Option.map_some', Option.some.injEq,
                  Prod.mk.injEq] at hnorm
                obtain ⟨hA, hbA⟩ := hnorm
                subst hbA
                subst hA
                right
                left
                refine ⟨[], r :: rsx, [], itemsAp ++ itemsB, bo, rfl, rfl,
                  ?_, ?_, ?_, ?_, ?_, ?_⟩
                · rw [addRecords, h1k]
                  dsimp only
                  rw [h2]
                · rw [show renderLen ([] : List PhysItem) = 0 from rfl]
                  omega
                · rw [renderLen_append, renderLen_append, renderLen_append,
                    renderLen_padOf]
                  omega
                · have hS3 : S.drop (pos - D) =
                      renderItems crcFn (padOf bo) ++
                      renderItems crcFn (itemsAp ++ itemsB) := by
                    rw [hS, renderItems_append, renderItems_append,
                      renderItems_append]
                    simp only [List.append_assoc]
                  have hd := drop_shift hS3 (by
                    rw [renderItems_length, renderLen_padOf])
                  rw [show B - D = pos - D + padLen bo from by omega]
                  exact hd
                · rw [recsOf_append, recsOf_append, recsOf_append,
                    recsOf_padOf]
                  simp
                · intro io2
                  rw [expectedRecords, h1k]
                  rw [expectedRecords, h1]
                  dsimp only
                  rw [show B + padLen kBlockSize = pos + padLen bo from by
                    rw [show padLen kBlockSize = 0 from by decide]; omega]
                  rw [show B + renderLen itemsAp =
                    pos + renderLen (padOf bo ++ itemsAp) from by
                      rw [renderLen_append, renderLen_padOf]; omega]
                  simp only [renderLen, List.map_nil, List.sum_nil,
                    Nat.add_zero]
          · have hlt1 : pos + padLen bo < B := by omega
            obtain ⟨fuelW2, d2, items2, hcutl, hleneq, hSB, hrc2⟩ :=
              addRecordLoop_cut crcFn fuelW bo r true itemsA boA D S pos
                (renderItems crcFn itemsB) B h1 hbo hpos hD hDpos hSA hBmod
                hlt1 (by omega)
            right
            right
            refine ⟨[], r, rsx, [], bo, itemsA, boA, fuelW2, d2, items2,
              itemsB, rfl, rfl, h1, h2, hcutl, hbo, ?_, ?_, ?_, hSB, ?_⟩
            · rw [show renderLen ([] : List PhysItem) = 0 from rfl,
                Nat.add_zero]
              exact hpos
            · rw [show renderLen ([] : List PhysItem) = 0 from rfl]
              omega
            · rw [show renderLen ([] : List PhysItem) = 0 from rfl,
                Nat.add_zero]
              exact hleneq
            · rw [hrcl]
              omega

theorem initReader_zero (S : List Nat) : initReader 0 S = stateAt 0 S 0 false := by
  unfold initReader stateAt
  rw [if_neg (show ¬(0:Nat) < 0 from by omega)]
  rw [if_pos (show (0 - 0) % kBlockSize = 0 from rfl)]
  simp

theorem initReader_pos (io : Nat) (S : List Nat) (h : 0 < io) :
    initReader io S = stateAt 0 S
      (if kBlockSize - 6 < io % kBlockSize then
        io - io % kBlockSize + kBlockSize
       else io - io % kBlockSize) true := by
  have hm := Nat.mod_le io kBlockSize
  unfold initReader
  rw [if_pos h]
  dsimp only
  by_cases hb : kBlockSize - 6 < io % kBlockSize
  · rw [if_pos hb]
    unfold stateAt
    rw [if_pos (show (io - io % kBlockSize + kBlockSize - 0) % kBlockSize = 0
      from by unfold kBlockSize at hm ⊢; omega)]
    simp only [Nat.sub_zero]
  · rw [if_neg hb]
    unfold stateAt
    rw [if_pos (show (io - io % kBlockSize - 0) % kBlockSize = 0
      from by unfold kBlockSize at hm ⊢; omega)]
    simp only [Nat.sub_zero]

theorem skip_cut_lt (io s : Nat)
    (hs : s % kBlockSize ≤ kBlockSize - kHeaderSize)
    (hlt : s < (if kBlockSize - 6 < io % kBlockSize then
      io - io % kBlockSize + kBlockSize else io - io % kBlockSize)) :
    s < io := by
  have h1 := Nat.mod_le io kBlockSize
  split_ifs at hlt with hb
  · unfold kBlockSize kHeaderSize at hs
    unfold kBlockSize at hlt hb h1
    omega
  · omega

/-- **C3.**  For a WAL file produced by a sequence of `Writer::AddRecord`
calls starting at offset 0, and for every `initial_offset`, the Reader
constructed with that offset (SkipToInitialBlock rounds down to the
containing 32 KiB block, advances a block when the offset lies in the
trailing 6 bytes, and starts in resync mode until a Full/Last record is
seen) yields via successive ReadRecord calls exactly those logical records
whose physical start offset is at least `initial_offset`, in file order,
each reported at its physical start offset. -/
theorem c3_reader_initial_offset (crcFn : Nat → List Nat → Nat)
    (io fuelW fuelR calls : Nat) (rs : List (List Nat))
    (allItems : List PhysItem) (bo2 : Nat)
    (h : addRecords fuelW rs 0 = some (allItems, bo2))
    (hfuel : (recsOf allItems).length < fuelR)
    (hcalls : rs.length < calls) :
    readAll io fuelR calls (initReader io (renderItems crcFn allItems)) =
      expectedRecords io fuelW rs 0 0 := by
  rcases Nat.eq_zero_or_pos io with hio0 | hiop
  · subst hio0
    rw [initReader_zero]
    exact readAll_spec crcFn 0 calls rs fuelW 0 allItems bo2 0
      (renderItems crcFn allItems) 0 fuelR false h (Nat.zero_le _) rfl
      (Nat.zero_mod _) (Nat.le_refl 0) (by simp) hfuel hcalls
  · obtain ⟨B0, hB0def⟩ : ∃ B0, B0 = (if kBlockSize - 6 < io % kBlockSize then
        io - io % kBlockSize + kBlockSize else io - io % kBlockSize) :=
      ⟨_, rfl⟩
    have hstate := initReader_pos io (renderItems crcFn allItems) hiop
    rw [← hB0def] at hstate
    rw [hstate]
    have hB0mod : B0 % kBlockSize = 0 := by
      have hm := Nat.mod_le io kBlockSize
      rw [hB0def]
      split_ifs with hb
      · unfold kBlockSize at hm ⊢
        omega
      · unfold kBlockSize at hm ⊢
        omega
    have hcut : ∀ s, s % kBlockSize ≤ kBlockSize - kHeaderSize → s < B0 →
        s < io := by
      intro s hs hlt
      rw [hB0def] at hlt
      exact skip_cut_lt io s hs hlt
    have hS0 : (renderItems crcFn allItems).drop (0 - 0) =
        renderItems crcFn allItems := by simp
    have hSlen : (renderItems crcFn allItems).length = renderLen allItems :=
      renderItems_length crcFn allItems
    have hcf := cut_file crcFn rs fuelW 0 allItems bo2 0
      (renderItems crcFn allItems) 0 B0 h (Nat.zero_le _) rfl
      (Nat.zero_mod _) (Nat.le_refl 0) hS0 hB0mod (Nat.zero_le B0)
    rcases hcf with h1 | h2 | h3
    · rw [expectedRecords_skipped io fuelW rs 0 0 allItems bo2 h
        (Nat.zero_le _) rfl (fun s hs hlt => hcut s hs (by omega))]
      cases calls with
      | zero => omega
      | succ c =>
        cases fuelR with
        | zero => omega
        | succ fR =>
          rw [readAll]
          obtain ⟨st2, heof⟩ := loop_eof_end io fR 0
            (renderItems crcFn allItems) B0 true false [] 0
            (by rw [hSlen]; omega)
          rw [heof]
    · obtain ⟨rs1, rs2, items1, itemsR, boM, heq, ha1, ha2, hBeq, htot, hSB,
        hrc, hexpeq⟩ := h2
      have hlen12 := congrArg List.length heq
      rw [List.length_append] at hlen12
      rw [readAll_spec crcFn io calls rs2 fuelW kBlockSize itemsR bo2 0
        (renderItems crcFn allItems) B0 fuelR true ha2 (le_refl _)
        (by rw [hB0mod, Nat.mod_self]) (Nat.zero_mod _) (Nat.zero_le _)
        hSB (by omega) (by omega)]
      rw [hexpeq io]
      rw [heq]
      rw [expectedRecords_append crcFn io fuelW rs2 rs1 0 0 items1 boM ha1]
      rw [expectedRecords_skipped io fuelW rs1 0 0 items1 boM ha1
        (Nat.zero_le _) rfl (fun s hs hlt => hcut s hs (by omega))]
      rw [List.nil_append]
    · obtain ⟨rs1, r2, rs2, items1, boM, itemsH, boA, fuelW2, d2, items2,
        itemsRest, heq, ha1, hlp, ha2, hcl, hboM, hmodM, hltB, hleq, hSB,
        hrc⟩ := h3
      have hlen12 := congrArg List.length heq
      rw [List.length_append, List.length_cons] at hlen12
      have hboA2 : boA ≤ kBlockSize :=
        (addRecordLoop_spec fuelW2 kBlockSize d2 false items2 boA (le_refl _)
          hcl).2.2.2.2.1
      have hexpfull : expectedRecords io fuelW rs 0 0 =
          expectedRecords io fuelW rs2 (B0 + renderLen items2) boA := by
        rw [heq]
        rw [expectedRecords_append crcFn io fuelW (r2 :: rs2) rs1 0 0 items1
          boM ha1]
        rw [expectedRecords_skipped io fuelW rs1 0 0 items1 boM ha1
          (Nat.zero_le _) rfl (fun s hs hlt => hcut s hs (by omega))]
        rw [List.nil_append]
        rw [expectedRecords, hlp]
        dsimp only
        have hplM := pos_padLen_mod boM (0 + renderLen items1) hboM hmodM
        have hsj : 0 + renderLen items1 + padLen boM < io := by
          refine hcut (0 + renderLen items1 + padLen boM) ?_ (by omega)
          rw [hplM]
          exact boAfterPad_le boM hboM
        rw [if_neg (by omega), List.nil_append]
        rw [hleq]
      rw [hexpfull]
      cases calls with
      | zero => omega
      | succ c =>
        rw [readAll]
        obtain ⟨F1, hF1⟩ : ∃ F1, fuelR = F1 + (recsOf items2).length :=
          ⟨fuelR - (recsOf items2).length, by omega⟩
        subst hF1
        have hskip := readRecord_skip crcFn io fuelW2 kBlockSize d2 items2
          boA 0 (renderItems crcFn allItems) B0
          (renderItems crcFn itemsRest) false true [] 0 F1 hcl (le_refl _)
          (by rw [hB0mod, Nat.mod_self]) (Nat.zero_mod _) (Nat.zero_le _)
          hSB (fun hx => nomatch hx)
        rw [hskip]
        have hmodP : (B0 + renderLen items2) % kBlockSize =
            boA % kBlockSize :=
          addRecordLoop_boEnd_mod fuelW2 kBlockSize d2 false items2 boA B0
            hcl (le_refl _) (by rw [hB0mod, Nat.mod_self])
        have hSP : (renderItems crcFn allItems).drop
            (B0 + renderLen items2 - 0) = renderItems crcFn itemsRest := by
          have hd := drop_shift hSB (by rw [renderItems_length])
          rw [show B0 + renderLen items2 - 0 =
            B0 - 0 + renderLen items2 from by omega]
          exact hd
        have hpack := loop_all_records crcFn io rs2 fuelW boA itemsRest bo2
          0 (renderItems crcFn allItems) (B0 + renderLen items2) F1 false
          ha2 hboA2 hmodP (Nat.zero_mod _) (Nat.zero_le _) hSP (by omega)
        cases hpack with
        | inl hl =>
          obtain ⟨hexp2, st2, heof⟩ := hl
          rw [heof]
          dsimp only
          rw [hexp2]
        | inr hrx =>
          obtain ⟨start, rv, erest, fuelW3, rs3, pos3, bo4, aI4, bo5, hexp2,
            hloop2, hrec4, hbo4, hmod4, hDp4, hS4, hfu4, hln4, herest⟩ := hrx
          rw [hloop2]
          dsimp only
          rw [readAll_spec crcFn io c rs3 fuelW3 bo4 aI4 bo5 0
            (renderItems crcFn allItems) pos3
            (F1 + (recsOf items2).length) false hrec4 hbo4 hmod4
            (Nat.zero_mod _) hDp4 hS4 (by omega) (by omega)]
          rw [hexp2, herest]

theorem c3_witness :
    addRecords 8 [[1, 2], [3]] 0 =
      some ([PhysItem.record 1 [1, 2], PhysItem.record 1 [3]], 17) ∧
    readAll 9 3 3 (initReader 9 (renderItems (fun t p => t + p.length)
        [PhysItem.record 1 [1, 2], PhysItem.record 1 [3]])) =
      expectedRecords 9 8 [[1, 2], [3]] 0 0 :=
  ⟨by decide, c3_reader_initial_offset (fun t p => t + p.length) 9 8 3 3
    [[1, 2], [3]] [PhysItem.record 1 [1, 2], PhysItem.record 1 [3]] 17
    (by decide) (by decide) (by decide)⟩

end LevelDb
